import Mathlib

/-!
# Multiscale transport (`pic-tests/multiscale_matlab.cpp`)

A shallow embedding of the hierarchical decomposition (`DataNode`,
`DecompositionChain`), the cost hierarchy (`decomposeCost`) and the coarse-to-fine
plan propagation (`TransportPlan::propagate`, `TransportPlan::refine`, `core`).

Conventions of the embedding.

* `double` values are exact rationals (`ℚ`); the working cost matrix, whose entries
  are overwritten with `__Inf__`, holds `Option ℚ` with `none` standing for `+∞`.
* `int` indices and sizes are natural numbers: the resolution and the cluster size
  are non-negative, and no index reaches `2^31` on a grid that fits in memory
  together with its `res² × res²` cost matrix.
* A `DataNode*` is the (immutable) node it points to; a `vector` is a `List`.
* Every run ends in a `Run` value: a result, the C++ `exception`, an access outside
  a vector or through an end iterator (`undefined`), or exhausted loop fuel
  (`timeout`) for the two loops whose termination is not syntactically evident.
-/

namespace Multiscale

/-! ## Outcomes -/

/-- Outcome of running a piece of the program. -/
inductive Run (α : Type) where
  /-- Normal completion with a value. -/
  | ok (value : α)
  /-- The statement `throw exception()` was reached. -/
  | exception
  /-- An element outside a vector, or an end iterator, was dereferenced. -/
  | undefined
  /-- The loop fuel ran out before the loop was left. -/
  | timeout
deriving DecidableEq, Repr

/-- Sequencing of runs: the first fault ends the run. -/
def Run.bind {α β : Type} : Run α → (α → Run β) → Run β
  | .ok a, f => f a
  | .exception, _ => .exception
  | .undefined, _ => .undefined
  | .timeout, _ => .timeout

/-- Element access `v[i]` of a vector; outside the vector the behaviour is undefined. -/
def Run.at {α : Type} (v : List α) (i : Nat) : Run α :=
  match v[i]? with
  | some a => .ok a
  | none => .undefined

/-- Run `f` on every element in order, collecting the results (a `for` loop with
`push_back`). -/
def Run.forEach {α β : Type} (f : α → Run β) : List α → Run (List β)
  | [] => .ok []
  | a :: as => (f a).bind fun b => (Run.forEach f as).bind fun bs => .ok (b :: bs)

/-- The tolerance `__EPS__`, `1e-13`. -/
def EPS : ℚ := 1 / 10 ^ 13

/-! ## Data nodes -/

/-- The class `DataNode`: measure, children, center and index. -/
inductive DataNode where
  | mk (measure : ℚ) (children : List DataNode) (center : ℚ × ℚ) (index : Nat)

namespace DataNode

/-- The member function `getMeasure`. -/
def getMeasure : DataNode → ℚ
  | mk m _ _ _ => m

/-- The member function `getChildren`. -/
def getChildren : DataNode → List DataNode
  | mk _ c _ _ => c

/-- The member function `getCenter`. -/
def getCenter : DataNode → ℚ × ℚ
  | mk _ _ c _ => c

/-- The member function `getIndex`. -/
def getIndex : DataNode → Nat
  | mk _ _ _ i => i

/-- The leaf constructor `DataNode(_measure, _center, _index)`: no children, no check. -/
def leaf (measure : ℚ) (center : ℚ × ℚ) (index : Nat) : DataNode :=
  mk measure [] center index

/-- The constructor `DataNode(_measure, _children, _index)`: the center is the mean of
the children's centers, and an index above `unbelievable` throws.  (Without children
the source divides `0.0` by `0`; no node of a chain over `res ≥ 1` is built so.) -/
def internal (unbelievable : Nat) (measure : ℚ) (children : List DataNode) (index : Nat) :
    Run DataNode :=
  let xsum := children.foldl (fun s c => s + c.getCenter.1) 0
  let ysum := children.foldl (fun s c => s + c.getCenter.2) 0
  if index > unbelievable then .exception
  else .ok (mk measure children (xsum / children.length, ysum / children.length) index)

end DataNode

/-! ## Decomposition chain -/

/-- The index pairs `(i, j)` visited by `for i < n` / `for j < n`, in visiting order. -/
def pairs (n : Nat) : List (Nat × Nat) :=
  (List.range n).flatMap fun i => (List.range n).map fun j => (i, j)

/-- The leaves built by the first double loop of the `DecompositionChain` constructor:
for `i`, `j` the node `DataNode(X[j][i], (j, i), j + i*res)`. -/
def leaves (X : List (List ℚ)) (res : Nat) : Run (List DataNode) :=
  Run.forEach (fun p : Nat × Nat =>
    (Run.at X p.2).bind fun row => (Run.at row p.1).bind fun v =>
      .ok (DataNode.leaf v ((p.2 : ℚ), (p.1 : ℚ)) (p.2 + p.1 * res))) (pairs res)

/-- The vector `partitionInIndex` computed at the top of the `while` body (for a
cluster size of at least `1`; the source divides by it). -/
def partitionInIndex (scaledRes clusterSize : Nat) : List Nat :=
  if scaledRes < 2 * clusterSize then [scaledRes]
  else List.replicate (max 0 (scaledRes / clusterSize - 1)) clusterSize
    ++ [scaledRes % clusterSize + clusterSize]

/-- The positions `j*clusterSize + l + (i*clusterSize + k)*scaledRes` read from
`dataNodes` for the parent `(i, j)`, in the order of the loops over `k` and `l`. -/
def childPositions (clusterSize scaledRes : Nat) (part : List Nat) (i j : Nat) : List Nat :=
  (List.range (part.getD i 0)).flatMap fun k => (List.range (part.getD j 0)).map fun l =>
    j * clusterSize + l + (i * clusterSize + k) * scaledRes

/-- The body of the loops over `i` and `j`: gather the children, accumulate their
measure, construct the parent with index `j + i*partitionInIndex.size()`. -/
def parentNode (unbelievable clusterSize scaledRes : Nat) (dataNodes : List DataNode)
    (part : List Nat) (i j : Nat) : Run DataNode :=
  (Run.forEach (Run.at dataNodes) (childPositions clusterSize scaledRes part i j)).bind
    fun children =>
      DataNode.internal unbelievable (children.foldl (fun m c => m + c.getMeasure) 0)
        children (j + i * part.length)

/-- One pass of the `while` body: the vector `parentDataNodes`. -/
def coarsenStep (unbelievable clusterSize scaledRes : Nat) (dataNodes : List DataNode) :
    Run (List DataNode) :=
  let part := partitionInIndex scaledRes clusterSize
  Run.forEach (fun p : Nat × Nat =>
    parentNode unbelievable clusterSize scaledRes dataNodes part p.1 p.2) (pairs part.length)

/-- The loop `while (scaledRes != 1)`; `chain` is the vector being extended by
`push_back`, finest level first. -/
def coarsenLoop (unbelievable clusterSize : Nat) :
    Nat → List DataNode → Nat → List (List DataNode) → Run (List (List DataNode))
  | fuel, dataNodes, scaledRes, chain =>
    if scaledRes = 1 then .ok chain
    else match fuel with
      | 0 => .timeout
      | fuel + 1 =>
        (coarsenStep unbelievable clusterSize scaledRes dataNodes).bind fun parents =>
          coarsenLoop unbelievable clusterSize fuel parents
            (partitionInIndex scaledRes clusterSize).length (chain ++ [parents])

/-- The constructor `DecompositionChain(X, res, clusterSize)`.  The result lists the
levels from the root (position `0`) to the leaves; the `level` tag that the source
assigns after reversing is the position in this list. -/
def DecompositionChain (fuel unbelievable : Nat) (X : List (List ℚ)) (res clusterSize : Nat) :
    Run (List (List DataNode)) :=
  (leaves X res).bind fun dataNodes =>
    (coarsenLoop unbelievable clusterSize fuel dataNodes res [dataNodes]).bind fun chain =>
      .ok chain.reverse

/-! ## Cost hierarchy -/

/-- The sum `costSum` over all pairs of children of two nodes (the loops over `xiter`
and `yiter`) of the finer cost between them. -/
def childCostSum (fine : List (List ℚ)) (xChildren yChildren : List DataNode) : Run ℚ :=
  (Run.forEach (fun p : DataNode × DataNode =>
      (Run.at fine p.1.getIndex).bind fun row => Run.at row p.2.getIndex)
    (xChildren.flatMap fun cx => yChildren.map fun cy => (cx, cy))).bind fun vs =>
      .ok (vs.foldl (fun s v => s + v) 0)

/-- The matrix `costChain[l]` computed from `costChain[l+1]` (here `fine`) and the nodes
of level `l` of both chains. -/
def coarseCost (fine : List (List ℚ)) (xDecompNodes yDecompNodes : List DataNode) :
    Run (List (List ℚ)) :=
  Run.forEach (fun x : DataNode =>
    Run.forEach (fun y : DataNode =>
      (childCostSum fine x.getChildren y.getChildren).bind fun costSum =>
        .ok (costSum / x.getChildren.length / y.getChildren.length)) yDecompNodes) xDecompNodes

/-- The loop `for (l = depth-2; l >= 0; --l)`: `todo` lists the remaining values of `l`,
`acc` holds the matrices of the levels `l+1 .. depth-1` already built. -/
def decomposeCostLoop (Xchain Ychain : List (List DataNode)) :
    List Nat → List (List (List ℚ)) → Run (List (List (List ℚ)))
  | [], acc => .ok acc
  | l :: todo, acc =>
    (Run.at Xchain l).bind fun xDecompNodes =>
    (Run.at Ychain l).bind fun yDecompNodes =>
    (Run.at acc 0).bind fun fine =>
    (coarseCost fine xDecompNodes yDecompNodes).bind fun m =>
      decomposeCostLoop Xchain Ychain todo (m :: acc)

/-- The function `decomposeCost`: the finest matrix is `cost`, every coarser one is
computed from the next finer one. -/
def decomposeCost (cost : List (List ℚ)) (Xchain Ychain : List (List DataNode)) :
    Run (List (List (List ℚ))) :=
  if Xchain.length = 0 then .undefined
  else decomposeCostLoop Xchain Ychain (List.range (Xchain.length - 1)).reverse [cost]

/-! ## Transport plans -/

/-- The class `Transport`: an edge from `x` to `y` carrying `amount`. -/
structure Transport where
  x : DataNode
  y : DataNode
  amount : ℚ

/-- A `TransportPlan`: its level and its edges.  The chains and the cost chain it points
to are passed to the operations. -/
structure TransportPlan where
  level : Nat
  transports : List Transport

/-- An entry of a working cost matrix; `none` is `__Inf__`. -/
abbrev Cost := Option ℚ

/-- The comparison `a < b` of two costs, `+∞` being above every number and not below
itself. -/
def Cost.lt : Cost → Cost → Bool
  | some a, some b => decide (a < b)
  | some _, none => true
  | none, _ => false

/-- The scan of `search` from the current element on: `minimum` and `saved` are the
running minimum and the element it was found at. -/
def searchLoop (c : List (List Cost)) (xIndex : Nat) :
    List DataNode → Cost → DataNode → Run DataNode
  | [], _, saved => .ok saved
  | y :: rest, minimum, saved =>
    (Run.at c xIndex).bind fun row => (Run.at row y.getIndex).bind fun v =>
      if Cost.lt v minimum then searchLoop c xIndex rest v y
      else searchLoop c xIndex rest minimum saved

/-- The function `search`: the first child of minimal cost, or the first child when no
cost is below `+∞`; on an empty list `*savedIter` dereferences `end()`. -/
def search (c : List (List Cost)) (xIndex : Nat) (yChildren : List DataNode) : Run DataNode :=
  match yChildren with
  | [] => .undefined
  | y :: _ => searchLoop c xIndex yChildren none y

/-- The function `setToInf`: row `index` (when `opOnX`) or column `index` is overwritten
with `+∞`. -/
def setToInf (c : List (List Cost)) (opOnX : Bool) (index : Nat) : Run (List (List Cost)) :=
  if opOnX then
    (Run.at c index).bind fun row => .ok (c.set index (row.map fun _ => none))
  else
    Run.forEach (fun row : List Cost =>
      if index < row.length then .ok (row.set index none) else .undefined) c

/-- The variables of `propagate` that change while the edges are dispensed. -/
structure Work where
  tmpXMeasure : List ℚ
  tmpYMeasure : List ℚ
  tmpCost : List (List Cost)
  tmpAmount : ℚ
  /-- The iterator `xCoarseNodeChildIter`, as the children from its position on. -/
  xIter : List DataNode
  /-- The edges of `newPlan`. -/
  transports : List Transport

/-- The loop `while (tmpXMeasure[...] < __EPS__)`: advance the iterator past exhausted
children, throwing when the end is reached. -/
def skipExhausted (tmpXMeasure : List ℚ) : List DataNode → Run (List DataNode)
  | [] => .undefined
  | xf :: rest =>
    (Run.at tmpXMeasure xf.getIndex).bind fun m =>
      if m < EPS then
        match rest with
        | [] => .exception
        | _ :: _ => skipExhausted tmpXMeasure rest
      else .ok (xf :: rest)

/-- Write `v` at position `i` of a vector (`w[i] = v`). -/
def Run.store {α : Type} (w : List α) (i : Nat) (v : α) : Run (List α) :=
  if i < w.length then .ok (w.set i v) else .undefined

/-- One pass of the body of `while (true)`.  The flag is `true` when the pass ends in
`break`. -/
def disaggregateStep (yChildren : List DataNode) (w : Work) : Run (Bool × Work) :=
  (skipExhausted w.tmpXMeasure w.xIter).bind fun it =>
  match it with
  | [] => .undefined
  | xf :: rest =>
    (Run.at w.tmpXMeasure xf.getIndex).bind fun xm =>
    (search w.tmpCost xf.getIndex yChildren).bind fun best =>
    (Run.at w.tmpYMeasure best.getIndex).bind fun ym =>
    if w.tmpAmount ≤ ym + EPS ∧ w.tmpAmount ≤ xm + EPS then
      (Run.store w.tmpXMeasure xf.getIndex (xm - w.tmpAmount)).bind fun tx =>
      (Run.store w.tmpYMeasure best.getIndex (ym - w.tmpAmount)).bind fun ty =>
        .ok (true, { w with tmpXMeasure := tx, tmpYMeasure := ty, xIter := xf :: rest,
                            transports := w.transports ++ [⟨xf, best, w.tmpAmount⟩] })
    else if ym < xm then
      (Run.store w.tmpXMeasure xf.getIndex (xm - ym)).bind fun tx =>
      (Run.store w.tmpYMeasure best.getIndex 0).bind fun ty =>
      (setToInf w.tmpCost false best.getIndex).bind fun tc =>
        .ok (false, { tmpXMeasure := tx, tmpYMeasure := ty, tmpCost := tc,
                      tmpAmount := w.tmpAmount - ym, xIter := xf :: rest,
                      transports := w.transports ++ [⟨xf, best, ym⟩] })
    else
      (Run.store w.tmpYMeasure best.getIndex (ym - xm)).bind fun ty =>
      (Run.store w.tmpXMeasure xf.getIndex 0).bind fun tx =>
      (setToInf w.tmpCost true xf.getIndex).bind fun tc =>
        .ok (false, { tmpXMeasure := tx, tmpYMeasure := ty, tmpCost := tc,
                      tmpAmount := w.tmpAmount - xm, xIter := xf :: rest,
                      transports := w.transports ++ [⟨xf, best, xm⟩] })

/-- The loop `while (true)` for one coarse edge, with at most `fuel` passes. -/
def disaggregate (yChildren : List DataNode) : Nat → Work → Run Work
  | 0, _ => .timeout
  | fuel + 1, w =>
    (disaggregateStep yChildren w).bind fun r =>
      if r.1 then .ok r.2 else disaggregate yChildren fuel r.2

/-- The loop over `transports` of `propagate`: every coarse edge is dispensed in turn,
starting with `tmpAmount = amount` and the iterator at the first child of its source. -/
def propagateLoop (fuel : Nat) : List Transport → Work → Run Work
  | [], w => .ok w
  | t :: ts, w =>
    (disaggregate t.y.getChildren fuel
        { w with tmpAmount := t.amount, xIter := t.x.getChildren }).bind fun w1 =>
      propagateLoop fuel ts w1

/-- The working copies set up at the start of `propagate`. -/
def initialWork (tmpXFineNodes tmpYFineNodes : List DataNode) (cost : List (List ℚ)) : Work :=
  { tmpXMeasure := tmpXFineNodes.map DataNode.getMeasure
    tmpYMeasure := tmpYFineNodes.map DataNode.getMeasure
    tmpCost := cost.map fun row => row.map some
    tmpAmount := 0
    xIter := []
    transports := [] }

/-- The member function `propagate` of a plan over the chains `X`, `Y` and `costChain`;
`fuel` bounds the passes of `while (true)` spent on one coarse edge. -/
def propagate (fuel : Nat) (costChain : List (List (List ℚ))) (X Y : List (List DataNode))
    (plan : TransportPlan) : Run TransportPlan :=
  (Run.at X (plan.level + 1)).bind fun tmpXFineNodes =>
  (Run.at Y (plan.level + 1)).bind fun tmpYFineNodes =>
  (Run.at costChain (plan.level + 1)).bind fun cost =>
  (propagateLoop fuel plan.transports (initialWork tmpXFineNodes tmpYFineNodes cost)).bind
    fun w => .ok { level := plan.level + 1, transports := w.transports }

/-- The triples `(x index, y index, amount)` of a list of edges. -/
def interactOf (transports : List Transport) : List (Nat × Nat × ℚ) :=
  transports.map fun t => (t.x.getIndex, t.y.getIndex, t.amount)

/-- The type of the local solvers `wrapper` and `shield::wrapper_s`, which are not part
of this file: cost matrix, the two measure vectors, the plan as triples. -/
abbrev LocalSolver :=
  List (List ℚ) → List ℚ → List ℚ → List (Nat × Nat × ℚ) → List (Nat × Nat × ℚ)

/-- The member function `refine`: the solver's triples are written back over the first
entries of `transports`; writing past its end is undefined. -/
def refine (wrapper : LocalSolver) (costChain : List (List (List ℚ)))
    (X Y : List (List DataNode)) (plan : TransportPlan) : Run TransportPlan :=
  (Run.at X plan.level).bind fun xNodes =>
  (Run.at Y plan.level).bind fun yNodes =>
  (Run.at costChain plan.level).bind fun cost =>
  let interact := wrapper cost (xNodes.map DataNode.getMeasure)
    (yNodes.map DataNode.getMeasure) (interactOf plan.transports)
  (Run.forEach (fun e : Nat × Nat × ℚ =>
      (Run.at xNodes e.1).bind fun x => (Run.at yNodes e.2.1).bind fun y =>
        .ok (Transport.mk x y e.2.2)) interact).bind fun written =>
    if interact.length ≤ plan.transports.length then
      .ok { plan with transports := written ++ plan.transports.drop interact.length }
    else .undefined

/-- The public constructor of `TransportPlan`: one edge between the two roots carrying
the measure of the source root. -/
def TransportPlan.init (X Y : List (List DataNode)) : Run TransportPlan :=
  (Run.at X 0).bind fun x0 => (Run.at x0 0).bind fun rx =>
  (Run.at Y 0).bind fun y0 => (Run.at y0 0).bind fun ry =>
    .ok { level := 0, transports := [⟨rx, ry, rx.getMeasure⟩] }

/-- The loop of `core`: `n` times `propagate` followed by `refine`. -/
def coreLoop (fuel : Nat) (wrapper : LocalSolver) (costChain : List (List (List ℚ)))
    (X Y : List (List DataNode)) : Nat → TransportPlan → Run TransportPlan
  | 0, plan => .ok plan
  | n + 1, plan =>
    (propagate fuel costChain X Y plan).bind fun p1 =>
    (refine wrapper costChain X Y p1).bind fun p2 =>
      coreLoop fuel wrapper costChain X Y n p2

/-- The function `core`, with cluster size `2`; `unbelievable` is the global bound and
`wrapper` the local solver in use. -/
def core (fuel unbelievable : Nat) (wrapper : LocalSolver) (X Y cost : List (List ℚ))
    (res : Nat) : Run (List (Nat × Nat × ℚ)) :=
  (DecompositionChain fuel unbelievable X res 2).bind fun Xchain =>
  (DecompositionChain fuel unbelievable Y res 2).bind fun Ychain =>
  (decomposeCost cost Xchain Ychain).bind fun costChain =>
  (TransportPlan.init Xchain Ychain).bind fun plan =>
  (coreLoop fuel wrapper costChain Xchain Ychain (Xchain.length - 1) plan).bind fun last =>
    .ok (interactOf last.transports)

/-! ## Notions used to state the properties -/

/-- The local solver that returns the plan it is given. -/
def identitySolver : LocalSolver := fun _ _ _ interact => interact

/-- Squared Euclidean distance between two centers. -/
def squaredDistance (a b : ℚ × ℚ) : ℚ := (a.1 - b.1) ^ 2 + (a.2 - b.2) ^ 2

/-- The matrix of squared distances between the centers of the given nodes. -/
def centerCost (nodes : List DataNode) : List (List ℚ) :=
  nodes.map fun a => nodes.map fun b => squaredDistance a.getCenter b.getCenter

/-- Modelled from the spec: the total transport cost of a result, the sum of
`amount * cost[source][sink]` over its triples, which the caller of `core` derives. -/
def totalCost (cost : List (List ℚ)) (result : List (Nat × Nat × ℚ)) : ℚ :=
  (result.map fun e => e.2.2 * ((cost.getD e.1 []).getD e.2.1 0)).sum

/-- The source grid of the end-to-end example. -/
def exampleX : List (List ℚ) := [[1, 0], [0, 0]]

/-- The sink grid of the end-to-end example. -/
def exampleY : List (List ℚ) := [[0, 0], [0, 1]]

/-- The cost matrix of the end-to-end example. -/
def exampleCost : List (List ℚ) := [[0, 1, 1, 2], [1, 0, 2, 1], [1, 2, 0, 1], [2, 1, 1, 0]]

/-- The total amount carried by a list of edges. -/
def totalAmount (transports : List Transport) : ℚ :=
  (transports.map Transport.amount).sum

/-- What one pass of the loop does, in terms of the edge `e` it emits and the residual
measures `xm`, `ym` of its endpoints before the pass. -/
structure StepFacts (yChildren : List DataNode) (w : Work) (b : Bool) (w' : Work)
    (e : Transport) (xm ym : ℚ) : Prop where
  transports_eq : w'.transports = w.transports ++ [e]
  x_mem : e.x ∈ w.xIter
  y_mem : e.y ∈ yChildren
  xm_eq : w.tmpXMeasure[e.x.getIndex]? = some xm
  ym_eq : w.tmpYMeasure[e.y.getIndex]? = some ym
  xm_ge : EPS ≤ xm
  tmpX_eq : w'.tmpXMeasure = w.tmpXMeasure.set e.x.getIndex (xm - e.amount)
  tmpY_eq : w'.tmpYMeasure = w.tmpYMeasure.set e.y.getIndex (ym - e.amount)
  x_left : -EPS ≤ xm - e.amount
  y_left : -EPS ≤ ym - e.amount
  amount_cases : e.amount = w.tmpAmount ∨ e.amount = ym ∨ e.amount = xm
  last : b = true → e.amount = w.tmpAmount
  more : b = false → w'.tmpAmount = w.tmpAmount - e.amount ∧ EPS < w'.tmpAmount
  iter_suffix : w'.xIter <:+ w.xIter

/-- The total amount of the edges whose endpoint selected by `key` has index `i`. -/
def flow (key : Transport → Nat) (transports : List Transport) (i : Nat) : ℚ :=
  ((transports.filter fun t => key t = i).map Transport.amount).sum

/-- The total amount of the edges leaving the node of index `i`. -/
def outgoing (transports : List Transport) (i : Nat) : ℚ :=
  flow (fun t => t.x.getIndex) transports i

/-- The total amount of the edges entering the node of index `i`. -/
def incoming (transports : List Transport) (i : Nat) : ℚ :=
  flow (fun t => t.y.getIndex) transports i

/-- The working vector `tmp` is what is left of the measures `m` once the flow of the
edges `ts` is taken off, and no entry is below `-EPS`. -/
def Residual (key : Transport → Nat) (m tmp : List ℚ) (ts : List Transport) : Prop :=
  ∀ i v, tmp[i]? = some v → m[i]? = some (v + flow key ts i) ∧ -EPS ≤ v

/-- The tree invariant of an internal node: it has children, its measure is the sum of
their measures and its center the mean of their centers. -/
def TreeInvariant (node : DataNode) : Prop :=
  node.getChildren ≠ [] ∧
  node.getMeasure = (node.getChildren.map DataNode.getMeasure).sum ∧
  node.getCenter =
    ((node.getChildren.map fun c => c.getCenter.1).sum / node.getChildren.length,
     (node.getChildren.map fun c => c.getCenter.2).sum / node.getChildren.length)

/-- The level `coarse` is a coarsening of the level `fine`: the children lists of the
coarse nodes, put end to end, are a rearrangement of `fine`; the coarse nodes are indexed
by position; every coarse node satisfies the tree invariant. -/
structure Coarsens (fine coarse : List DataNode) : Prop where
  perm : (coarse.flatMap DataNode.getChildren).Perm fine
  index : coarse.map DataNode.getIndex = List.range coarse.length
  tree : ∀ node ∈ coarse, TreeInvariant node

/-- The spec's rule for the next scaled resolution, stated on its own to be compared
with the code: `1` when the current one is below `2k` (one final group) and `⌊s/k⌋`
otherwise. -/
def specNextResolution (k s : Nat) : Nat := if s < 2 * k then 1 else s / k

/-- The spec's sequence of scaled resolutions `s, specNextResolution s, ...` from the
finest level on, stopping at `1`; at most `fuel + 1` of them are listed. -/
def specResolutions (k : Nat) : Nat → Nat → List Nat
  | 0, s => [s]
  | fuel + 1, s => if s = 1 then [1] else s :: specResolutions k fuel (specNextResolution k s)

/-- A `res × res` grid: `res` rows of `res` cells. -/
def GridOK (res : Nat) (X : List (List ℚ)) : Prop :=
  X.length = res ∧ ∀ row ∈ X, row.length = res

/-- The sum of all cells of a grid. -/
def gridTotal (X : List (List ℚ)) : ℚ := (X.map List.sum).sum

/-- The total measure of the nodes of a level. -/
def levelMeasure (nodes : List DataNode) : ℚ := (nodes.map DataNode.getMeasure).sum

/-- What holds of the chain a `DecompositionChain` construction returns: consecutive
levels are coarsenings, the first level is a single node, every level is indexed by
position. -/
structure ChainInvariant (chain : List (List DataNode)) : Prop where
  steps : ∀ l coarse fine, chain[l]? = some coarse → chain[l + 1]? = some fine →
    Coarsens fine coarse
  root : chain.head?.map List.length = some 1
  index : ∀ level ∈ chain, level.map DataNode.getIndex = List.range level.length

/-- A plan over the chains `X`, `Y` that satisfies the per-level invariant: its edges
join nodes of its level, and for every node of that level the amounts leaving it (for
a source) or entering it (for a sink) add up to at most its measure. -/
def PlanInvariant (X Y : List (List DataNode)) (plan : TransportPlan) : Prop :=
  ∃ xs ys, X[plan.level]? = some xs ∧ Y[plan.level]? = some ys ∧
    (∀ t ∈ plan.transports, t.x ∈ xs ∧ t.y ∈ ys) ∧
    (∀ x ∈ xs, outgoing plan.transports x.getIndex ≤ x.getMeasure) ∧
    (∀ y ∈ ys, incoming plan.transports y.getIndex ≤ y.getMeasure)

/-- The local solver keeps the number of entries and the total amount of the plan. -/
def PreservesMass (wrapper : LocalSolver) : Prop :=
  ∀ cost mx my interact,
    (wrapper cost mx my interact).length = interact.length ∧
    ((wrapper cost mx my interact).map fun e => e.2.2).sum = (interact.map fun e => e.2.2).sum

/-- Every cell of the grid is non-negative. -/
def GridNonneg (X : List (List ℚ)) : Prop := ∀ row ∈ X, ∀ v ∈ row, 0 ≤ v

/-- The state `w` is followed by `w'` after some passes of the loop `while (true)`, none
of which ends in `break`. -/
inductive Passes (yChildren : List DataNode) : Work → Work → Prop where
  | refl (w : Work) : Passes yChildren w w
  | step {w w1 w2 : Work} : disaggregateStep yChildren w = .ok (false, w1) →
      Passes yChildren w1 w2 → Passes yChildren w w2

/-- Every child from the scan position on has a residual working measure below `EPS`
(and the scan position is at a child). -/
def Exhausted (w : Work) : Prop :=
  0 < w.xIter.length ∧
  ∀ c ∈ w.xIter, c.getIndex < w.tmpXMeasure.length ∧ w.tmpXMeasure.getD c.getIndex 0 < EPS

/-- Source grid of the overshoot example: all mass in one cell. -/
def overshootX : List (List ℚ) := [[2, 0], [0, 0]]

/-- Sink grid of the overshoot example: two cells of mass `1`. -/
def overshootY : List (List ℚ) := [[1, 1], [0, 0]]

/-- The overshoot example run from the grids to the propagated plan: the level-0 plan
has two root-to-root edges of amounts `1 + EPS/2` and `1 - EPS/2`. -/
def overshootRun : Run (List (Nat × Nat × ℚ)) :=
  (DecompositionChain 2 4 overshootX 2 2).bind fun Xc =>
  (DecompositionChain 2 4 overshootY 2 2).bind fun Yc =>
  (decomposeCost exampleCost Xc Yc).bind fun cc =>
  (TransportPlan.init Xc Yc).bind fun p0 =>
  (propagate 4 cc Xc Yc ⟨0, p0.transports.flatMap fun t =>
      [⟨t.x, t.y, 1 + EPS / 2⟩, ⟨t.x, t.y, 1 - EPS / 2⟩]⟩).bind fun np =>
    .ok (interactOf np.transports)

/-- The run of `core` up to and including its first `propagate`, on the level-0 plan;
the result lists the edges of the level-1 plan as triples. -/
def firstPropagate (fuel unbelievable : Nat) (X Y cost : List (List ℚ)) (res : Nat) :
    Run (List (Nat × Nat × ℚ)) :=
  (DecompositionChain fuel unbelievable X res 2).bind fun Xchain =>
  (DecompositionChain fuel unbelievable Y res 2).bind fun Ychain =>
  (decomposeCost cost Xchain Ychain).bind fun costChain =>
  (TransportPlan.init Xchain Ychain).bind fun plan =>
  (propagate fuel costChain Xchain Ychain plan).bind fun newPlan =>
    .ok (interactOf newPlan.transports)

/-- A source grid with mass `1` in every cell. -/
def balancedX : List (List ℚ) := [[1, 1], [1, 1]]

/-- A sink grid of the same total mass `4`, its cells within `1.2 * EPS` of `1`. -/
def balancedY : List (List ℚ) :=
  [[1 - 4 * EPS / 10, 1 - 4 * EPS / 10], [1 - 4 * EPS / 10, 1 + 12 * EPS / 10]]

/-- The grid without mass. -/
def zeroGrid : List (List ℚ) := [[0, 0], [0, 0]]

/-- The four leaves of a 2×2 grid without mass. -/
def zeroLeaves : List DataNode :=
  [DataNode.leaf 0 (0, 0) 0, DataNode.leaf 0 (1, 0) 1, DataNode.leaf 0 (0, 1) 2,
    DataNode.leaf 0 (1, 1) 3]

/-- The root over `zeroLeaves`. -/
def zeroRoot : DataNode := DataNode.mk 0 zeroLeaves (1 / 2, 1 / 2) 0

/-- The chain of a 2×2 grid without mass. -/
def zeroChain : List (List DataNode) := [[zeroRoot], zeroLeaves]

/-- The level `coarse` was built from the level `fine` of scaled resolution `s ≠ 1` by one
pass of the coarsening loop under the bound `unb`: it has one node per pair of groups and
no index above the bound. -/
structure CoarsenedBy (unb k : Nat) (fine coarse : List DataNode) : Prop where
  size : ∃ s, 1 ≤ s ∧ s ≠ 1 ∧ fine.length = s * s ∧
    coarse.length = (partitionInIndex s k).length * (partitionInIndex s k).length
  bound : ∀ node ∈ coarse, node.getIndex ≤ unb

/-- A grid with four different cells. -/
def layoutX : List (List ℚ) := [[1, 2], [3, 4]]

/-- The state of the scan of `search` after the children `done`: either no finite cost
was seen (the running minimum is `+∞`), or `saved` is the first child of `done` whose
cost `q` is the least one, and the running minimum is `q`. -/
def ScanState (row : List Cost) (done : List DataNode) (minimum : Cost) (saved : DataNode) :
    Prop :=
  (minimum = none ∧ ∀ y ∈ done, row[y.getIndex]? = some none) ∨
  ∃ pre post q, done = pre ++ saved :: post ∧ minimum = some q ∧
    row[saved.getIndex]? = some (some q) ∧
    (∀ y ∈ pre, ∀ r, row[y.getIndex]? = some (some r) → q < r) ∧
    (∀ y ∈ post, ∀ r, row[y.getIndex]? = some (some r) → q ≤ r)

/-- The edges of the plan join nodes of the plan's level in the two chains. -/
def PlanAt (X Y : List (List DataNode)) (plan : TransportPlan) : Prop :=
  ∃ xs ys, X[plan.level]? = some xs ∧ Y[plan.level]? = some ys ∧
    ∀ t ∈ plan.transports, t.x ∈ xs ∧ t.y ∈ ys

/-- A local solver that drops the entries of amount zero. -/
def pruningSolver : LocalSolver := fun _ _ _ interact => interact.filter fun e => e.2.2 ≠ 0

/-- A local solver that splits every entry into two halves. -/
def splittingSolver : LocalSolver := fun _ _ _ interact =>
  interact.flatMap fun e => [(e.1, e.2.1, e.2.2 / 2), (e.1, e.2.1, e.2.2 / 2)]

/-- The run of `core` up to its first `propagate`, followed by one `refine` with the
given local solver; the result lists the edges of the refined plan as triples. -/
def firstRefine (wrapper : LocalSolver) (fuel unbelievable : Nat) (X Y cost : List (List ℚ))
    (res : Nat) : Run (List (Nat × Nat × ℚ)) :=
  (DecompositionChain fuel unbelievable X res 2).bind fun Xchain =>
  (DecompositionChain fuel unbelievable Y res 2).bind fun Ychain =>
  (decomposeCost cost Xchain Ychain).bind fun costChain =>
  (TransportPlan.init Xchain Ychain).bind fun plan =>
  (propagate fuel costChain Xchain Ychain plan).bind fun newPlan =>
  (refine wrapper costChain Xchain Ychain newPlan).bind fun refined =>
    .ok (interactOf refined.transports)

/-- The entry `m[i][j]` of a matrix, when it exists. -/
def entry (m : List (List ℚ)) (i j : Nat) : Option ℚ :=
  (m[i]?).bind fun row => row[j]?

/-- A matrix with one row per node of `xs` and one column per node of `ys`. -/
def MatrixFor (xs ys : List DataNode) (m : List (List ℚ)) : Prop :=
  m.length = xs.length ∧ ∀ row ∈ m, row.length = ys.length

/-- The coarse matrix `m` over the levels `xs`, `ys` averages the finer matrix `fine`:
each entry is the sum of the finer entries over all pairs of children, all of which
exist, divided by the product of the numbers of children. -/
def AveragesOver (fine m : List (List ℚ)) (xs ys : List DataNode) : Prop :=
  ∀ i j x y, xs[i]? = some x → ys[j]? = some y →
    ∃ vs, List.Forall₂ (fun (p : DataNode × DataNode) v =>
        entry fine p.1.getIndex p.2.getIndex = some v)
        (x.getChildren.flatMap fun cx => y.getChildren.map fun cy => (cx, cy)) vs ∧
      entry m i j = some (vs.sum / ((x.getChildren.length : ℚ) * y.getChildren.length))

/-- Column `j` of a working cost matrix holds `+∞` in every row. -/
def columnInf (tmpCost : List (List Cost)) (j : Nat) : Bool :=
  tmpCost.all fun row => row[j]? == some none

/-- The sum of the entries of `v` at the positions `idx`. -/
def sumAt (v : List ℚ) (idx : List Nat) : ℚ := (idx.map fun i => v.getD i 0).sum

/-- A bound on the passes of `while (true)` still to come for a coarse edge with sink
children `yChildren`: the sink children whose column is not yet `+∞` everywhere, plus the
source children from the iterator on whose residual is at least `EPS`. -/
def remainingWork (yChildren : List DataNode) (w : Work) : Nat :=
  yChildren.countP (fun y => !columnInf w.tmpCost y.getIndex) +
  w.xIter.countP (fun x => decide (EPS ≤ w.tmpXMeasure.getD x.getIndex 0))

/-- What holds of the working copies of `propagate` between two passes, for fine levels
of `nx` source and `ny` sink nodes: the vectors and the matrix keep their sizes, and an
entry of the matrix is `+∞` only when its row belongs to a source child with residual
below `EPS` or when its whole column is `+∞` and the sink child has residual `0`. -/
structure WorkInv (nx ny : Nat) (w : Work) : Prop where
  lenX : w.tmpXMeasure.length = nx
  lenY : w.tmpYMeasure.length = ny
  rows : w.tmpCost.length = nx
  cols : ∀ row ∈ w.tmpCost, row.length = ny
  marks : ∀ i j row, w.tmpCost[i]? = some row → row[j]? = some none →
    w.tmpXMeasure.getD i 0 < EPS ∨
      (columnInf w.tmpCost j = true ∧ w.tmpYMeasure.getD j 0 = 0)

/-- What is used of the coarse sink level `ys` over a fine level of `ny` nodes: every
node has children, their indices are below `ny` and differ from one another, within a
node and between two nodes of different index; a node is determined by its index. -/
structure SinkFacts (ny : Nat) (ys : List DataNode) : Prop where
  nonempty : ∀ y ∈ ys, y.getChildren ≠ []
  bound : ∀ y ∈ ys, ∀ c ∈ y.getChildren, c.getIndex < ny
  nodup : ∀ y ∈ ys, (y.getChildren.map DataNode.getIndex).Nodup
  disjoint : ∀ y ∈ ys, ∀ y2 ∈ ys, y.getIndex ≠ y2.getIndex →
    ∀ c ∈ y.getChildren, ∀ c2 ∈ y2.getChildren, c.getIndex ≠ c2.getIndex
  unique : ∀ y ∈ ys, ∀ y2 ∈ ys, y.getIndex = y2.getIndex → y = y2

/-- The residual measures of the children of every coarse sink cover what is still to be
sent to it: `pend` for the coarse edges to come, and `amount` for the sink of index `q`
of the coarse edge being dispensed. -/
def Slack (ys : List DataNode) (pend : Nat → ℚ) (q : Nat) (amount : ℚ) (tmpY : List ℚ) : Prop :=
  ∀ y ∈ ys, pend y.getIndex + (if y.getIndex = q then amount else 0)
    ≤ sumAt tmpY (y.getChildren.map DataNode.getIndex)

/-- The entry `m[i][j]` of a working cost matrix, when it exists. -/
def costEntry (m : List (List Cost)) (i j : Nat) : Option Cost :=
  (m[i]?).bind fun row => row[j]?

/-- Two states of the working copies of `propagate` hold the same residuals at the source
positions `A` and the sink positions `B` and the same costs between them, in matrices of
the same shape. -/
structure AgreeOn (A B : List Nat) (w w2 : Work) : Prop where
  x : ∀ i ∈ A, w.tmpXMeasure[i]? = w2.tmpXMeasure[i]?
  y : ∀ j ∈ B, w.tmpYMeasure[j]? = w2.tmpYMeasure[j]?
  cost : ∀ i ∈ A, ∀ j ∈ B, costEntry w.tmpCost i j = costEntry w2.tmpCost i j
  shape : w.tmpCost.map List.length = w2.tmpCost.map List.length

/-- Two coarse edges with different sources and different sinks. -/
def Apart (a b : Transport) : Prop :=
  a.x.getIndex ≠ b.x.getIndex ∧ a.y.getIndex ≠ b.y.getIndex

/-- The fine edges emitted when the coarse edge `t` alone is dispensed from the working
copies `w`. -/
def edgeRun (fuel : Nat) (w : Work) (t : Transport) : Run (List Transport) :=
  (disaggregate t.y.getChildren fuel
    { w with tmpAmount := t.amount, xIter := t.x.getChildren, transports := [] }).bind
    fun w1 => .ok w1.transports

/-- The result of `edgeRun` when it returns, no edge otherwise. -/
def edgeGroup (fuel : Nat) (w : Work) (t : Transport) : List Transport :=
  match edgeRun fuel w t with
  | .ok g => g
  | _ => []

/-- The edges with the given `(source index, sink index, amount)` triples between the
nodes of the levels `xs` and `ys`. -/
def planOf (xs ys : List DataNode) (triples : List (Nat × Nat × ℚ)) : Run (List Transport) :=
  Run.forEach (fun e : Nat × Nat × ℚ =>
      (Run.at xs e.1).bind fun x => (Run.at ys e.2.1).bind fun y =>
        .ok (Transport.mk x y e.2.2)) triples

/-- The chains of two 4×4 grids are built, the cost between leaves is the squared distance
of their centers, and the level-1 plan with the given triples is propagated; the result
lists the edges of the level-2 plan as triples. -/
def orderRun (fuel : Nat) (X Y : List (List ℚ)) (triples : List (Nat × Nat × ℚ)) :
    Run (List (Nat × Nat × ℚ)) :=
  (DecompositionChain fuel 16 X 4 2).bind fun Xc =>
  (DecompositionChain fuel 16 Y 4 2).bind fun Yc =>
  (Run.at Xc 2).bind fun leavesX =>
  (decomposeCost (centerCost leavesX) Xc Yc).bind fun cc =>
  (Run.at Xc 1).bind fun xs =>
  (Run.at Yc 1).bind fun ys =>
  (planOf xs ys triples).bind fun ts =>
  (propagate fuel cc Xc Yc ⟨1, ts⟩).bind fun np =>
    .ok (interactOf np.transports)

/-- A 4×4 source grid with mass `2` in its first 2×2 block (leaves `0` and `4`). -/
def orderX : List (List ℚ) := [[1, 1, 0, 0], [0, 0, 0, 0], [0, 0, 0, 0], [0, 0, 0, 0]]

/-- A 4×4 sink grid with mass `1` in its first 2×2 block (leaf `0`) and mass `1` in its
last one (leaf `14`). -/
def orderY : List (List ℚ) := [[1, 0, 0, 0], [0, 0, 0, 0], [0, 0, 0, 1], [0, 0, 0, 0]]

/-- A 4×4 source grid with mass `1` in its first 2×2 block (leaf `0`) and mass `1` in its
second one (leaf `2`). -/
def apartX : List (List ℚ) := [[1, 0, 0, 0], [0, 0, 0, 0], [1, 0, 0, 0], [0, 0, 0, 0]]

/-- The loop `while (true)` for the sink children `yChildren` is stuck in the state `w`:
the iterator is at a source child with residual at least `EPS`, every sink child has
residual `0` and a column that is `+∞` in every row, and more than `EPS` remains to be
dispensed. -/
structure Stuck (yChildren : List DataNode) (w : Work) : Prop where
  iter : ∃ xf rest, w.xIter = xf :: rest ∧ xf.getIndex < w.tmpXMeasure.length ∧
    xf.getIndex < w.tmpCost.length ∧ EPS ≤ w.tmpXMeasure.getD xf.getIndex 0
  sinks : yChildren ≠ []
  marked : ∀ y ∈ yChildren, y.getIndex < w.tmpYMeasure.length ∧
    w.tmpYMeasure.getD y.getIndex 0 = 0 ∧ columnInf w.tmpCost y.getIndex = true
  amount : EPS < w.tmpAmount

/-- Source grid of the excess example: total mass `2`, all in one cell. -/
def excessX : List (List ℚ) := [[2, 0], [0, 0]]

/-- Sink grid of the excess example: total mass `1`, all in one cell. -/
def excessY : List (List ℚ) := [[1, 0], [0, 0]]

/-- The numbers held in a state of the working copies: the residuals, the working cost,
the remaining amount, the indices of the source children from the iterator on and the
edges emitted so far as triples. -/
structure WorkView where
  tmpXMeasure : List ℚ
  tmpYMeasure : List ℚ
  tmpCost : List (List Cost)
  tmpAmount : ℚ
  xIter : List Nat
  transports : List (Nat × Nat × ℚ)
deriving DecidableEq

/-- The numbers held in the state `w`. -/
def Work.view (w : Work) : WorkView :=
  { tmpXMeasure := w.tmpXMeasure
    tmpYMeasure := w.tmpYMeasure
    tmpCost := w.tmpCost
    tmpAmount := w.tmpAmount
    xIter := w.xIter.map DataNode.getIndex
    transports := interactOf w.transports }

/-- The excess example up to the fourth pass of `while (true)` for the root-to-root edge
of the level-0 plan: the result lists the level-0 plan as triples, the `break` flags of
the four passes, the numbers of the state after them and the indices of the sink
children. -/
def excessRun : Run (List (Nat × Nat × ℚ) × List Bool × WorkView × List Nat) :=
  (DecompositionChain 2 4 excessX 2 2).bind fun Xc =>
  (DecompositionChain 2 4 excessY 2 2).bind fun Yc =>
  (decomposeCost exampleCost Xc Yc).bind fun cc =>
  (TransportPlan.init Xc Yc).bind fun plan =>
  (Run.at Xc 1).bind fun fx =>
  (Run.at Yc 1).bind fun fy =>
  (Run.at cc 1).bind fun cost =>
  (Run.at plan.transports 0).bind fun t =>
  (disaggregateStep t.y.getChildren
    { initialWork fx fy cost with tmpAmount := t.amount, xIter := t.x.getChildren }).bind
    fun r1 =>
  (disaggregateStep t.y.getChildren r1.2).bind fun r2 =>
  (disaggregateStep t.y.getChildren r2.2).bind fun r3 =>
  (disaggregateStep t.y.getChildren r3.2).bind fun r4 =>
    .ok (interactOf plan.transports, [r1.1, r2.1, r3.1, r4.1], r4.2.view,
      t.y.getChildren.map DataNode.getIndex)

/-! ## Basic facts about runs -/

@[simp] theorem Run.ok_bind {α β : Type} (a : α) (f : α → Run β) : (Run.ok a).bind f = f a :=
  rfl

@[simp] theorem Run.exception_bind {α β : Type} (f : α → Run β) :
    (Run.exception : Run α).bind f = .exception :=
  rfl

@[simp] theorem Run.undefined_bind {α β : Type} (f : α → Run β) :
    (Run.undefined : Run α).bind f = .undefined :=
  rfl

@[simp] theorem Run.timeout_bind {α β : Type} (f : α → Run β) :
    (Run.timeout : Run α).bind f = .timeout :=
  rfl

theorem Run.bind_eq_ok {α β : Type} {r : Run α} {f : α → Run β} {b : β} :
    r.bind f = .ok b ↔ ∃ a, r = .ok a ∧ f a = .ok b := by
  cases r <;> simp [Run.bind]

theorem Run.bind_ne_timeout {α β : Type} {r : Run α} {f : α → Run β}
    (h : r.bind f ≠ .timeout) : r ≠ .timeout := by
  cases r <;> simp_all [Run.bind]

theorem Run.bind_congr_of_ok {α β : Type} {r : Run α} {f g : α → Run β}
    (h : ∀ a, r = .ok a → f a = g a) : r.bind f = r.bind g := by
  cases r <;> simp_all [Run.bind]

theorem Run.at_eq_ok {α : Type} {v : List α} {i : Nat} {a : α} :
    Run.at v i = .ok a ↔ v[i]? = some a := by
  unfold Run.at
  cases h : v[i]? <;> simp

theorem Run.at_of_lt {α : Type} {v : List α} {i : Nat} (h : i < v.length) :
    Run.at v i = .ok (v.get ⟨i, h⟩) := by
  rw [Run.at_eq_ok]
  simp [List.getElem?_eq_getElem h]

theorem Run.at_lt {α : Type} {v : List α} {i : Nat} {a : α} (h : Run.at v i = .ok a) :
    i < v.length := by
  rw [Run.at_eq_ok] at h
  by_contra hc
  rw [List.getElem?_eq_none (Nat.le_of_not_lt hc)] at h
  cases h

theorem Run.at_mem {α : Type} {v : List α} {i : Nat} {a : α} (h : Run.at v i = .ok a) :
    a ∈ v := by
  rw [Run.at_eq_ok] at h
  exact List.getElem?_mem h

theorem Run.forEach_eq_ok {α β : Type} {f : α → Run β} :
    ∀ {l : List α} {bs : List β},
      Run.forEach f l = .ok bs ↔ List.Forall₂ (fun a b => f a = .ok b) l bs
  | [], bs => by
    cases bs <;> simp [Run.forEach]
  | a :: as, bs => by
    simp only [Run.forEach, Run.bind_eq_ok]
    constructor
    · rintro ⟨b, hb, bs1, hbs, h⟩
      cases h
      exact List.Forall₂.cons hb (Run.forEach_eq_ok.1 hbs)
    · intro h
      cases h with
      | cons hb hbs => exact ⟨_, hb, _, Run.forEach_eq_ok.2 hbs, rfl⟩

theorem Run.forEach_map {α β : Type} {f : α → Run β} {g : α → β} :
    ∀ {l : List α}, (∀ a ∈ l, f a = .ok (g a)) → Run.forEach f l = .ok (l.map g)
  | [], _ => rfl
  | a :: as, h => by
    have h1 := h a (List.mem_cons_self _ _)
    have h2 := Run.forEach_map (l := as) (fun x hx => h x (List.mem_cons_of_mem _ hx))
    simp [Run.forEach, h1, h2, Run.bind]

theorem Run.forEach_length {α β : Type} {f : α → Run β} {l : List α} {bs : List β}
    (h : Run.forEach f l = .ok bs) : bs.length = l.length :=
  (List.Forall₂.length_eq (Run.forEach_eq_ok.1 h)).symm

/-! ## More fuel does not change a run that ended -/

theorem coarsenLoop_fuel (unbelievable clusterSize : Nat) :
    ∀ (fuel : Nat) (dataNodes : List DataNode) (scaledRes : Nat) (chain : List (List DataNode)),
      coarsenLoop unbelievable clusterSize fuel dataNodes scaledRes chain ≠ .timeout →
      coarsenLoop unbelievable clusterSize (fuel + 1) dataNodes scaledRes chain
        = coarsenLoop unbelievable clusterSize fuel dataNodes scaledRes chain := by
  intro fuel
  induction fuel with
  | zero =>
    intro d s c h
    unfold coarsenLoop at h ⊢
    by_cases hs : s = 1
    · simp [hs]
    · simp [hs] at h
  | succ n ih =>
    intro d s c h
    rw [coarsenLoop.eq_def] at h
    rw [coarsenLoop.eq_def]
    conv_rhs => rw [coarsenLoop.eq_def]
    by_cases hs : s = 1
    · simp [hs]
    · simp only [hs, if_false] at h ⊢
      apply Run.bind_congr_of_ok
      intro parents hp
      rw [hp] at h
      exact ih _ _ _ h

theorem coarsenLoop_fuel_add (unbelievable clusterSize fuel : Nat) (dataNodes : List DataNode)
    (scaledRes : Nat) (chain : List (List DataNode))
    (h : coarsenLoop unbelievable clusterSize fuel dataNodes scaledRes chain ≠ .timeout) :
    ∀ n, coarsenLoop unbelievable clusterSize (fuel + n) dataNodes scaledRes chain
        = coarsenLoop unbelievable clusterSize fuel dataNodes scaledRes chain
  | 0 => rfl
  | n + 1 => by
    have ih := coarsenLoop_fuel_add unbelievable clusterSize fuel dataNodes scaledRes chain h n
    rw [← Nat.add_assoc, coarsenLoop_fuel _ _ _ _ _ _ (by rw [ih]; exact h), ih]

theorem DecompositionChain_fuel_add (fuel unbelievable : Nat) (X : List (List ℚ))
    (res clusterSize : Nat)
    (h : DecompositionChain fuel unbelievable X res clusterSize ≠ .timeout) (n : Nat) :
    DecompositionChain (fuel + n) unbelievable X res clusterSize
      = DecompositionChain fuel unbelievable X res clusterSize := by
  unfold DecompositionChain at h ⊢
  apply Run.bind_congr_of_ok
  intro d hd
  rw [hd] at h
  rw [coarsenLoop_fuel_add _ _ _ _ _ _ (Run.bind_ne_timeout h) n]

theorem disaggregate_fuel (yChildren : List DataNode) :
    ∀ (fuel : Nat) (w : Work), disaggregate yChildren fuel w ≠ .timeout →
      disaggregate yChildren (fuel + 1) w = disaggregate yChildren fuel w
  | 0, w, h => by simp [disaggregate] at h
  | fuel + 1, w, h => by
    rw [disaggregate] at h
    rw [disaggregate]
    conv_rhs => rw [disaggregate]
    apply Run.bind_congr_of_ok
    intro r hr
    rw [hr] at h
    by_cases hb : r.1 = true
    · simp [hb]
    · simp only [hb, Run.ok_bind] at h ⊢
      exact disaggregate_fuel yChildren fuel r.2 h

theorem propagateLoop_fuel (fuel : Nat) :
    ∀ (ts : List Transport) (w : Work), propagateLoop fuel ts w ≠ .timeout →
      propagateLoop (fuel + 1) ts w = propagateLoop fuel ts w
  | [], _, _ => rfl
  | t :: ts, w, h => by
    rw [propagateLoop] at h
    rw [propagateLoop, propagateLoop, disaggregate_fuel _ _ _ (Run.bind_ne_timeout h)]
    apply Run.bind_congr_of_ok
    intro w1 hw1
    rw [hw1] at h
    exact propagateLoop_fuel fuel ts w1 h

theorem propagate_fuel (fuel : Nat) (costChain : List (List (List ℚ)))
    (X Y : List (List DataNode)) (plan : TransportPlan)
    (h : propagate fuel costChain X Y plan ≠ .timeout) :
    propagate (fuel + 1) costChain X Y plan = propagate fuel costChain X Y plan := by
  unfold propagate at h ⊢
  apply Run.bind_congr_of_ok
  intro a ha
  rw [ha] at h
  apply Run.bind_congr_of_ok
  intro b hb
  rw [hb] at h
  apply Run.bind_congr_of_ok
  intro c hc
  rw [hc] at h
  rw [propagateLoop_fuel _ _ _ (Run.bind_ne_timeout h)]

theorem propagate_fuel_add (fuel : Nat) (costChain : List (List (List ℚ)))
    (X Y : List (List DataNode)) (plan : TransportPlan)
    (h : propagate fuel costChain X Y plan ≠ .timeout) :
    ∀ n, propagate (fuel + n) costChain X Y plan = propagate fuel costChain X Y plan
  | 0 => rfl
  | n + 1 => by
    have ih := propagate_fuel_add fuel costChain X Y plan h n
    rw [← Nat.add_assoc, propagate_fuel _ _ _ _ _ (by rw [ih]; exact h), ih]

theorem coreLoop_fuel_add (fuel : Nat) (wrapper : LocalSolver)
    (costChain : List (List (List ℚ))) (X Y : List (List DataNode)) (m : Nat) :
    ∀ (n : Nat) (plan : TransportPlan),
      coreLoop fuel wrapper costChain X Y n plan ≠ .timeout →
      coreLoop (fuel + m) wrapper costChain X Y n plan
        = coreLoop fuel wrapper costChain X Y n plan
  | 0, _, _ => rfl
  | n + 1, plan, h => by
    rw [coreLoop] at h
    rw [coreLoop, coreLoop, propagate_fuel_add _ _ _ _ _ (Run.bind_ne_timeout h) m]
    apply Run.bind_congr_of_ok
    intro p1 hp1
    rw [hp1] at h
    apply Run.bind_congr_of_ok
    intro p2 hp2
    simp only [Run.ok_bind, hp2] at h
    exact coreLoop_fuel_add fuel wrapper costChain X Y m n p2 h

theorem core_fuel_add (fuel unbelievable : Nat) (wrapper : LocalSolver)
    (X Y cost : List (List ℚ)) (res : Nat)
    (h : core fuel unbelievable wrapper X Y cost res ≠ .timeout) (m : Nat) :
    core (fuel + m) unbelievable wrapper X Y cost res
      = core fuel unbelievable wrapper X Y cost res := by
  unfold core at h ⊢
  rw [DecompositionChain_fuel_add _ _ _ _ _ (Run.bind_ne_timeout h) m]
  apply Run.bind_congr_of_ok
  intro xc hxc
  rw [hxc] at h
  simp only [Run.ok_bind] at h
  rw [DecompositionChain_fuel_add _ _ _ _ _ (Run.bind_ne_timeout h) m]
  apply Run.bind_congr_of_ok
  intro yc hyc
  rw [hyc] at h
  simp only [Run.ok_bind] at h
  apply Run.bind_congr_of_ok
  intro cc hcc
  rw [hcc] at h
  apply Run.bind_congr_of_ok
  intro p hp
  rw [hp] at h
  simp only [Run.ok_bind] at h
  rw [coreLoop_fuel_add _ _ _ _ _ m _ _ (Run.bind_ne_timeout h)]

/-! ## One pass of the dispensing loop -/

theorem Run.store_eq_ok {α : Type} {w : List α} {i : Nat} {v : α} {w' : List α} :
    Run.store w i v = .ok w' ↔ i < w.length ∧ w' = w.set i v := by
  unfold Run.store
  by_cases h : i < w.length <;> simp [h, eq_comm]

theorem disaggregateStep_ok {yChildren : List DataNode} {w : Work} {b : Bool} {w' : Work}
    (h : disaggregateStep yChildren w = .ok (b, w')) :
    ∃ xf rest best xm ym,
      skipExhausted w.tmpXMeasure w.xIter = .ok (xf :: rest) ∧
      w.tmpXMeasure[xf.getIndex]? = some xm ∧
      search w.tmpCost xf.getIndex yChildren = .ok best ∧
      w.tmpYMeasure[best.getIndex]? = some ym ∧
      ((b = true ∧ w.tmpAmount ≤ ym + EPS ∧ w.tmpAmount ≤ xm + EPS ∧
          w' = { w with
            tmpXMeasure := w.tmpXMeasure.set xf.getIndex (xm - w.tmpAmount)
            tmpYMeasure := w.tmpYMeasure.set best.getIndex (ym - w.tmpAmount)
            xIter := xf :: rest
            transports := w.transports ++ [⟨xf, best, w.tmpAmount⟩] }) ∨
       (b = false ∧ ¬ (w.tmpAmount ≤ ym + EPS ∧ w.tmpAmount ≤ xm + EPS) ∧ ym < xm ∧
          ∃ tc, setToInf w.tmpCost false best.getIndex = .ok tc ∧
          w' = { tmpXMeasure := w.tmpXMeasure.set xf.getIndex (xm - ym)
                 tmpYMeasure := w.tmpYMeasure.set best.getIndex 0
                 tmpCost := tc
                 tmpAmount := w.tmpAmount - ym
                 xIter := xf :: rest
                 transports := w.transports ++ [⟨xf, best, ym⟩] }) ∨
       (b = false ∧ ¬ (w.tmpAmount ≤ ym + EPS ∧ w.tmpAmount ≤ xm + EPS) ∧ ¬ ym < xm ∧
          ∃ tc, setToInf w.tmpCost true xf.getIndex = .ok tc ∧
          w' = { tmpXMeasure := w.tmpXMeasure.set xf.getIndex 0
                 tmpYMeasure := w.tmpYMeasure.set best.getIndex (ym - xm)
                 tmpCost := tc
                 tmpAmount := w.tmpAmount - xm
                 xIter := xf :: rest
                 transports := w.transports ++ [⟨xf, best, xm⟩] })) := by
  unfold disaggregateStep at h
  obtain ⟨it, hit, h⟩ := Run.bind_eq_ok.1 h
  cases it with
  | nil => simp at h
  | cons xf rest =>
    simp only at h
    obtain ⟨xm, hxm, h⟩ := Run.bind_eq_ok.1 h
    obtain ⟨best, hbest, h⟩ := Run.bind_eq_ok.1 h
    obtain ⟨ym, hym, h⟩ := Run.bind_eq_ok.1 h
    refine ⟨xf, rest, best, xm, ym, hit, Run.at_eq_ok.1 hxm, hbest, Run.at_eq_ok.1 hym, ?_⟩
    by_cases hc : w.tmpAmount ≤ ym + EPS ∧ w.tmpAmount ≤ xm + EPS
    · rw [if_pos hc] at h
      obtain ⟨tx, htx, h⟩ := Run.bind_eq_ok.1 h
      obtain ⟨ty, hty, h⟩ := Run.bind_eq_ok.1 h
      obtain ⟨-, rfl⟩ := Run.store_eq_ok.1 htx
      obtain ⟨-, rfl⟩ := Run.store_eq_ok.1 hty
      injection h with h
      injection h with h1 h2
      exact Or.inl ⟨h1.symm, hc.1, hc.2, h2.symm⟩
    · rw [if_neg hc] at h
      by_cases hlt : ym < xm
      · rw [if_pos hlt] at h
        obtain ⟨tx, htx, h⟩ := Run.bind_eq_ok.1 h
        obtain ⟨ty, hty, h⟩ := Run.bind_eq_ok.1 h
        obtain ⟨tc, htc, h⟩ := Run.bind_eq_ok.1 h
        obtain ⟨-, rfl⟩ := Run.store_eq_ok.1 htx
        obtain ⟨-, rfl⟩ := Run.store_eq_ok.1 hty
        injection h with h
        injection h with h1 h2
        exact Or.inr (Or.inl ⟨h1.symm, hc, hlt, tc, htc, h2.symm⟩)
      · rw [if_neg hlt] at h
        obtain ⟨ty, hty, h⟩ := Run.bind_eq_ok.1 h
        obtain ⟨tx, htx, h⟩ := Run.bind_eq_ok.1 h
        obtain ⟨tc, htc, h⟩ := Run.bind_eq_ok.1 h
        obtain ⟨-, rfl⟩ := Run.store_eq_ok.1 htx
        obtain ⟨-, rfl⟩ := Run.store_eq_ok.1 hty
        injection h with h
        injection h with h1 h2
        exact Or.inr (Or.inr ⟨h1.symm, hc, hlt, tc, htc, h2.symm⟩)

theorem skipExhausted_ok {tmpX : List ℚ} :
    ∀ {it : List DataNode} {xf : DataNode} {rest : List DataNode},
      skipExhausted tmpX it = .ok (xf :: rest) →
      (xf :: rest) <:+ it ∧ ∃ m, tmpX[xf.getIndex]? = some m ∧ EPS ≤ m
  | [], _, _, h => by simp [skipExhausted] at h
  | x :: it, xf, rest, h => by
    rw [skipExhausted.eq_def] at h
    simp only at h
    obtain ⟨m, hm, h⟩ := Run.bind_eq_ok.1 h
    by_cases hlt : m < EPS
    · rw [if_pos hlt] at h
      cases it with
      | nil => simp at h
      | cons x2 it2 =>
        simp only at h
        obtain ⟨hs, hm2⟩ := skipExhausted_ok h
        exact ⟨hs.trans (List.suffix_cons _ _), hm2⟩
    · rw [if_neg hlt] at h
      injection h with h
      injection h with h1 h2
      subst h1 h2
      exact ⟨List.suffix_refl _, m, Run.at_eq_ok.1 hm, le_of_not_lt hlt⟩

theorem searchLoop_mem {c : List (List Cost)} {xIndex : Nat} :
    ∀ {ys : List DataNode} {minimum : Cost} {saved best : DataNode},
      searchLoop c xIndex ys minimum saved = .ok best → best = saved ∨ best ∈ ys
  | [], _, _, _, h => by
    simp only [searchLoop] at h
    injection h with h
    exact Or.inl h.symm
  | y :: ys, minimum, saved, best, h => by
    rw [searchLoop] at h
    obtain ⟨row, -, h⟩ := Run.bind_eq_ok.1 h
    obtain ⟨v, -, h⟩ := Run.bind_eq_ok.1 h
    by_cases hlt : Cost.lt v minimum = true
    · rw [if_pos hlt] at h
      rcases searchLoop_mem h with h1 | h1
      · exact Or.inr (h1 ▸ List.mem_cons_self _ _)
      · exact Or.inr (List.mem_cons_of_mem _ h1)
    · rw [if_neg hlt] at h
      rcases searchLoop_mem h with h1 | h1
      · exact Or.inl h1
      · exact Or.inr (List.mem_cons_of_mem _ h1)

theorem search_mem {c : List (List Cost)} {xIndex : Nat} {ys : List DataNode} {best : DataNode}
    (h : search c xIndex ys = .ok best) : best ∈ ys := by
  cases ys with
  | nil => simp [search] at h
  | cons y ys =>
    simp only [search] at h
    rcases searchLoop_mem h with h1 | h1
    · exact h1 ▸ List.mem_cons_self _ _
    · exact h1


theorem disaggregateStep_facts {yChildren : List DataNode} {w : Work} {b : Bool} {w' : Work}
    (h : disaggregateStep yChildren w = .ok (b, w')) :
    ∃ e xm ym, StepFacts yChildren w b w' e xm ym := by
  obtain ⟨xf, rest, best, xm, ym, hskip, hxm, hbest, hym, hcases⟩ := disaggregateStep_ok h
  obtain ⟨hsuf, m, hm, hge⟩ := skipExhausted_ok hskip
  rw [hxm] at hm
  cases hm
  have hxmem : xf ∈ w.xIter := hsuf.subset (List.mem_cons_self _ _)
  have hymem := search_mem hbest
  rcases hcases with ⟨hb, h1, h2, rfl⟩ | ⟨hb, hc, hlt, tc, -, rfl⟩ | ⟨hb, hc, hlt, tc, -, rfl⟩
  · exact ⟨⟨xf, best, w.tmpAmount⟩, xm, ym,
      { transports_eq := rfl, x_mem := hxmem, y_mem := hymem, xm_eq := hxm, ym_eq := hym,
        xm_ge := hge, tmpX_eq := rfl, tmpY_eq := rfl,
        x_left := by simp only; linarith
        y_left := by simp only; linarith
        amount_cases := Or.inl rfl
        last := fun _ => rfl
        more := fun hf => by simp [hb] at hf
        iter_suffix := hsuf }⟩
  · have hamt : EPS < w.tmpAmount - ym := by
      by_contra hcon
      exact hc ⟨by linarith, by linarith⟩
    exact ⟨⟨xf, best, ym⟩, xm, ym,
      { transports_eq := rfl, x_mem := hxmem, y_mem := hymem, xm_eq := hxm, ym_eq := hym,
        xm_ge := hge, tmpX_eq := rfl, tmpY_eq := by simp
        x_left := by simp only; unfold EPS; linarith [show (0:ℚ) < 1 / 10 ^ 13 by norm_num]
        y_left := by simp only; unfold EPS; linarith [show (0:ℚ) < 1 / 10 ^ 13 by norm_num]
        amount_cases := Or.inr (Or.inl rfl)
        last := fun ht => by simp [hb] at ht
        more := fun _ => ⟨rfl, hamt⟩
        iter_suffix := hsuf }⟩
  · have hle : xm ≤ ym := le_of_not_lt hlt
    have hamt : EPS < w.tmpAmount - xm := by
      by_contra hcon
      exact hc ⟨by linarith, by linarith⟩
    exact ⟨⟨xf, best, xm⟩, xm, ym,
      { transports_eq := rfl, x_mem := hxmem, y_mem := hymem, xm_eq := hxm, ym_eq := hym,
        xm_ge := hge, tmpX_eq := by simp, tmpY_eq := rfl
        x_left := by simp only; unfold EPS; linarith [show (0:ℚ) < 1 / 10 ^ 13 by norm_num]
        y_left := by simp only; unfold EPS; linarith [show (0:ℚ) < 1 / 10 ^ 13 by norm_num]
        amount_cases := Or.inr (Or.inr rfl)
        last := fun ht => by simp [hb] at ht
        more := fun _ => ⟨rfl, hamt⟩
        iter_suffix := hsuf }⟩

/-! ## The end-to-end example -/

theorem core_example_run (fuel : Nat) (h : 4 ≤ fuel) :
    core fuel 4 identitySolver exampleX exampleY exampleCost 2
      = .ok [(0, 0, 0), (0, 1, 0), (0, 2, 0), (0, 3, 1)] := by
  obtain ⟨n, rfl⟩ := Nat.exists_eq_add_of_le h
  have h4 : core 4 4 identitySolver exampleX exampleY exampleCost 2
      = .ok [(0, 0, 0), (0, 1, 0), (0, 2, 0), (0, 3, 1)] := by decide!
  rw [core_fuel_add _ _ _ _ _ _ _ (by rw [h4]; simp) n, h4]

/-- C1 (as amended): on the 2×2 example with the squared distance between leaf centers
as cost and the identity local solver, `core` returns the four edges
`(0,0,0), (0,1,0), (0,2,0), (0,3,1)`: the edge `(0,3,1)` is the only one with a
non-zero amount, and the total cost is `2`. -/
theorem core_example (fuel : Nat) (h : 4 ≤ fuel) :
    (leaves exampleX 2).bind (fun l => .ok (centerCost l)) = .ok exampleCost ∧
    (leaves exampleY 2).bind (fun l => .ok (centerCost l)) = .ok exampleCost ∧
    core fuel 4 identitySolver exampleX exampleY exampleCost 2
      = .ok [(0, 0, 0), (0, 1, 0), (0, 2, 0), (0, 3, 1)] ∧
    [(0, 0, (0 : ℚ)), (0, 1, 0), (0, 2, 0), (0, 3, 1)].filter (fun e => e.2.2 ≠ 0)
      = [(0, 3, 1)] ∧
    totalCost exampleCost [(0, 0, 0), (0, 1, 0), (0, 2, 0), (0, 3, 1)] = 2 :=
  ⟨by decide!, by decide!, core_example_run fuel h, by decide!, by decide!⟩

theorem core_example_witness :
    4 ≤ 5 ∧ core 5 4 identitySolver exampleX exampleY exampleCost 2
      = .ok [(0, 0, 0), (0, 1, 0), (0, 2, 0), (0, 3, 1)] :=
  ⟨by decide, (core_example 5 (by decide)).2.2.1⟩

/-- C1 (as stated) fails: whatever the fuel, `core` does not return the single edge
`(0, 3, 1)` on the example. -/
theorem core_example_not_single_edge :
    ¬ ∃ fuel, core fuel 4 identitySolver exampleX exampleY exampleCost 2 = .ok [(0, 3, 1)] := by
  rintro ⟨fuel, h⟩
  by_cases hf : 4 ≤ fuel
  · rw [core_example_run fuel hf] at h
    revert h
    decide!
  · have hlt : fuel < 4 := Nat.lt_of_not_le hf
    interval_cases fuel <;> revert h <;> decide!


theorem EPS_pos : 0 < EPS := by
  unfold EPS
  norm_num

theorem totalAmount_append (a b : List Transport) :
    totalAmount (a ++ b) = totalAmount a + totalAmount b := by
  simp [totalAmount]

theorem totalAmount_join {ts : List Transport} {groups : List (List Transport)}
    (h : List.Forall₂ (fun t g => totalAmount g = t.amount) ts groups) :
    totalAmount groups.flatten = totalAmount ts := by
  induction h with
  | nil => rfl
  | cons hg _ ih =>
    rw [List.flatten_cons, totalAmount_append, ih, hg]
    simp [totalAmount]

theorem disaggregate_emits {yChildren : List DataNode} :
    ∀ (fuel : Nat) {w w' : Work}, disaggregate yChildren fuel w = .ok w' →
      ∃ g, w'.transports = w.transports ++ g ∧ totalAmount g = w.tmpAmount ∧
        ∀ e ∈ g, e.x ∈ w.xIter ∧ e.y ∈ yChildren
  | 0, _, _, h => by simp [disaggregate] at h
  | fuel + 1, w, w', h => by
    rw [disaggregate] at h
    obtain ⟨⟨b, w1⟩, hstep, h⟩ := Run.bind_eq_ok.1 h
    obtain ⟨e, xm, ym, hf⟩ := disaggregateStep_facts hstep
    cases b with
    | true =>
      simp only [if_true] at h
      injection h with h
      subst h
      refine ⟨[e], hf.transports_eq, ?_, ?_⟩
      · simp [totalAmount, hf.last rfl]
      · intro e' he'
        rw [List.mem_singleton] at he'
        subst he'
        exact ⟨hf.x_mem, hf.y_mem⟩
    | false =>
      simp only [Bool.false_eq_true, if_false] at h
      obtain ⟨g, hg, htot, hmem⟩ := disaggregate_emits fuel h
      refine ⟨e :: g, ?_, ?_, ?_⟩
      · rw [hg, hf.transports_eq]
        simp
      · have := (hf.more rfl).1
        simp only [totalAmount, List.map_cons, List.sum_cons] at htot ⊢
        rw [htot, this]
        ring
      · intro e' he'
        rcases List.mem_cons.1 he' with rfl | he'
        · exact ⟨hf.x_mem, hf.y_mem⟩
        · exact ⟨hf.iter_suffix.subset (hmem e' he').1, (hmem e' he').2⟩

theorem propagateLoop_groups (fuel : Nat) :
    ∀ {ts : List Transport} {w w' : Work}, propagateLoop fuel ts w = .ok w' →
      ∃ groups : List (List Transport), w'.transports = w.transports ++ groups.flatten ∧
        List.Forall₂ (fun t g => totalAmount g = t.amount ∧
          ∀ e ∈ g, e.x ∈ t.x.getChildren ∧ e.y ∈ t.y.getChildren) ts groups
  | [], w, w', h => by
    simp only [propagateLoop] at h
    injection h with h
    subst h
    exact ⟨[], by simp, List.Forall₂.nil⟩
  | t :: ts, w, w', h => by
    rw [propagateLoop] at h
    obtain ⟨w1, h1, h⟩ := Run.bind_eq_ok.1 h
    obtain ⟨g, hg, htot, hmem⟩ := disaggregate_emits fuel h1
    obtain ⟨groups, hgs, hall⟩ := propagateLoop_groups fuel h
    refine ⟨g :: groups, ?_, List.Forall₂.cons ⟨htot, hmem⟩ hall⟩
    rw [hgs, hg]
    simp

theorem propagate_groups {fuel : Nat} {costChain : List (List (List ℚ))}
    {X Y : List (List DataNode)} {plan newPlan : TransportPlan}
    (h : propagate fuel costChain X Y plan = .ok newPlan) :
    ∃ groups : List (List Transport), newPlan.transports = groups.flatten ∧
      List.Forall₂ (fun t g => totalAmount g = t.amount ∧
        ∀ e ∈ g, e.x ∈ t.x.getChildren ∧ e.y ∈ t.y.getChildren) plan.transports groups := by
  unfold propagate at h
  obtain ⟨xF, -, h⟩ := Run.bind_eq_ok.1 h
  obtain ⟨yF, -, h⟩ := Run.bind_eq_ok.1 h
  obtain ⟨c, -, h⟩ := Run.bind_eq_ok.1 h
  obtain ⟨w, hw, h⟩ := Run.bind_eq_ok.1 h
  injection h with h
  subst h
  obtain ⟨groups, hg, hall⟩ := propagateLoop_groups fuel hw
  exact ⟨groups, by simpa [initialWork] using hg, hall⟩

theorem propagate_totalAmount {fuel : Nat} {costChain : List (List (List ℚ))}
    {X Y : List (List DataNode)} {plan newPlan : TransportPlan}
    (h : propagate fuel costChain X Y plan = .ok newPlan) :
    totalAmount newPlan.transports = totalAmount plan.transports := by
  obtain ⟨groups, hg, hall⟩ := propagate_groups h
  rw [hg]
  exact totalAmount_join (hall.imp fun _ _ h => h.1)

/-! ## Amounts stay above `-EPS` -/

theorem disaggregate_lower {yChildren : List DataNode} :
    ∀ (fuel : Nat) {w w' : Work}, 0 ≤ w.tmpAmount →
      (∀ v ∈ w.tmpYMeasure, -EPS ≤ v) → (∀ e ∈ w.transports, -EPS ≤ e.amount) →
      disaggregate yChildren fuel w = .ok w' →
      (∀ v ∈ w'.tmpYMeasure, -EPS ≤ v) ∧ (∀ e ∈ w'.transports, -EPS ≤ e.amount)
  | 0, _, _, _, _, _, h => by simp [disaggregate] at h
  | fuel + 1, w, w', hamt, hy, hts, h => by
    rw [disaggregate] at h
    obtain ⟨⟨b, w1⟩, hstep, h⟩ := Run.bind_eq_ok.1 h
    obtain ⟨e, xm, ym, hf⟩ := disaggregateStep_facts hstep
    have hym : -EPS ≤ ym := hy ym (List.getElem?_mem hf.ym_eq)
    have he : -EPS ≤ e.amount := by
      rcases hf.amount_cases with h1 | h1 | h1 <;> rw [h1]
      · linarith [EPS_pos]
      · exact hym
      · linarith [EPS_pos, hf.xm_ge]
    have hy1 : ∀ v ∈ w1.tmpYMeasure, -EPS ≤ v := by
      intro v hv
      rw [hf.tmpY_eq] at hv
      rcases List.mem_or_eq_of_mem_set hv with h1 | h1
      · exact hy v h1
      · rw [h1]
        exact hf.y_left
    have hts1 : ∀ e' ∈ w1.transports, -EPS ≤ e'.amount := by
      intro e' he'
      rw [hf.transports_eq, List.mem_append, List.mem_singleton] at he'
      rcases he' with h1 | h1
      · exact hts e' h1
      · rw [h1]
        exact he
    cases b with
    | true =>
      simp only [if_true] at h
      injection h with h
      subst h
      exact ⟨hy1, hts1⟩
    | false =>
      simp only [Bool.false_eq_true, if_false] at h
      exact disaggregate_lower fuel (le_of_lt (lt_trans EPS_pos (hf.more rfl).2)) hy1 hts1 h

theorem propagateLoop_lower (fuel : Nat) :
    ∀ {ts : List Transport} {w w' : Work}, (∀ t ∈ ts, 0 ≤ t.amount) →
      (∀ v ∈ w.tmpYMeasure, -EPS ≤ v) → (∀ e ∈ w.transports, -EPS ≤ e.amount) →
      propagateLoop fuel ts w = .ok w' →
      (∀ v ∈ w'.tmpYMeasure, -EPS ≤ v) ∧ (∀ e ∈ w'.transports, -EPS ≤ e.amount)
  | [], w, w', _, hy, hts, h => by
    simp only [propagateLoop] at h
    injection h with h
    subst h
    exact ⟨hy, hts⟩
  | t :: ts, w, w', hpos, hy, hts, h => by
    rw [propagateLoop] at h
    obtain ⟨w1, h1, h⟩ := Run.bind_eq_ok.1 h
    obtain ⟨hy1, hts1⟩ := disaggregate_lower fuel
      (w := { w with tmpAmount := t.amount, xIter := t.x.getChildren })
      (hpos t (List.mem_cons_self _ _)) hy hts h1
    exact propagateLoop_lower fuel (fun t' ht' => hpos t' (List.mem_cons_of_mem _ ht')) hy1 hts1 h

theorem propagate_lower {fuel : Nat} {costChain : List (List (List ℚ))}
    {X Y : List (List DataNode)} {plan newPlan : TransportPlan} {yFine : List DataNode}
    (hY : Run.at Y (plan.level + 1) = .ok yFine) (hm : ∀ n ∈ yFine, 0 ≤ n.getMeasure)
    (hpos : ∀ t ∈ plan.transports, 0 ≤ t.amount)
    (h : propagate fuel costChain X Y plan = .ok newPlan) :
    ∀ e ∈ newPlan.transports, -EPS ≤ e.amount := by
  unfold propagate at h
  obtain ⟨xF, -, h⟩ := Run.bind_eq_ok.1 h
  rw [hY] at h
  simp only [Run.ok_bind] at h
  obtain ⟨c, -, h⟩ := Run.bind_eq_ok.1 h
  obtain ⟨w, hw, h⟩ := Run.bind_eq_ok.1 h
  injection h with h
  subst h
  refine (propagateLoop_lower fuel hpos ?_ ?_ hw).2
  · intro v hv
    simp only [initialWork, List.mem_map] at hv
    obtain ⟨n, hn, rfl⟩ := hv
    linarith [hm n hn, EPS_pos]
  · intro e he
    simp [initialWork] at he

/-! ## Residual measures account for the emitted edges -/

theorem flow_append_singleton (key : Transport → Nat) (ts : List Transport) (e : Transport)
    (i : Nat) : flow key (ts ++ [e]) i = flow key ts i + if key e = i then e.amount else 0 := by
  unfold flow
  by_cases h : key e = i <;> simp [List.filter_append, List.filter_cons, h]

theorem Residual.step {key : Transport → Nat} {m tmp : List ℚ} {ts : List Transport}
    (hr : Residual key m tmp ts) {e : Transport} {r : ℚ} (hj : tmp[key e]? = some r)
    (hleft : -EPS ≤ r - e.amount) :
    Residual key m (tmp.set (key e) (r - e.amount)) (ts ++ [e]) := by
  intro i v hv
  rw [List.getElem?_set] at hv
  rw [flow_append_singleton]
  by_cases hij : key e = i
  · subst hij
    have hlt : key e < tmp.length := by
      by_contra hc
      rw [List.getElem?_eq_none (Nat.le_of_not_lt hc)] at hj
      cases hj
    simp only [if_true, hlt] at hv
    cases hv
    refine ⟨?_, hleft⟩
    rw [(hr _ _ hj).1]
    congr 1
    simp
  · simp only [hij, if_false] at hv ⊢
    simpa using hr i v hv

theorem disaggregate_residual {yChildren : List DataNode} {mx my : List ℚ} :
    ∀ (fuel : Nat) {w w' : Work},
      Residual (fun t => t.x.getIndex) mx w.tmpXMeasure w.transports →
      Residual (fun t => t.y.getIndex) my w.tmpYMeasure w.transports →
      w.tmpXMeasure.length = mx.length → w.tmpYMeasure.length = my.length →
      disaggregate yChildren fuel w = .ok w' →
      Residual (fun t => t.x.getIndex) mx w'.tmpXMeasure w'.transports ∧
      Residual (fun t => t.y.getIndex) my w'.tmpYMeasure w'.transports ∧
      w'.tmpXMeasure.length = mx.length ∧ w'.tmpYMeasure.length = my.length
  | 0, _, _, _, _, _, _, h => by simp [disaggregate] at h
  | fuel + 1, w, w', hx, hy, hlx, hly, h => by
    rw [disaggregate] at h
    obtain ⟨⟨b, w1⟩, hstep, h⟩ := Run.bind_eq_ok.1 h
    obtain ⟨e, xm, ym, hf⟩ := disaggregateStep_facts hstep
    have hx1 : Residual (fun t => t.x.getIndex) mx w1.tmpXMeasure w1.transports := by
      rw [hf.tmpX_eq, hf.transports_eq]
      exact hx.step hf.xm_eq hf.x_left
    have hy1 : Residual (fun t => t.y.getIndex) my w1.tmpYMeasure w1.transports := by
      rw [hf.tmpY_eq, hf.transports_eq]
      exact hy.step hf.ym_eq hf.y_left
    have hlx1 : w1.tmpXMeasure.length = mx.length := by rw [hf.tmpX_eq, List.length_set, hlx]
    have hly1 : w1.tmpYMeasure.length = my.length := by rw [hf.tmpY_eq, List.length_set, hly]
    cases b with
    | true =>
      simp only [if_true] at h
      injection h with h
      subst h
      exact ⟨hx1, hy1, hlx1, hly1⟩
    | false =>
      simp only [Bool.false_eq_true, if_false] at h
      exact disaggregate_residual fuel hx1 hy1 hlx1 hly1 h

theorem propagateLoop_residual (fuel : Nat) {mx my : List ℚ} :
    ∀ {ts : List Transport} {w w' : Work},
      Residual (fun t => t.x.getIndex) mx w.tmpXMeasure w.transports →
      Residual (fun t => t.y.getIndex) my w.tmpYMeasure w.transports →
      w.tmpXMeasure.length = mx.length → w.tmpYMeasure.length = my.length →
      propagateLoop fuel ts w = .ok w' →
      Residual (fun t => t.x.getIndex) mx w'.tmpXMeasure w'.transports ∧
      Residual (fun t => t.y.getIndex) my w'.tmpYMeasure w'.transports ∧
      w'.tmpXMeasure.length = mx.length ∧ w'.tmpYMeasure.length = my.length
  | [], w, w', hx, hy, hlx, hly, h => by
    simp only [propagateLoop] at h
    injection h with h
    subst h
    exact ⟨hx, hy, hlx, hly⟩
  | t :: ts, w, w', hx, hy, hlx, hly, h => by
    rw [propagateLoop] at h
    obtain ⟨w1, h1, h⟩ := Run.bind_eq_ok.1 h
    obtain ⟨hx1, hy1, hlx1, hly1⟩ := disaggregate_residual fuel
      (w := { w with tmpAmount := t.amount, xIter := t.x.getChildren }) hx hy hlx hly h1
    exact propagateLoop_residual fuel hx1 hy1 hlx1 hly1 h

theorem Residual.initial (key : Transport → Nat) {m : List ℚ} (hm : ∀ v ∈ m, 0 ≤ v) :
    Residual key m m [] := by
  intro i v hv
  refine ⟨by simpa [flow] using hv, ?_⟩
  linarith [hm v (List.getElem?_mem hv), EPS_pos]

theorem Residual.flow_le {key : Transport → Nat} {m tmp : List ℚ} {ts : List Transport}
    (hr : Residual key m tmp ts) (hl : tmp.length = m.length) {i : Nat} {a : ℚ}
    (hi : m[i]? = some a) : flow key ts i ≤ a + EPS := by
  have hlt : i < tmp.length := by
    rw [hl]
    by_contra hc
    rw [List.getElem?_eq_none (Nat.le_of_not_lt hc)] at hi
    cases hi
  obtain ⟨h1, h2⟩ := hr i _ (List.getElem?_eq_getElem hlt)
  rw [hi] at h1
  injection h1 with h1
  linarith

theorem propagate_flow_le {fuel : Nat} {costChain : List (List (List ℚ))}
    {X Y : List (List DataNode)} {plan newPlan : TransportPlan} {xFine yFine : List DataNode}
    (hX : Run.at X (plan.level + 1) = .ok xFine) (hY : Run.at Y (plan.level + 1) = .ok yFine)
    (hmx : ∀ n ∈ xFine, 0 ≤ n.getMeasure) (hmy : ∀ n ∈ yFine, 0 ≤ n.getMeasure)
    (h : propagate fuel costChain X Y plan = .ok newPlan) :
    (∀ i n, xFine[i]? = some n → outgoing newPlan.transports i ≤ n.getMeasure + EPS) ∧
    (∀ i n, yFine[i]? = some n → incoming newPlan.transports i ≤ n.getMeasure + EPS) := by
  unfold propagate at h
  rw [hX, hY] at h
  simp only [Run.ok_bind] at h
  obtain ⟨c, -, h⟩ := Run.bind_eq_ok.1 h
  obtain ⟨w, hw, h⟩ := Run.bind_eq_ok.1 h
  injection h with h
  subst h
  have hix : ∀ v ∈ xFine.map DataNode.getMeasure, (0 : ℚ) ≤ v := by
    intro v hv
    obtain ⟨n, hn, rfl⟩ := List.mem_map.1 hv
    exact hmx n hn
  have hiy : ∀ v ∈ yFine.map DataNode.getMeasure, (0 : ℚ) ≤ v := by
    intro v hv
    obtain ⟨n, hn, rfl⟩ := List.mem_map.1 hv
    exact hmy n hn
  obtain ⟨hx, hy, hlx, hly⟩ := propagateLoop_residual fuel
    (w := initialWork xFine yFine c)
    (Residual.initial _ hix) (Residual.initial _ hiy) rfl rfl hw
  constructor
  · intro i n hn
    exact hx.flow_le hlx (by
      show (List.map DataNode.getMeasure _)[i]? = _
      rw [List.getElem?_map, hn]
      rfl)
  · intro i n hn
    exact hy.flow_le hly (by
      show (List.map DataNode.getMeasure _)[i]? = _
      rw [List.getElem?_map, hn]
      rfl)

/-! ## Index arithmetic of the grouping -/

theorem flatMap_swap {α β γ : Type} (l₁ : List α) (l₂ : List β) (f : α → β → List γ) :
    (l₁.flatMap fun a => l₂.flatMap fun b => f a b).Perm
      (l₂.flatMap fun b => l₁.flatMap fun a => f a b) := by
  induction l₁ with
  | nil => simp
  | cons a l₁ ih =>
    simp only [List.flatMap_cons]
    exact (List.Perm.append_left _ ih).trans (List.flatMap_append_perm l₂ _ _)

theorem range_flatMap_range (a s : Nat) :
    ((List.range a).flatMap fun r => (List.range s).map fun c => c + r * s) = List.range (a * s) := by
  induction a with
  | zero => simp
  | succ a ih =>
    rw [List.range_succ, List.flatMap_append, ih, List.flatMap_singleton, Nat.succ_mul,
      List.range_add]
    congr 1
    apply List.map_congr_left
    intro c _
    exact Nat.add_comm _ _

theorem pairs_map_index (n : Nat) :
    (pairs n).map (fun p => p.2 + p.1 * n) = List.range (n * n) := by
  unfold pairs
  rw [List.map_flatMap, ← range_flatMap_range n n]
  apply List.flatMap_congr
  intro i _
  rw [List.map_map]
  rfl

theorem length_pairs (n : Nat) : (pairs n).length = n * n := by
  have h := congrArg List.length (pairs_map_index n)
  simpa using h

theorem mem_pairs {n : Nat} {p : Nat × Nat} : p ∈ pairs n ↔ p.1 < n ∧ p.2 < n := by
  unfold pairs
  simp only [List.mem_flatMap, List.mem_range, List.mem_map]
  constructor
  · rintro ⟨i, hi, j, hj, rfl⟩
    exact ⟨hi, hj⟩
  · rintro ⟨h1, h2⟩
    exact ⟨p.1, h1, p.2, h2, rfl⟩

/-- The groups `replicate m k ++ [last]` starting at the offsets `i*k` enumerate
`0 .. m*k + last - 1` in order. -/
theorem group_rows (m k last : Nat) :
    ((List.range (m + 1)).flatMap fun i =>
        (List.range ((List.replicate m k ++ [last]).getD i 0)).map fun kk => i * k + kk)
      = List.range (m * k + last) := by
  rw [List.range_succ, List.flatMap_append, List.flatMap_singleton, List.range_add]
  congr 1
  · rw [← range_flatMap_range m k]
    apply List.flatMap_congr
    intro i hi
    rw [List.mem_range] at hi
    have hg : (List.replicate m k ++ [last]).getD i 0 = k := by
      rw [List.getD_eq_getElem?_getD, List.getElem?_append_left (by simpa using hi)]
      simp [List.getElem?_replicate, hi]
    rw [hg]
    apply List.map_congr_left
    intro c _
    exact Nat.add_comm _ _
  · have hg : (List.replicate m k ++ [last]).getD m 0 = last := by
      rw [List.getD_eq_getElem?_getD, List.getElem?_append_right (by simp)]
      simp
    rw [hg]

theorem partitionInIndex_eq (s k : Nat) :
    ∃ m last, partitionInIndex s k = List.replicate m k ++ [last] ∧ m * k + last = s := by
  unfold partitionInIndex
  by_cases h : s < 2 * k
  · exact ⟨0, s, by simp [h], by simp⟩
  · refine ⟨s / k - 1, s % k + k, by simp [h], ?_⟩
    rcases Nat.eq_zero_or_pos k with rfl | hk0
    · simp
    · have hk : 1 ≤ s / k := (Nat.one_le_div_iff hk0).2 (by omega)
      have h1 : (s / k - 1) * k + k = s / k * k := by
        have := Nat.sub_add_cancel hk
        calc (s / k - 1) * k + k = (s / k - 1 + 1) * k := by ring
          _ = s / k * k := by rw [this]
      have h2 := Nat.div_add_mod' s k
      omega

/-- The positions read for all parents, in construction order, are a rearrangement of
`0 .. s*s - 1`. -/
theorem childPositions_perm (s k : Nat) :
    ((pairs (partitionInIndex s k).length).flatMap fun p =>
        childPositions k s (partitionInIndex s k) p.1 p.2).Perm (List.range (s * s)) := by
  obtain ⟨m, last, hp, hs⟩ := partitionInIndex_eq s k
  have hlen : (partitionInIndex s k).length = m + 1 := by simp [hp]
  rw [hlen, hp]
  unfold pairs childPositions
  rw [List.flatMap_assoc]
  simp only [List.flatMap_map]
  have hrows := group_rows m k last
  rw [hs] at hrows
  -- swap the loops over `j` and `k`
  have hswap : ∀ i, ((List.range (m + 1)).flatMap fun j =>
      (List.range ((List.replicate m k ++ [last]).getD i 0)).flatMap fun kk =>
        (List.range ((List.replicate m k ++ [last]).getD j 0)).map fun l =>
          j * k + l + (i * k + kk) * s).Perm
      ((List.range ((List.replicate m k ++ [last]).getD i 0)).flatMap fun kk =>
        (List.range s).map fun c => c + (i * k + kk) * s) := by
    intro i
    refine (flatMap_swap _ _ _).trans ?_
    apply List.Perm.of_eq
    apply List.flatMap_congr
    intro kk _
    rw [← hrows, List.map_flatMap]
    apply List.flatMap_congr
    intro j _
    rw [List.map_map]
    rfl
  refine (List.Perm.flatMap_left _ fun i _ => hswap i).trans (List.Perm.of_eq ?_)
  calc ((List.range (m + 1)).flatMap fun i =>
          (List.range ((List.replicate m k ++ [last]).getD i 0)).flatMap fun kk =>
            (List.range s).map fun c => c + (i * k + kk) * s)
      = ((List.range (m + 1)).flatMap fun i =>
          (List.range ((List.replicate m k ++ [last]).getD i 0)).map fun kk => i * k + kk).flatMap
          fun r => (List.range s).map fun c => c + r * s := by
        rw [List.flatMap_assoc]
        apply List.flatMap_congr
        intro i _
        rw [List.flatMap_map]
    _ = (List.range s).flatMap fun r => (List.range s).map fun c => c + r * s := by
        rw [hrows]
    _ = List.range (s * s) := range_flatMap_range s s

/-! ## One coarsening step -/

theorem foldl_add_eq_sum {α : Type} (f : α → ℚ) (l : List α) (a : ℚ) :
    l.foldl (fun m c => m + f c) a = a + (l.map f).sum := by
  induction l generalizing a with
  | nil => simp
  | cons x l ih =>
    simp only [List.foldl_cons, List.map_cons, List.sum_cons, ih]
    ring

theorem forEach_at_eq_filterMap {α : Type} {v : List α} {ps : List Nat} {cs : List α}
    (h : Run.forEach (Run.at v) ps = .ok cs) : cs = ps.filterMap fun p => v[p]? := by
  have h2 := Run.forEach_eq_ok.1 h
  induction h2 with
  | nil => rfl
  | cons hab _ ih =>
    rw [Run.at_eq_ok] at hab
    rw [List.filterMap_cons, hab]
    simp only
    rw [← ih (Run.forEach_eq_ok.2 ‹_›)]

theorem range_filterMap_getElem? {α : Type} (v : List α) :
    (List.range v.length).filterMap (fun p => v[p]?) = v := by
  induction v using List.reverseRecOn with
  | nil => rfl
  | append_singleton v a ih =>
    rw [List.length_append, List.length_singleton, List.range_succ, List.filterMap_append]
    have h1 : (List.range v.length).filterMap (fun p => (v ++ [a])[p]?)
        = (List.range v.length).filterMap (fun p => v[p]?) := by
      apply List.filterMap_congr
      intro p hp
      rw [List.mem_range] at hp
      exact List.getElem?_append_left hp
    rw [h1, ih]
    simp

theorem parentNode_ok {unb k s : Nat} {dataNodes : List DataNode} {part : List Nat}
    {i j : Nat} {node : DataNode}
    (h : parentNode unb k s dataNodes part i j = .ok node) :
    node.getChildren = (childPositions k s part i j).filterMap (fun p => dataNodes[p]?) ∧
    node.getChildren.length = (childPositions k s part i j).length ∧
    node.getIndex = j + i * part.length ∧
    node.getMeasure = (node.getChildren.map DataNode.getMeasure).sum ∧
    node.getCenter =
      ((node.getChildren.map fun c => c.getCenter.1).sum / node.getChildren.length,
       (node.getChildren.map fun c => c.getCenter.2).sum / node.getChildren.length) := by
  unfold parentNode at h
  obtain ⟨children, hc, h⟩ := Run.bind_eq_ok.1 h
  unfold DataNode.internal at h
  simp only at h
  by_cases hu : j + i * part.length > unb
  · rw [if_pos hu] at h
    cases h
  · rw [if_neg hu] at h
    injection h with h
    subst h
    refine ⟨forEach_at_eq_filterMap hc, Run.forEach_length hc, rfl, ?_, ?_⟩
    · show children.foldl (fun m c => m + c.getMeasure) 0
        = (children.map DataNode.getMeasure).sum
      rw [foldl_add_eq_sum, zero_add]
    · show (children.foldl (fun s c => s + c.getCenter.1) 0 / (children.length : ℚ),
          children.foldl (fun s c => s + c.getCenter.2) 0 / (children.length : ℚ)) = _
      rw [foldl_add_eq_sum, foldl_add_eq_sum, zero_add, zero_add]
      rfl

theorem forall₂_flatMap {α β γ : Type} {R : α → β → Prop} {g : β → List γ} {h : α → List γ}
    {l₁ : List α} {l₂ : List β} (hr : List.Forall₂ R l₁ l₂) (hgh : ∀ a b, R a b → g b = h a) :
    l₂.flatMap g = l₁.flatMap h := by
  induction hr with
  | nil => rfl
  | cons hab _ ih => rw [List.flatMap_cons, List.flatMap_cons, ih, hgh _ _ hab]

theorem forall₂_map {α β γ : Type} {R : α → β → Prop} {g : β → γ} {h : α → γ}
    {l₁ : List α} {l₂ : List β} (hr : List.Forall₂ R l₁ l₂) (hgh : ∀ a b, R a b → g b = h a) :
    l₂.map g = l₁.map h := by
  induction hr with
  | nil => rfl
  | cons hab _ ih => rw [List.map_cons, List.map_cons, ih, hgh _ _ hab]

theorem forall₂_mem_right {α β : Type} {R : α → β → Prop} {l₁ : List α} {l₂ : List β}
    (hr : List.Forall₂ R l₁ l₂) {b : β} (hb : b ∈ l₂) : ∃ a, a ∈ l₁ ∧ R a b := by
  induction hr with
  | nil => cases hb
  | cons hab _ ih =>
    rcases List.mem_cons.1 hb with rfl | hm
    · exact ⟨_, List.mem_cons_self _ _, hab⟩
    · obtain ⟨a, ha, hr⟩ := ih hm
      exact ⟨a, List.mem_cons_of_mem _ ha, hr⟩

theorem partitionInIndex_mem_pos {s k : Nat} (hs : 1 ≤ s) :
    ∀ x ∈ partitionInIndex s k, 1 ≤ x := by
  intro x hmem
  unfold partitionInIndex at hmem
  by_cases h : s < 2 * k
  · rw [if_pos h] at hmem
    simp only [List.mem_singleton] at hmem
    omega
  · rw [if_neg h] at hmem
    simp only [List.mem_append, List.mem_replicate, List.mem_singleton] at hmem
    rcases Nat.eq_zero_or_pos k with rfl | hk
    · simp at hmem
      omega
    · rcases hmem with ⟨-, rfl⟩ | rfl <;> omega

theorem partitionInIndex_pos {s k : Nat} (hs : 1 ≤ s) :
    ∀ i, i < (partitionInIndex s k).length → 1 ≤ (partitionInIndex s k).getD i 0 := by
  intro i hi
  rw [List.getD_eq_getElem?_getD, List.getElem?_eq_getElem hi]
  exact partitionInIndex_mem_pos hs _ (List.getElem_mem hi)

theorem length_childPositions (k s : Nat) (part : List Nat) (i j : Nat) :
    (childPositions k s part i j).length = part.getD i 0 * part.getD j 0 := by
  unfold childPositions
  simp [List.length_flatMap, Function.comp_def]

theorem coarsenStep_coarsens {unb k s : Nat} {dataNodes parents : List DataNode}
    (hlen : dataNodes.length = s * s) (hs : 1 ≤ s)
    (h : coarsenStep unb k s dataNodes = .ok parents) :
    Coarsens dataNodes parents ∧
    parents.length = (partitionInIndex s k).length * (partitionInIndex s k).length := by
  unfold coarsenStep at h
  simp only at h
  have hf := Run.forEach_eq_ok.1 h
  have hl : parents.length
      = (partitionInIndex s k).length * (partitionInIndex s k).length := by
    rw [← hf.length_eq, length_pairs]
  refine ⟨⟨?_, ?_, ?_⟩, hl⟩
  · rw [forall₂_flatMap hf (fun p node hp => (parentNode_ok hp).1), ← List.filterMap_flatMap]
    refine ((childPositions_perm s k).filterMap _).trans (List.Perm.of_eq ?_)
    rw [← hlen]
    exact range_filterMap_getElem? dataNodes
  · rw [forall₂_map hf (fun p node hp => (parentNode_ok hp).2.2.1), pairs_map_index, hl]
  · intro node hnode
    obtain ⟨p, hp, hpn⟩ := forall₂_mem_right hf hnode
    obtain ⟨-, hcl, -, hm, hc⟩ := parentNode_ok hpn
    refine ⟨?_, hm, hc⟩
    intro hnil
    rw [hnil, length_childPositions] at hcl
    have h1 := partitionInIndex_pos (k := k) hs p.1 (mem_pairs.1 hp).1
    have h2 := partitionInIndex_pos (k := k) hs p.2 (mem_pairs.1 hp).2
    have := Nat.mul_pos h1 h2
    rw [List.length_nil] at hcl
    omega

/-! ## The coarsening loop -/

theorem Run.forEach_ok_of_forall {α β : Type} {f : α → Run β} :
    ∀ {l : List α}, (∀ a ∈ l, ∃ b, f a = .ok b) → ∃ bs, Run.forEach f l = .ok bs
  | [], _ => ⟨[], rfl⟩
  | a :: as, h => by
    obtain ⟨b, hb⟩ := h a (List.mem_cons_self _ _)
    obtain ⟨bs, hbs⟩ := Run.forEach_ok_of_forall (l := as)
      (fun x hx => h x (List.mem_cons_of_mem _ hx))
    exact ⟨b :: bs, by simp [Run.forEach, hb, hbs]⟩

theorem length_partitionInIndex {s k : Nat} (hk : 1 ≤ k) :
    (partitionInIndex s k).length = specNextResolution k s := by
  unfold partitionInIndex specNextResolution
  by_cases h : s < 2 * k
  · simp [h]
  · have h1 : 1 ≤ s / k := (Nat.one_le_div_iff hk).2 (by omega)
    simp only [h, if_false, List.length_append, List.length_replicate, List.length_singleton]
    omega

theorem specNextResolution_pos {s k : Nat} (hk : 1 ≤ k) : 1 ≤ specNextResolution k s := by
  unfold specNextResolution
  by_cases h : s < 2 * k
  · simp [h]
  · simp only [h, if_false]
    exact (Nat.one_le_div_iff hk).2 (by omega)

theorem specNextResolution_lt {s k : Nat} (hk : 2 ≤ k) (hs : 2 ≤ s) : specNextResolution k s < s := by
  unfold specNextResolution
  by_cases h : s < 2 * k
  · simp only [h, if_true]
    omega
  · simp only [h, if_false]
    exact Nat.div_lt_self (by omega) (by omega)

theorem coarsenStep_ok {unb k s : Nat} {dataNodes : List DataNode}
    (hlen : dataNodes.length = s * s)
    (hunb : (partitionInIndex s k).length * (partitionInIndex s k).length ≤ unb + 1) :
    ∃ parents, coarsenStep unb k s dataNodes = .ok parents := by
  unfold coarsenStep
  apply Run.forEach_ok_of_forall
  intro p hp
  have hpos : ∀ q ∈ childPositions k s (partitionInIndex s k) p.1 p.2, q < s * s := by
    intro q hq
    have hmem : q ∈ (pairs (partitionInIndex s k).length).flatMap fun p =>
        childPositions k s (partitionInIndex s k) p.1 p.2 :=
      List.mem_flatMap.2 ⟨p, hp, hq⟩
    exact List.mem_range.1 ((childPositions_perm s k).subset hmem)
  obtain ⟨children, hc⟩ := Run.forEach_ok_of_forall (f := Run.at dataNodes)
    (l := childPositions k s (partitionInIndex s k) p.1 p.2)
    (fun q hq => ⟨_, Run.at_of_lt (hlen ▸ hpos q hq)⟩)
  have hidx : ¬ p.2 + p.1 * (partitionInIndex s k).length > unb := by
    obtain ⟨h1, h2⟩ := mem_pairs.1 hp
    have : p.2 + p.1 * (partitionInIndex s k).length
        < (partitionInIndex s k).length * (partitionInIndex s k).length := by
      calc p.2 + p.1 * (partitionInIndex s k).length
          < (partitionInIndex s k).length + p.1 * (partitionInIndex s k).length := by omega
        _ = (p.1 + 1) * (partitionInIndex s k).length := by ring
        _ ≤ (partitionInIndex s k).length * (partitionInIndex s k).length :=
          Nat.mul_le_mul_right _ h1
    omega
  unfold parentNode DataNode.internal
  rw [hc]
  simp only [Run.ok_bind, if_neg hidx]
  exact ⟨_, rfl⟩

theorem coarsenLoop_chain {unb k : Nat} :
    ∀ (fuel : Nat) (d : List DataNode) (s : Nat) (chain result : List (List DataNode)),
      d.length = s * s → 1 ≤ s →
      coarsenLoop unb k fuel d s chain = .ok result →
      ∃ more, result = chain ++ more ∧ List.Chain Coarsens d more ∧
        ((d :: more).getLast?.map List.length) = some 1 := by
  intro fuel
  induction fuel with
  | zero =>
    intro d s chain result hlen hs h
    unfold coarsenLoop at h
    by_cases h1 : s = 1
    · rw [if_pos h1] at h
      injection h with h
      subst h h1
      exact ⟨[], by simp, List.Chain.nil, by simp [hlen]⟩
    · simp [h1] at h
  | succ fuel ih =>
    intro d s chain result hlen hs h
    rw [coarsenLoop.eq_def] at h
    simp only at h
    by_cases h1 : s = 1
    · rw [if_pos h1] at h
      injection h with h
      subst h h1
      exact ⟨[], by simp, List.Chain.nil, by simp [hlen]⟩
    · simp only [h1, if_false] at h
      obtain ⟨parents, hp, h⟩ := Run.bind_eq_ok.1 h
      obtain ⟨hco, hpl⟩ := coarsenStep_coarsens hlen hs hp
      have hn : 1 ≤ (partitionInIndex s k).length := by
        obtain ⟨m, last, hpe, -⟩ := partitionInIndex_eq s k
        simp [hpe]
      obtain ⟨more, hres, hch, hlast⟩ := ih parents _ _ result hpl hn h
      refine ⟨parents :: more, by simp [hres], List.Chain.cons hco hch, ?_⟩
      rw [List.getLast?_cons_cons]
      exact hlast

theorem coarsenLoop_terminates {unb k : Nat} (hk : 2 ≤ k) :
    ∀ (fuel : Nat) (d : List DataNode) (s : Nat) (chain : List (List DataNode)),
      d.length = s * s → 1 ≤ s → s ≤ fuel + 1 → s * s ≤ unb + 1 →
      ∃ more, coarsenLoop unb k fuel d s chain = .ok (chain ++ more) ∧
        (d :: more).map List.length = (specResolutions k fuel s).map fun n => n * n := by
  intro fuel
  induction fuel with
  | zero =>
    intro d s chain hlen hs hf _
    have h1 : s = 1 := by omega
    subst h1
    exact ⟨[], by simp [coarsenLoop], by simp [specResolutions, hlen]⟩
  | succ fuel ih =>
    intro d s chain hlen hs hf hunb
    rw [coarsenLoop.eq_def]
    by_cases h1 : s = 1
    · subst h1
      exact ⟨[], by simp, by simp [specResolutions, hlen]⟩
    · have hlt := specNextResolution_lt hk (show 2 ≤ s by omega)
      have hpos := specNextResolution_pos (s := s) (show 1 ≤ k by omega)
      have hpl := length_partitionInIndex (s := s) (show 1 ≤ k by omega)
      have hsq : specNextResolution k s * specNextResolution k s ≤ s * s :=
        Nat.mul_le_mul (le_of_lt hlt) (le_of_lt hlt)
      obtain ⟨parents, hp⟩ := @coarsenStep_ok unb k s d hlen
        (by rw [hpl]; omega)
      obtain ⟨-, hplen⟩ := coarsenStep_coarsens hlen hs hp
      rw [hpl] at hplen
      obtain ⟨more, hloop, hshape⟩ := ih parents (specNextResolution k s) (chain ++ [parents])
        hplen hpos (by omega) (by omega)
      refine ⟨parents :: more, ?_, ?_⟩
      · simp only [h1, if_false, hp, Run.ok_bind, hpl, hloop]
        simp
      · simp only [specResolutions, if_neg h1, List.map_cons] at hshape ⊢
        rw [hlen, hshape]

/-! ## Leaves -/

theorem eq_map_range_getD {α : Type} (l : List α) (d : α) :
    l = (List.range l.length).map fun i => l.getD i d := by
  apply List.ext_getElem (by simp)
  intro n h1 h2
  simp [List.getD_eq_getElem?_getD, List.getElem?_eq_getElem h1]

theorem leaves_facts {X : List (List ℚ)} {res : Nat} {L : List DataNode}
    (h : leaves X res = .ok L) :
    L.length = res * res ∧ L.map DataNode.getIndex = List.range L.length ∧
    L.map DataNode.getMeasure = (pairs res).map (fun p => (X.getD p.2 []).getD p.1 0) ∧
    ∀ n ∈ L, n.getChildren = [] ∧
      ∃ a b, a < res ∧ b < res ∧ n.getIndex = a + b * res ∧
        n.getCenter = ((a : ℚ), (b : ℚ)) ∧ n.getMeasure = (X.getD a []).getD b 0 := by
  unfold leaves at h
  have hf := Run.forEach_eq_ok.1 h
  have hl : L.length = res * res := by rw [← hf.length_eq, length_pairs]
  have hnode : ∀ (p : Nat × Nat) (n : DataNode),
      ((Run.at X p.2).bind fun row => (Run.at row p.1).bind fun v =>
        Run.ok (DataNode.leaf v ((p.2 : ℚ), (p.1 : ℚ)) (p.2 + p.1 * res))) = .ok n →
      n.getIndex = p.2 + p.1 * res ∧ n.getMeasure = (X.getD p.2 []).getD p.1 0 ∧
      n.getChildren = [] ∧ n.getCenter = ((p.2 : ℚ), (p.1 : ℚ)) := by
    intro p n hn
    obtain ⟨row, hrow, hn⟩ := Run.bind_eq_ok.1 hn
    obtain ⟨v, hv, hn⟩ := Run.bind_eq_ok.1 hn
    injection hn with hn
    subst hn
    rw [Run.at_eq_ok] at hrow hv
    refine ⟨rfl, ?_, rfl, rfl⟩
    simp [List.getD_eq_getElem?_getD, hrow, hv, DataNode.leaf, DataNode.getMeasure]
  refine ⟨hl, ?_, ?_, ?_⟩
  · rw [forall₂_map hf (fun p n hp => (hnode p n hp).1), pairs_map_index, hl]
  · exact forall₂_map hf (fun p n hp => (hnode p n hp).2.1)
  · intro n hn
    obtain ⟨p, hp, hpn⟩ := forall₂_mem_right hf hn
    obtain ⟨h1, h2, h3, h4⟩ := hnode p n hpn
    obtain ⟨hp1, hp2⟩ := mem_pairs.1 hp
    exact ⟨h3, p.2, p.1, hp2, hp1, h1, h4, h2⟩

theorem leaves_ok {X : List (List ℚ)} {res : Nat} (hX : GridOK res X) :
    ∃ L, leaves X res = .ok L := by
  unfold leaves
  apply Run.forEach_ok_of_forall
  intro p hp
  obtain ⟨hp1, hp2⟩ := mem_pairs.1 hp
  have h2 : p.2 < X.length := by rw [hX.1]; exact hp2
  have hrow : (X.get ⟨p.2, h2⟩).length = res := hX.2 _ (List.get_mem _ _ _)
  have h1 : p.1 < (X.get ⟨p.2, h2⟩).length := by rw [hrow]; exact hp1
  rw [Run.at_of_lt h2, Run.ok_bind, Run.at_of_lt h1, Run.ok_bind]
  exact ⟨_, rfl⟩

theorem sum_pairs_swap (n : Nat) (f : Nat → Nat → ℚ) :
    ((pairs n).map fun p => f p.2 p.1).sum
      = ((List.range n).map fun a => ((List.range n).map fun b => f a b).sum).sum := by
  have h1 : ((pairs n).map fun p => f p.2 p.1)
      = (List.range n).flatMap fun i => (List.range n).flatMap fun j => [f j i] := by
    unfold pairs
    rw [List.map_flatMap]
    apply List.flatMap_congr
    intro i _
    rw [List.map_map]
    induction List.range n with
    | nil => rfl
    | cons j l ih => simp [ih]
  have h2 : ((List.range n).flatMap fun a => (List.range n).flatMap fun b => [f a b]).sum
      = ((List.range n).map fun a => ((List.range n).map fun b => f a b).sum).sum := by
    have h3 : ∀ (l : List Nat) (g : Nat → ℚ), (l.flatMap fun b => [g b]) = l.map g := by
      intro l g
      induction l with
      | nil => rfl
      | cons j l ih => simp [ih]
    have h4 : ∀ (l : List Nat) (g : Nat → List ℚ),
        (l.flatMap g).sum = (l.map fun a => (g a).sum).sum := by
      intro l g
      induction l with
      | nil => rfl
      | cons j l ih => simp [ih]
    rw [h4]
    congr 1
    apply List.map_congr_left
    intro a _
    rw [h3]
  rw [h1, (flatMap_swap _ _ _).sum_eq, h2]

theorem leaves_measure {X : List (List ℚ)} {res : Nat} {L : List DataNode}
    (hX : GridOK res X) (h : leaves X res = .ok L) : levelMeasure L = gridTotal X := by
  unfold levelMeasure gridTotal
  rw [(leaves_facts h).2.2.1, sum_pairs_swap res (fun a b => (X.getD a []).getD b 0)]
  conv_rhs => rw [eq_map_range_getD X [], hX.1]
  rw [List.map_map]
  congr 1
  apply List.map_congr_left
  intro a ha
  rw [List.mem_range] at ha
  have hlen : (X.getD a []).length = res := by
    apply hX.2
    rw [List.getD_eq_getElem?_getD, List.getElem?_eq_getElem (by rw [hX.1]; exact ha)]
    exact List.getElem_mem _
  simp only [Function.comp]
  conv_rhs => rw [eq_map_range_getD (X.getD a []) 0, hlen]

/-! ## Facts carried along a chain of coarsenings -/

theorem Coarsens.levelMeasure_eq {fine coarse : List DataNode} (h : Coarsens fine coarse) :
    levelMeasure coarse = levelMeasure fine := by
  unfold levelMeasure
  rw [← h.perm.map DataNode.getMeasure |>.sum_eq]
  have hsum : ∀ (l : List DataNode), (∀ n ∈ l, TreeInvariant n) →
      (l.map DataNode.getMeasure).sum
        = ((l.flatMap DataNode.getChildren).map DataNode.getMeasure).sum := by
    intro l
    induction l with
    | nil => intro _; rfl
    | cons n l ih =>
      intro hl
      rw [List.map_cons, List.sum_cons, List.flatMap_cons, List.map_append, List.sum_append,
        ih (fun x hx => hl x (List.mem_cons_of_mem _ hx)), (hl n (List.mem_cons_self _ _)).2.1]
  exact hsum coarse h.tree

theorem Coarsens.measure_nonneg {fine coarse : List DataNode} (h : Coarsens fine coarse)
    (hf : ∀ n ∈ fine, 0 ≤ n.getMeasure) : ∀ n ∈ coarse, 0 ≤ n.getMeasure := by
  intro n hn
  rw [(h.tree n hn).2.1]
  apply List.sum_nonneg
  intro v hv
  obtain ⟨c, hc, rfl⟩ := List.mem_map.1 hv
  exact hf c (h.perm.subset (List.mem_flatMap.2 ⟨n, hn, hc⟩))

theorem chain_forall {α : Type} {R : α → α → Prop} {P : α → Prop}
    (hstep : ∀ x y, R x y → P x → P y) :
    ∀ {a : α} {l : List α}, List.Chain R a l → P a → ∀ b ∈ a :: l, P b
  | a, [], _, ha, b, hb => by
    rw [List.mem_singleton] at hb
    exact hb ▸ ha
  | a, c :: l, hc, ha, b, hb => by
    rcases List.mem_cons.1 hb with rfl | hb
    · exact ha
    · cases hc with
      | cons hac hcl => exact chain_forall hstep hcl (hstep _ _ hac ha) b hb

theorem chain_right_of_mem {α : Type} {R : α → α → Prop} :
    ∀ {a : α} {l : List α}, List.Chain R a l → ∀ b ∈ l, ∃ x, R x b
  | _, [], _, b, hb => by cases hb
  | a, c :: l, hc, b, hb => by
    cases hc with
    | cons hac hcl =>
      rcases List.mem_cons.1 hb with rfl | hb
      · exact ⟨a, hac⟩
      · exact chain_right_of_mem hcl b hb

theorem chain'_getElem? {α : Type} {R : α → α → Prop} :
    ∀ {l : List α}, List.Chain' R l → ∀ (i : Nat) (a b : α),
      l[i]? = some a → l[i + 1]? = some b → R a b
  | [], _, i, a, b, ha, _ => by simp at ha
  | [x], _, i, a, b, _, hb => by simp at hb
  | x :: y :: l, hc, i, a, b, ha, hb => by
    rw [List.chain'_cons] at hc
    cases i with
    | zero =>
      simp only [List.getElem?_cons_zero, List.getElem?_cons_succ, Option.some.injEq] at ha hb
      subst ha hb
      exact hc.1
    | succ i =>
      rw [List.getElem?_cons_succ] at ha hb
      exact chain'_getElem? hc.2 i a b ha hb

/-! ## The chain returned by the constructor -/

theorem DecompositionChain_ok {fuel unb : Nat} {X : List (List ℚ)} {res k : Nat}
    {chain : List (List DataNode)} (hres : 1 ≤ res)
    (h : DecompositionChain fuel unb X res k = .ok chain) :
    ∃ L more, leaves X res = .ok L ∧ chain = (L :: more).reverse ∧
      List.Chain Coarsens L more ∧ ((L :: more).getLast?.map List.length) = some 1 := by
  unfold DecompositionChain at h
  obtain ⟨L, hL, h⟩ := Run.bind_eq_ok.1 h
  obtain ⟨result, hloop, h⟩ := Run.bind_eq_ok.1 h
  injection h with h
  subst h
  obtain ⟨more, hres2, hch, hlast⟩ :=
    coarsenLoop_chain fuel L res [L] result (leaves_facts hL).1 hres hloop
  exact ⟨L, more, hL, by rw [hres2]; rfl, hch, hlast⟩

theorem DecompositionChain_invariant {fuel unb : Nat} {X : List (List ℚ)} {res k : Nat}
    {chain : List (List DataNode)} (hres : 1 ≤ res)
    (h : DecompositionChain fuel unb X res k = .ok chain) : ChainInvariant chain := by
  obtain ⟨L, more, hL, rfl, hch, hlast⟩ := DecompositionChain_ok hres h
  refine ⟨?_, ?_, ?_⟩
  · have hc : List.Chain' (flip Coarsens) (L :: more).reverse :=
      List.chain'_reverse.2 (by simpa [flip] using hch)
    intro l coarse fine h1 h2
    exact chain'_getElem? hc l coarse fine h1 h2
  · rw [List.head?_reverse]
    exact hlast
  · intro level hlevel
    rw [List.mem_reverse] at hlevel
    rcases List.mem_cons.1 hlevel with rfl | hm
    · exact (leaves_facts hL).2.1
    · obtain ⟨x, hx⟩ := chain_right_of_mem hch level hm
      exact hx.index

/-! ## The constructor returns -/

theorem DecompositionChain_returns {fuel unb : Nat} {X : List (List ℚ)} {res k : Nat}
    (hres : 1 ≤ res) (hk : 2 ≤ k) (hX : GridOK res X) (hfuel : res ≤ fuel)
    (hunb : res * res ≤ unb) :
    ∃ chain, DecompositionChain fuel unb X res k = .ok chain ∧
      chain.map List.length = ((specResolutions k res res).map fun s => s * s).reverse := by
  obtain ⟨L, hL⟩ := leaves_ok hX
  obtain ⟨more, hloop, hshape⟩ := @coarsenLoop_terminates unb k hk res L res [L]
    (leaves_facts hL).1 hres (by omega) (by omega)
  obtain ⟨n, rfl⟩ := Nat.exists_eq_add_of_le hfuel
  have hloop2 := coarsenLoop_fuel_add unb k res L res [L] (by rw [hloop]; simp) n
  rw [hloop] at hloop2
  refine ⟨([L] ++ more).reverse, ?_, ?_⟩
  · unfold DecompositionChain
    rw [hL, Run.ok_bind, hloop2, Run.ok_bind]
  · rw [← hshape, List.map_reverse]
    rfl

theorem mem_dropLast_getElem? {α : Type} {l : List α} {a : α} (h : a ∈ l.dropLast) :
    ∃ i b, l[i]? = some a ∧ l[i + 1]? = some b := by
  rw [List.dropLast_eq_take] at h
  obtain ⟨i, hi⟩ := List.mem_iff_getElem?.1 h
  have hlt : i < l.length - 1 := by
    by_contra hc
    rw [List.getElem?_take_eq_none (Nat.le_of_not_lt hc)] at hi
    cases hi
  rw [List.getElem?_take_of_lt hlt] at hi
  have hlt2 : i + 1 < l.length := by omega
  exact ⟨i, l.get ⟨i + 1, hlt2⟩, hi, List.getElem?_eq_getElem hlt2⟩

theorem specResolutions_getLast {k : Nat} (hk : 2 ≤ k) :
    ∀ (fuel s : Nat), 1 ≤ s → s ≤ fuel + 1 → (specResolutions k fuel s).getLast? = some 1
  | 0, s, h1, h2 => by
    have : s = 1 := by omega
    subst this
    rfl
  | fuel + 1, s, h1, h2 => by
    rw [specResolutions]
    by_cases hs : s = 1
    · simp [hs]
    · rw [if_neg hs]
      have hlt := specNextResolution_lt hk (show 2 ≤ s by omega)
      have hpos := specNextResolution_pos (s := s) (show 1 ≤ k by omega)
      have ih := specResolutions_getLast hk fuel (specNextResolution k s) hpos (by omega)
      have hne : specResolutions k fuel (specNextResolution k s) ≠ [] := by
        intro hnil
        rw [hnil] at ih
        cases ih
      rw [List.getLast?_cons, ih]
      rfl

/-! ## Properties of the decomposition chain -/

/-- C7: in every chain the constructor returns for `res ≥ 1`, every node of a level
other than the finest has at least one child, has as measure the sum of the measures of
its children and as center the component-wise mean of their centers, while the nodes of
the finest level have no children; and with `k ≥ 2`, enough fuel and a bound of at least
`res*res` the constructor does return a chain. -/
theorem tree_invariant (X : List (List ℚ)) (res k : Nat) (hres : 1 ≤ res) (hk : 2 ≤ k)
    (hX : GridOK res X) :
    (∀ fuel unb, res ≤ fuel → res * res ≤ unb →
      ∃ chain, DecompositionChain fuel unb X res k = .ok chain) ∧
    (∀ fuel unb chain, DecompositionChain fuel unb X res k = .ok chain →
      (∀ level ∈ chain.dropLast, ∀ node ∈ level, TreeInvariant node) ∧
      (∀ level, chain.getLast? = some level → ∀ node ∈ level, node.getChildren = [])) := by
  constructor
  · intro fuel unb hfuel hunb
    obtain ⟨chain, hc, -⟩ := DecompositionChain_returns (k := k) hres hk hX hfuel hunb
    exact ⟨chain, hc⟩
  · intro fuel unb chain hc
    constructor
    · intro level hlevel node hnode
      obtain ⟨i, fine, h1, h2⟩ := mem_dropLast_getElem? hlevel
      exact ((DecompositionChain_invariant hres hc).steps i level fine h1 h2).tree node hnode
    · intro level hlevel node hnode
      obtain ⟨L, more, hL, rfl, -, -⟩ := DecompositionChain_ok hres hc
      rw [List.getLast?_reverse, List.head?_cons] at hlevel
      injection hlevel with hlevel
      subst hlevel
      exact ((leaves_facts hL).2.2.2 node hnode).1

theorem tree_invariant_witness :
    (∀ fuel unb, 2 ≤ fuel → 2 * 2 ≤ unb →
      ∃ chain, DecompositionChain fuel unb exampleX 2 2 = .ok chain) ∧
    (∀ fuel unb chain, DecompositionChain fuel unb exampleX 2 2 = .ok chain →
      (∀ level ∈ chain.dropLast, ∀ node ∈ level, TreeInvariant node) ∧
      (∀ level, chain.getLast? = some level → ∀ node ∈ level, node.getChildren = [])) :=
  tree_invariant exampleX 2 2 (by decide) (by decide) ⟨rfl, by decide⟩

/-- C8: the positions read while grouping a level of scaled resolution `s` are a
rearrangement of `0 .. s*s-1` (all in bounds, none twice); the group sizes are
`⌊s/k⌋ - 1` times `k` followed by `s mod k + k` when `s ≥ 2k` and the single size `s`
otherwise, they add up to `s`, and the groups placed at the offsets `i*k` enumerate
`0 .. s-1` in order; hence in every chain the constructor returns, the children lists of the nodes of a
level, put end to end, are a rearrangement of the next finer level, whose nodes are
pairwise distinct: every finer node is a child of exactly one coarser node, exactly
once.  With `k ≥ 2`, enough fuel and a bound of at least `res*res` the constructor does
return a chain. -/
theorem partition_property (X : List (List ℚ)) (res k : Nat) (hres : 1 ≤ res) (hk : 2 ≤ k)
    (hX : GridOK res X) :
    (∀ s, ((pairs (partitionInIndex s k).length).flatMap fun p =>
        childPositions k s (partitionInIndex s k) p.1 p.2).Perm (List.range (s * s))) ∧
    (∀ s, (partitionInIndex s k).sum = s ∧
      (partitionInIndex s k = if s < 2 * k then [s]
        else List.replicate (s / k - 1) k ++ [s % k + k]) ∧
      ((List.range (partitionInIndex s k).length).flatMap fun i =>
        (List.range ((partitionInIndex s k).getD i 0)).map fun kk => i * k + kk)
        = List.range s) ∧
    (∀ fuel unb, res ≤ fuel → res * res ≤ unb →
      ∃ chain, DecompositionChain fuel unb X res k = .ok chain) ∧
    (∀ fuel unb chain, DecompositionChain fuel unb X res k = .ok chain →
      ∀ l coarse fine, chain[l]? = some coarse → chain[l + 1]? = some fine →
        (coarse.flatMap DataNode.getChildren).Perm fine ∧ fine.Nodup ∧
        (∀ c ∈ coarse, c.getChildren.Nodup) ∧
        coarse.Pairwise (fun a b => List.Disjoint a.getChildren b.getChildren) ∧
        ∀ x ∈ fine, ∃ c ∈ coarse, x ∈ c.getChildren) := by
  refine ⟨fun s => childPositions_perm s k, ?_, ?_, ?_⟩
  · intro s
    refine ⟨?_, ?_, ?_⟩
    · obtain ⟨m, last, hp, hs⟩ := partitionInIndex_eq s k
      rw [hp]
      simp [hs]
    · unfold partitionInIndex
      simp
    · obtain ⟨m, last, hp, hs⟩ := partitionInIndex_eq s k
      have hrows := group_rows m k last
      rw [hs] at hrows
      rw [hp, List.length_append, List.length_replicate, List.length_singleton]
      exact hrows
  · intro fuel unb hfuel hunb
    obtain ⟨chain, hc, -⟩ := DecompositionChain_returns (k := k) hres hk hX hfuel hunb
    exact ⟨chain, hc⟩
  · intro fuel unb chain hc l coarse fine h1 h2
    have hinv := DecompositionChain_invariant hres hc
    have hco := hinv.steps l coarse fine h1 h2
    have hfine : fine.Nodup := by
      apply List.Nodup.of_map DataNode.getIndex
      rw [hinv.index fine (List.getElem?_mem h2)]
      exact List.nodup_range _
    have hflat : (coarse.flatMap DataNode.getChildren).Nodup := hco.perm.symm.nodup hfine
    rw [List.nodup_flatMap] at hflat
    refine ⟨hco.perm, hfine, hflat.1, hflat.2, ?_⟩
    intro x hx
    obtain ⟨c, hc1, hc2⟩ := List.mem_flatMap.1 (hco.perm.symm.subset hx)
    exact ⟨c, hc1, hc2⟩

theorem partition_property_witness :
    ∃ chain, DecompositionChain 2 4 exampleX 2 2 = .ok chain ∧
      ∀ l coarse fine, chain[l]? = some coarse → chain[l + 1]? = some fine →
        (coarse.flatMap DataNode.getChildren).Perm fine := by
  have h := partition_property exampleX 2 2 (by decide) (by decide) ⟨rfl, by decide⟩
  obtain ⟨chain, hc⟩ := h.2.2.1 2 4 (by decide) (by decide)
  exact ⟨chain, hc, fun l coarse fine h1 h2 => (h.2.2.2 2 4 chain hc l coarse fine h1 h2).1⟩

theorem chain_measure_facts {fuel unb : Nat} {X : List (List ℚ)} {res k : Nat}
    {chain : List (List DataNode)} (hres : 1 ≤ res) (hX : GridOK res X)
    (hc : DecompositionChain fuel unb X res k = .ok chain) :
    (∀ level ∈ chain, levelMeasure level = gridTotal X) ∧
    (∃ root, chain.head? = some [root] ∧ root.getMeasure = gridTotal X) ∧
    (∀ Ychain plan, TransportPlan.init chain Ychain = .ok plan →
      plan.transports.map Transport.amount = [gridTotal X]) := by
  obtain ⟨L, more, hL, rfl, hch, hlast⟩ := DecompositionChain_ok hres hc
  have hall : ∀ level ∈ L :: more, levelMeasure level = gridTotal X :=
    chain_forall (P := fun level => levelMeasure level = gridTotal X)
      (fun x y hxy hx => hxy.levelMeasure_eq.trans hx) hch (leaves_measure hX hL)
  have hroot : ∃ root, (L :: more).reverse.head? = some [root] ∧
      root.getMeasure = gridTotal X := by
    rw [List.head?_reverse]
    cases hg : (L :: more).getLast? with
    | none => rw [hg] at hlast; cases hlast
    | some top =>
      rw [hg] at hlast
      simp only [Option.map_some', Option.some.injEq] at hlast
      obtain ⟨root, rfl⟩ := List.length_eq_one.1 hlast
      refine ⟨root, rfl, ?_⟩
      have := hall [root] (List.mem_of_mem_getLast? hg)
      simpa [levelMeasure] using this
  refine ⟨fun level hlevel => hall level (List.mem_reverse.1 hlevel), hroot, ?_⟩
  intro Ychain plan hplan
  obtain ⟨root, hhead, hm⟩ := hroot
  unfold TransportPlan.init at hplan
  obtain ⟨x0, hx0, hplan⟩ := Run.bind_eq_ok.1 hplan
  obtain ⟨rx, hrx, hplan⟩ := Run.bind_eq_ok.1 hplan
  obtain ⟨y0, -, hplan⟩ := Run.bind_eq_ok.1 hplan
  obtain ⟨ry, -, hplan⟩ := Run.bind_eq_ok.1 hplan
  injection hplan with hplan
  subst hplan
  rw [Run.at_eq_ok, ← List.head?_eq_getElem?, hhead] at hx0
  injection hx0 with hx0
  subst hx0
  rw [Run.at_eq_ok] at hrx
  simp only [List.getElem?_cons_zero, Option.some.injEq] at hrx
  subst hrx
  simp [hm]

/-- C9: in every chain the constructor returns for a `res × res` grid, the measures of
the nodes of every level add up to the sum of all grid cells; the first level is a
single root whose measure is that sum, and so is the amount of the single edge of the
initial plan.  With `k ≥ 2`, enough fuel and a bound of at least `res*res` the
constructor does return a chain. -/
theorem chain_mass_conserved (X : List (List ℚ)) (res k : Nat) (hres : 1 ≤ res) (hk : 2 ≤ k)
    (hX : GridOK res X) :
    (∀ fuel unb, res ≤ fuel → res * res ≤ unb →
      ∃ chain, DecompositionChain fuel unb X res k = .ok chain) ∧
    (∀ fuel unb chain, DecompositionChain fuel unb X res k = .ok chain →
      (∀ level ∈ chain, levelMeasure level = gridTotal X) ∧
      (∃ root, chain.head? = some [root] ∧ root.getMeasure = gridTotal X) ∧
      (∀ Ychain plan, TransportPlan.init chain Ychain = .ok plan →
        plan.transports.map Transport.amount = [gridTotal X])) := by
  constructor
  · intro fuel unb hfuel hunb
    obtain ⟨chain, hc, -⟩ := DecompositionChain_returns (k := k) hres hk hX hfuel hunb
    exact ⟨chain, hc⟩
  · intro fuel unb chain hc
    exact chain_measure_facts hres hX hc

theorem chain_mass_conserved_witness :
    ∃ chain, DecompositionChain 2 4 exampleX 2 2 = .ok chain ∧
      ∀ level ∈ chain, levelMeasure level = gridTotal exampleX := by
  have h := chain_mass_conserved exampleX 2 2 (by decide) (by decide) ⟨rfl, by decide⟩
  obtain ⟨chain, hc⟩ := h.1 2 4 (by decide) (by decide)
  exact ⟨chain, hc, (h.2 2 4 chain hc).1⟩

/-- C10: for `res ≥ 1`, `k ≥ 2` and a `res × res` grid the constructor returns (given
at least `res` passes of fuel and a bound of at least `res*res`); the levels of the
chain, from the finest to the root, have `s*s` nodes for the scaled resolutions
`s = res, specNextResolution res, ...`, which end in `1`, so the first level is the root
alone; for `res = 8`, `k = 2` the levels have `1, 4, 16, 64` nodes. -/
theorem chain_shape (X : List (List ℚ)) (res k fuel unb : Nat) (hres : 1 ≤ res)
    (hk : 2 ≤ k) (hX : GridOK res X) (hfuel : res ≤ fuel) (hunb : res * res ≤ unb) :
    ∃ chain, DecompositionChain fuel unb X res k = .ok chain ∧
      chain.map List.length = ((specResolutions k res res).map fun s => s * s).reverse ∧
      (specResolutions k res res).head? = some res ∧
      (specResolutions k res res).getLast? = some 1 ∧
      List.Chain' (fun s t => s ≠ 1 ∧ t = if s < 2 * k then 1 else s / k)
        (specResolutions k res res) ∧
      chain.head?.map List.length = some 1 ∧
      (res = 8 → k = 2 → chain.map List.length = [1, 4, 16, 64]) := by
  obtain ⟨chain, hc, hshape⟩ := DecompositionChain_returns (k := k) hres hk hX hfuel hunb
  refine ⟨chain, hc, hshape, ?_, specResolutions_getLast hk res res hres (by omega), ?_,
    (DecompositionChain_invariant hres hc).root, ?_⟩
  · cases res with
    | zero => omega
    | succ r =>
      rw [specResolutions]
      by_cases h1 : r + 1 = 1
      · simp [h1]
      · simp [h1]
  · have hgen : ∀ (f s : Nat), List.Chain' (fun s t => s ≠ 1 ∧ t = if s < 2 * k then 1 else s / k)
        (specResolutions k f s) ∧ (specResolutions k f s).head? = some s := by
      intro f
      induction f with
      | zero => intro s; simp [specResolutions]
      | succ f ih =>
        intro s
        rw [specResolutions]
        by_cases h1 : s = 1
        · simp [h1]
        · rw [if_neg h1]
          refine ⟨?_, rfl⟩
          rw [List.chain'_cons']
          refine ⟨?_, (ih _).1⟩
          intro y hy
          rw [(ih _).2] at hy
          injection hy with hy
          exact ⟨h1, hy ▸ rfl⟩
    exact (hgen res res).1
  · intro h8 h2
    subst h8 h2
    rw [hshape]
    decide

theorem chain_shape_witness :
    ∃ chain, DecompositionChain 2 4 exampleX 2 2 = .ok chain ∧
      chain.map List.length = ((specResolutions 2 2 2).map fun s => s * s).reverse := by
  obtain ⟨chain, hc, hs, -⟩ := chain_shape exampleX 2 2 2 4 (by decide) (by decide)
    ⟨rfl, by decide⟩ (by decide) (by decide)
  exact ⟨chain, hc, hs⟩

/-! ## Refinement and the driver loop keep the total amount -/

theorem refine_totalAmount {wrapper : LocalSolver} (hw : PreservesMass wrapper)
    {costChain : List (List (List ℚ))} {X Y : List (List DataNode)} {plan newPlan : TransportPlan}
    (h : refine wrapper costChain X Y plan = .ok newPlan) :
    totalAmount newPlan.transports = totalAmount plan.transports := by
  unfold refine at h
  obtain ⟨xs, -, h⟩ := Run.bind_eq_ok.1 h
  obtain ⟨ys, -, h⟩ := Run.bind_eq_ok.1 h
  obtain ⟨cost, -, h⟩ := Run.bind_eq_ok.1 h
  simp only at h
  obtain ⟨written, hwr, h⟩ := Run.bind_eq_ok.1 h
  obtain ⟨hlen, hsum⟩ := hw cost (xs.map DataNode.getMeasure) (ys.map DataNode.getMeasure)
    (interactOf plan.transports)
  have hl : (interactOf plan.transports).length = plan.transports.length := by
    simp [interactOf]
  rw [if_pos (by rw [hlen, hl])] at h
  injection h with h
  subst h
  have hamt : written.map Transport.amount
      = (wrapper cost (xs.map DataNode.getMeasure) (ys.map DataNode.getMeasure)
          (interactOf plan.transports)).map fun e => e.2.2 := by
    apply forall₂_map (Run.forEach_eq_ok.1 hwr)
    intro e t he
    obtain ⟨x, -, he⟩ := Run.bind_eq_ok.1 he
    obtain ⟨y, -, he⟩ := Run.bind_eq_ok.1 he
    injection he with he
    subst he
    rfl
  have hdrop : plan.transports.drop (wrapper cost (xs.map DataNode.getMeasure)
      (ys.map DataNode.getMeasure) (interactOf plan.transports)).length = [] := by
    rw [hlen, hl]
    exact List.drop_length _
  simp only [hdrop, List.append_nil, totalAmount, hamt, hsum]
  simp [interactOf, List.map_map, Function.comp_def]

theorem coreLoop_totalAmount {wrapper : LocalSolver} (hw : PreservesMass wrapper) {fuel : Nat}
    {costChain : List (List (List ℚ))} {X Y : List (List DataNode)} :
    ∀ (n : Nat) {plan last : TransportPlan},
      coreLoop fuel wrapper costChain X Y n plan = .ok last →
      totalAmount last.transports = totalAmount plan.transports
  | 0, plan, last, h => by
    simp only [coreLoop] at h
    injection h with h
    rw [h]
  | n + 1, plan, last, h => by
    rw [coreLoop] at h
    obtain ⟨p1, h1, h⟩ := Run.bind_eq_ok.1 h
    obtain ⟨p2, h2, h⟩ := Run.bind_eq_ok.1 h
    rw [coreLoop_totalAmount hw n h, refine_totalAmount hw h2, propagate_totalAmount h1]

theorem identitySolver_preservesMass : PreservesMass identitySolver :=
  fun _ _ _ _ => ⟨rfl, rfl⟩

/-! ## Measures and indices of the levels of a returned chain -/

theorem chain_measure_nonneg {fuel unb : Nat} {X : List (List ℚ)} {res k : Nat}
    {chain : List (List DataNode)} (hres : 1 ≤ res) (hX : GridNonneg X)
    (hc : DecompositionChain fuel unb X res k = .ok chain) :
    ∀ level ∈ chain, ∀ n ∈ level, 0 ≤ n.getMeasure := by
  obtain ⟨L, more, hL, rfl, hch, -⟩ := DecompositionChain_ok hres hc
  have hleaf : ∀ n ∈ L, 0 ≤ n.getMeasure := by
    intro n hn
    obtain ⟨-, a, b, -, -, -, -, hm⟩ := (leaves_facts hL).2.2.2 n hn
    rw [hm, List.getD_eq_getElem?_getD, List.getD_eq_getElem?_getD]
    cases hrow : X[a]? with
    | none => simp
    | some row =>
      simp only [Option.getD_some]
      cases hv : row[b]? with
      | none => simp
      | some v => exact hX row (List.getElem?_mem hrow) v (List.getElem?_mem hv)
  intro level hlevel
  exact chain_forall (P := fun level => ∀ n ∈ level, 0 ≤ n.getMeasure)
    (fun x y hxy hx => hxy.measure_nonneg hx) hch hleaf level (List.mem_reverse.1 hlevel)

theorem index_of_getElem? {level : List DataNode}
    (h : level.map DataNode.getIndex = List.range level.length) {p : Nat} {x : DataNode}
    (hx : level[p]? = some x) : x.getIndex = p := by
  have h1 : (level.map DataNode.getIndex)[p]? = some x.getIndex := by
    rw [List.getElem?_map, hx]
    rfl
  have hp : p < level.length := by
    by_contra hc
    rw [List.getElem?_eq_none (Nat.le_of_not_lt hc)] at hx
    cases hx
  rw [h, List.getElem?_range hp] at h1
  injection h1 with h1
  exact h1.symm

theorem propagate_levels {fuel : Nat} {costChain : List (List (List ℚ))}
    {X Y : List (List DataNode)} {plan newPlan : TransportPlan}
    (h : propagate fuel costChain X Y plan = .ok newPlan) :
    ∃ xFine yFine, Run.at X (plan.level + 1) = .ok xFine ∧
      Run.at Y (plan.level + 1) = .ok yFine := by
  unfold propagate at h
  obtain ⟨xF, hx, h⟩ := Run.bind_eq_ok.1 h
  obtain ⟨yF, hy, h⟩ := Run.bind_eq_ok.1 h
  exact ⟨xF, yF, hx, hy⟩

/-! ## Mass conservation of propagation -/

/-- C2: whenever `propagate` returns, the edges of the new plan fall into one group per
coarse edge, in order, and the amounts of each group add up to exactly the amount of
its coarse edge, so the new plan has the total amount of the old one; hence, for a
chain built from a `res × res` grid, the initial plan and every plan the driver loop
reaches (with a local solver that keeps the number of entries and the total amount),
as well as its propagation, carry the sum of the grid cells. -/
theorem propagate_mass_conserved (X : List (List ℚ)) (res k : Nat) (wrapper : LocalSolver)
    (hres : 1 ≤ res) (hX : GridOK res X) (hw : PreservesMass wrapper) :
    (∀ fuel costChain Xc Yc plan newPlan,
      propagate fuel costChain Xc Yc plan = .ok newPlan →
        (∃ groups : List (List Transport), newPlan.transports = groups.flatten ∧
          List.Forall₂ (fun t g => totalAmount g = t.amount) plan.transports groups) ∧
        totalAmount newPlan.transports = totalAmount plan.transports) ∧
    (∀ fuel unb Xc, DecompositionChain fuel unb X res k = .ok Xc →
      ∀ Yc costChain plan0, TransportPlan.init Xc Yc = .ok plan0 →
        totalAmount plan0.transports = gridTotal X ∧
        ∀ fuel' n last, coreLoop fuel' wrapper costChain Xc Yc n plan0 = .ok last →
          totalAmount last.transports = gridTotal X ∧
          ∀ next, propagate fuel' costChain Xc Yc last = .ok next →
            totalAmount next.transports = gridTotal X) := by
  constructor
  · intro fuel costChain Xc Yc plan newPlan h
    obtain ⟨groups, hg, hall⟩ := propagate_groups h
    exact ⟨⟨groups, hg, hall.imp fun _ _ hx => hx.1⟩, propagate_totalAmount h⟩
  · intro fuel unb Xc hc Yc costChain plan0 h0
    have h1 : totalAmount plan0.transports = gridTotal X := by
      have := (chain_measure_facts hres hX hc).2.2 Yc plan0 h0
      simp [totalAmount, this]
    refine ⟨h1, ?_⟩
    intro fuel' n last hl
    have h2 : totalAmount last.transports = gridTotal X := by
      rw [coreLoop_totalAmount hw n hl, h1]
    exact ⟨h2, fun next hn => by rw [propagate_totalAmount hn, h2]⟩

theorem propagate_mass_conserved_witness :
    ∃ (Xc Yc : List (List DataNode)) (cc : List (List (List ℚ))) (plan0 last : TransportPlan),
      DecompositionChain 4 4 exampleX 2 2 = .ok Xc ∧
      TransportPlan.init Xc Yc = .ok plan0 ∧
      coreLoop 4 identitySolver cc Xc Yc (Xc.length - 1) plan0 = .ok last ∧
      totalAmount plan0.transports = gridTotal exampleX ∧
      totalAmount last.transports = gridTotal exampleX := by
  have hrun := core_example_run 4 (by decide)
  unfold core at hrun
  obtain ⟨Xc, hXc, hrun⟩ := Run.bind_eq_ok.1 hrun
  obtain ⟨Yc, -, hrun⟩ := Run.bind_eq_ok.1 hrun
  obtain ⟨cc, -, hrun⟩ := Run.bind_eq_ok.1 hrun
  obtain ⟨plan0, h0, hrun⟩ := Run.bind_eq_ok.1 hrun
  obtain ⟨last, hl, -⟩ := Run.bind_eq_ok.1 hrun
  have h := (propagate_mass_conserved exampleX 2 2 identitySolver (by decide) ⟨rfl, by decide⟩
    identitySolver_preservesMass).2 4 4 Xc hXc Yc cc plan0 h0
  exact ⟨Xc, Yc, cc, plan0, last, hXc, h0, hl, h.1, (h.2 4 _ last hl).1⟩

/-! ## Refinement conservation -/

/-- C3: for chains built from non-negative grids, whenever `propagate` returns a new
plan, every node `x` of the next finer source level has at most `measure(x) + EPS`
leaving it in the new plan, and every node `y` of the next finer sink level has at most
`measure(y) + EPS` entering it (edges are attributed to the node of their level that
carries the index of their endpoint). -/
theorem refinement_conservation (X Y : List (List ℚ)) (res k : Nat) (hres : 1 ≤ res)
    (hX : GridNonneg X) (hY : GridNonneg Y) :
    ∀ fuelX unbX fuelY unbY Xc Yc,
      DecompositionChain fuelX unbX X res k = .ok Xc →
      DecompositionChain fuelY unbY Y res k = .ok Yc →
      ∀ fuel costChain plan newPlan, propagate fuel costChain Xc Yc plan = .ok newPlan →
        (∀ xFine, Xc[plan.level + 1]? = some xFine → ∀ x ∈ xFine,
          outgoing newPlan.transports x.getIndex ≤ x.getMeasure + EPS) ∧
        (∀ yFine, Yc[plan.level + 1]? = some yFine → ∀ y ∈ yFine,
          incoming newPlan.transports y.getIndex ≤ y.getMeasure + EPS) := by
  intro fuelX unbX fuelY unbY Xc Yc hXc hYc fuel costChain plan newPlan h
  obtain ⟨xF, yF, hxF, hyF⟩ := propagate_levels h
  have hmx := chain_measure_nonneg hres hX hXc xF (Run.at_mem hxF)
  have hmy := chain_measure_nonneg hres hY hYc yF (Run.at_mem hyF)
  obtain ⟨hout, hin⟩ := propagate_flow_le hxF hyF hmx hmy h
  have hix := (DecompositionChain_invariant hres hXc).index xF (Run.at_mem hxF)
  have hiy := (DecompositionChain_invariant hres hYc).index yF (Run.at_mem hyF)
  rw [Run.at_eq_ok] at hxF hyF
  constructor
  · intro xFine hx x hmem
    rw [hxF] at hx
    injection hx with hx
    subst hx
    obtain ⟨p, hp⟩ := List.mem_iff_getElem?.1 hmem
    rw [index_of_getElem? hix hp]
    exact hout p x hp
  · intro yFine hy y hmem
    rw [hyF] at hy
    injection hy with hy
    subst hy
    obtain ⟨p, hp⟩ := List.mem_iff_getElem?.1 hmem
    rw [index_of_getElem? hiy hp]
    exact hin p y hp

/-! ## Flows may be negative, but not below `-EPS` -/

theorem init_ok {X Y : List (List DataNode)} {plan : TransportPlan}
    (h : TransportPlan.init X Y = .ok plan) :
    ∃ rx ry xs ys, X[0]? = some (rx :: xs) ∧ Y[0]? = some (ry :: ys) ∧
      plan = ⟨0, [⟨rx, ry, rx.getMeasure⟩]⟩ := by
  unfold TransportPlan.init at h
  obtain ⟨x0, hx0, h⟩ := Run.bind_eq_ok.1 h
  obtain ⟨rx, hrx, h⟩ := Run.bind_eq_ok.1 h
  obtain ⟨y0, hy0, h⟩ := Run.bind_eq_ok.1 h
  obtain ⟨ry, hry, h⟩ := Run.bind_eq_ok.1 h
  injection h with h
  rw [Run.at_eq_ok] at hx0 hrx hy0 hry
  cases x0 with
  | nil => simp at hrx
  | cons a xs =>
    cases y0 with
    | nil => simp at hry
    | cons b ys =>
      simp only [List.getElem?_cons_zero, Option.some.injEq] at hrx hry
      subst hrx hry
      exact ⟨a, b, xs, ys, hx0, hy0, h.symm⟩

theorem overshoot_setup :
    ∃ (Xc Yc : List (List DataNode)) (cc : List (List (List ℚ))) (rx ry : DataNode)
      (newPlan : TransportPlan),
      DecompositionChain 2 4 overshootX 2 2 = .ok Xc ∧
      DecompositionChain 2 4 overshootY 2 2 = .ok Yc ∧
      decomposeCost exampleCost Xc Yc = .ok cc ∧
      Xc[0]? = some [rx] ∧ Yc[0]? = some [ry] ∧
      rx.getMeasure = 2 ∧ ry.getMeasure = 2 ∧
      propagate 4 cc Xc Yc ⟨0, [⟨rx, ry, 1 + EPS / 2⟩, ⟨rx, ry, 1 - EPS / 2⟩]⟩ = .ok newPlan ∧
      interactOf newPlan.transports
        = [(0, 0, 1 + EPS / 2), (0, 0, -(EPS / 2)), (0, 1, 0), (0, 2, 1)] := by
  have hrun : overshootRun
      = .ok [(0, 0, 1 + EPS / 2), (0, 0, -(EPS / 2)), (0, 1, 0), (0, 2, 1)] := by decide!
  unfold overshootRun at hrun
  obtain ⟨Xc, hXc, hrun⟩ := Run.bind_eq_ok.1 hrun
  obtain ⟨Yc, hYc, hrun⟩ := Run.bind_eq_ok.1 hrun
  obtain ⟨cc, hcc, hrun⟩ := Run.bind_eq_ok.1 hrun
  obtain ⟨p0, hp0, hrun⟩ := Run.bind_eq_ok.1 hrun
  obtain ⟨np, hnp, hfin⟩ := Run.bind_eq_ok.1 hrun
  have hout : interactOf np.transports
      = [(0, 0, 1 + EPS / 2), (0, 0, -(EPS / 2)), (0, 1, 0), (0, 2, 1)] := by
    injection hfin
  obtain ⟨rx, ry, xs, ys, hx0, hy0, rfl⟩ := init_ok hp0
  have hgX : GridOK 2 overshootX := ⟨rfl, by decide⟩
  have hgY : GridOK 2 overshootY := ⟨rfl, by decide⟩
  obtain ⟨rootX, hhX, hmX⟩ := (chain_measure_facts (by decide) hgX hXc).2.1
  obtain ⟨rootY, hhY, hmY⟩ := (chain_measure_facts (by decide) hgY hYc).2.1
  rw [List.head?_eq_getElem?, hx0] at hhX
  rw [List.head?_eq_getElem?, hy0] at hhY
  injection hhX with hhX
  injection hhY with hhY
  injection hhX with h1 h2
  injection hhY with h3 h4
  subst h1 h2 h3 h4
  refine ⟨Xc, Yc, cc, rx, ry, np, hXc, hYc, hcc, hx0, hy0, ?_, ?_, ?_, hout⟩
  · rw [hmX]
    decide!
  · rw [hmY]
    decide!
  · simpa using hnp

/-- C6 (as amended): for chains with non-negative node measures and a plan with
non-negative amounts that satisfies the per-level invariant, every edge of the plan
`propagate` returns has an amount of at least `-EPS`. -/
theorem flows_above_minus_eps (fuel : Nat) (costChain : List (List (List ℚ)))
    (X Y : List (List DataNode)) (plan newPlan : TransportPlan)
    (hmX : ∀ level ∈ X, ∀ n ∈ level, 0 ≤ n.getMeasure)
    (hmY : ∀ level ∈ Y, ∀ n ∈ level, 0 ≤ n.getMeasure)
    (hpos : ∀ t ∈ plan.transports, 0 ≤ t.amount)
    (hinv : PlanInvariant X Y plan)
    (h : propagate fuel costChain X Y plan = .ok newPlan) :
    ∀ e ∈ newPlan.transports, -EPS ≤ e.amount := by
  obtain ⟨xF, yF, -, hyF⟩ := propagate_levels h
  exact propagate_lower hyF (hmY yF (Run.at_mem hyF)) hpos h

theorem flow_pair (key : Transport → Nat) (t₁ t₂ : Transport) {i : Nat}
    (h₁ : key t₁ = i) (h₂ : key t₂ = i) : flow key [t₁, t₂] i = t₁.amount + t₂.amount := by
  have h := flow_append_singleton key ([] ++ [t₁]) t₂ i
  have h' := flow_append_singleton key [] t₁ i
  have h0 : flow key [] i = 0 := rfl
  rw [if_pos h₁, h0, zero_add] at h'
  rw [h', if_pos h₂] at h
  exact h

theorem overshoot_hypotheses :
    ∃ (Xc Yc : List (List DataNode)) (cc : List (List (List ℚ))) (plan newPlan : TransportPlan),
      (∀ level ∈ Xc, ∀ n ∈ level, 0 ≤ n.getMeasure) ∧
      (∀ level ∈ Yc, ∀ n ∈ level, 0 ≤ n.getMeasure) ∧
      (∀ t ∈ plan.transports, 0 ≤ t.amount) ∧
      PlanInvariant Xc Yc plan ∧
      propagate 4 cc Xc Yc plan = .ok newPlan ∧
      interactOf newPlan.transports
        = [(0, 0, 1 + EPS / 2), (0, 0, -(EPS / 2)), (0, 1, 0), (0, 2, 1)] := by
  obtain ⟨Xc, Yc, cc, rx, ry, np, hXc, hYc, -, hx0, hy0, hmx, hmy, hnp, hout⟩ := overshoot_setup
  refine ⟨Xc, Yc, cc, ⟨0, [⟨rx, ry, 1 + EPS / 2⟩, ⟨rx, ry, 1 - EPS / 2⟩]⟩, np,
    chain_measure_nonneg (by decide) (by unfold GridNonneg overshootX; decide!) hXc,
    chain_measure_nonneg (by decide) (by unfold GridNonneg overshootY; decide!) hYc,
    ?_, ?_, hnp, hout⟩
  · intro t ht
    simp only [List.mem_cons, List.mem_singleton, List.not_mem_nil, or_false] at ht
    rcases ht with rfl | rfl
    · show (0 : ℚ) ≤ 1 + EPS / 2
      linarith [EPS_pos]
    · show (0 : ℚ) ≤ 1 - EPS / 2
      have : EPS ≤ 1 := by decide!
      linarith
  · refine ⟨[rx], [ry], hx0, hy0, ?_, ?_, ?_⟩
    · intro t ht
      simp only [List.mem_cons, List.mem_singleton, List.not_mem_nil, or_false] at ht
      rcases ht with rfl | rfl <;> simp
    · intro x hx
      rw [List.mem_singleton] at hx
      subst hx
      rw [hmx]
      have hf := flow_pair (fun t : Transport => t.x.getIndex) ⟨x, ry, 1 + EPS / 2⟩
        ⟨x, ry, 1 - EPS / 2⟩ rfl rfl
      unfold outgoing
      rw [hf]
      show (1 + EPS / 2) + (1 - EPS / 2) ≤ (2 : ℚ)
      linarith
    · intro y hy
      rw [List.mem_singleton] at hy
      subst hy
      rw [hmy]
      have hf := flow_pair (fun t : Transport => t.y.getIndex) ⟨rx, y, 1 + EPS / 2⟩
        ⟨rx, y, 1 - EPS / 2⟩ rfl rfl
      unfold incoming
      rw [hf]
      show (1 + EPS / 2) + (1 - EPS / 2) ≤ (2 : ℚ)
      linarith

theorem flows_above_minus_eps_witness :
    ∃ (Xc Yc : List (List DataNode)) (cc : List (List (List ℚ))) (plan newPlan : TransportPlan),
      propagate 4 cc Xc Yc plan = .ok newPlan ∧ ∀ e ∈ newPlan.transports, -EPS ≤ e.amount := by
  obtain ⟨Xc, Yc, cc, plan, np, h1, h2, h3, h4, h5, -⟩ := overshoot_hypotheses
  exact ⟨Xc, Yc, cc, plan, np, h5, flows_above_minus_eps 4 cc Xc Yc plan np h1 h2 h3 h4 h5⟩

/-- C6 (as stated) fails: there are chains with non-negative node measures and a plan
with non-negative amounts that satisfies the per-level invariant, for which `propagate`
returns a plan containing an edge of negative amount. -/
theorem negative_flow_example :
    ∃ (Xc Yc : List (List DataNode)) (cc : List (List (List ℚ))) (plan newPlan : TransportPlan),
      (∀ level ∈ Xc, ∀ n ∈ level, 0 ≤ n.getMeasure) ∧
      (∀ level ∈ Yc, ∀ n ∈ level, 0 ≤ n.getMeasure) ∧
      (∀ t ∈ plan.transports, 0 ≤ t.amount) ∧
      PlanInvariant Xc Yc plan ∧
      propagate 4 cc Xc Yc plan = .ok newPlan ∧
      ∃ e ∈ newPlan.transports, e.amount < 0 := by
  obtain ⟨Xc, Yc, cc, plan, np, h1, h2, h3, h4, h5, h6⟩ := overshoot_hypotheses
  refine ⟨Xc, Yc, cc, plan, np, h1, h2, h3, h4, h5, ?_⟩
  have hmem : (0, 0, -(EPS / 2)) ∈ interactOf np.transports := by
    rw [h6]
    simp
  obtain ⟨e, he, heq⟩ := List.mem_map.1 hmem
  refine ⟨e, he, ?_⟩
  have : e.amount = -(EPS / 2) := congrArg (fun t => t.2.2) heq
  rw [this]
  linarith [EPS_pos]

/-! ## The exhaustion exception -/

/-- C4 fails on the code: on the non-negative 2×2 grids `balancedX`, `balancedY` of
equal total mass `4` (and likewise on two grids without mass) both chains and the cost
hierarchy are built, and `propagate` on the level-0 root-to-root plan raises the
exception. -/
theorem exhaustion_on_balanced_grids :
    GridOK 2 balancedX ∧ GridOK 2 balancedY ∧ GridNonneg balancedX ∧ GridNonneg balancedY ∧
    gridTotal balancedX = 4 ∧ gridTotal balancedY = 4 ∧
    (DecompositionChain 10 4 balancedX 2 2).bind (fun c => .ok (c.map List.length))
      = .ok [1, 4] ∧
    (DecompositionChain 10 4 balancedY 2 2).bind (fun c => .ok (c.map List.length))
      = .ok [1, 4] ∧
    firstPropagate 10 4 balancedX balancedY exampleCost 2 = .exception ∧
    core 10 4 identitySolver balancedX balancedY exampleCost 2 = .exception ∧
    firstPropagate 10 4 zeroGrid zeroGrid exampleCost 2 = .exception := by
  refine ⟨⟨rfl, by decide⟩, ⟨rfl, by decide⟩, ?_, ?_, ?_, ?_, ?_, ?_, ?_, ?_, ?_⟩
  · unfold GridNonneg balancedX
    decide!
  · unfold GridNonneg balancedY
    decide!
  all_goals decide!

theorem skipExhausted_exception {tmpX : List ℚ} :
    ∀ {it : List DataNode}, 0 < it.length →
      (∀ c ∈ it, c.getIndex < tmpX.length ∧ tmpX.getD c.getIndex 0 < EPS) →
      skipExhausted tmpX it = .exception
  | [], h, _ => by simp at h
  | c :: rest, _, h => by
    obtain ⟨hlt, hm⟩ := h c (List.mem_cons_self _ _)
    rw [skipExhausted.eq_def]
    simp only
    rw [Run.at_of_lt hlt, Run.ok_bind]
    have hget : tmpX.get ⟨c.getIndex, hlt⟩ = tmpX.getD c.getIndex 0 := by
      rw [List.getD_eq_getElem?_getD, List.getElem?_eq_getElem hlt]
      rfl
    rw [hget, if_pos hm]
    cases rest with
    | nil => rfl
    | cons c2 rest2 =>
      simp only
      exact skipExhausted_exception (by simp) (fun x hx => h x (List.mem_cons_of_mem _ hx))

theorem disaggregate_exhausted {yChildren : List DataNode} {w : Work} (h : Exhausted w)
    (fuel : Nat) : disaggregate yChildren (fuel + 1) w = .exception := by
  rw [disaggregate]
  unfold disaggregateStep
  rw [skipExhausted_exception h.1 h.2]
  rfl

theorem disaggregate_passes {yChildren : List DataNode} {w w' : Work}
    (hp : Passes yChildren w w') (hex : Exhausted w') :
    ∃ fuel0, ∀ fuel, fuel0 ≤ fuel → disaggregate yChildren fuel w = .exception := by
  induction hp with
  | refl w =>
    refine ⟨1, fun fuel hf => ?_⟩
    obtain ⟨n, rfl⟩ := Nat.exists_eq_add_of_le hf
    rw [Nat.add_comm]
    exact disaggregate_exhausted hex n
  | step hstep _ ih =>
    obtain ⟨f1, hf1⟩ := ih hex
    refine ⟨f1 + 1, fun fuel hf => ?_⟩
    obtain ⟨n, rfl⟩ := Nat.exists_eq_add_of_le hf
    have : f1 + 1 + n = (f1 + n) + 1 := by omega
    rw [this, disaggregate, hstep, Run.ok_bind]
    simp only [Bool.false_eq_true, if_false]
    exact hf1 _ (by omega)

theorem propagateLoop_append (fuel : Nat) :
    ∀ (a b : List Transport) (w : Work),
      propagateLoop fuel (a ++ b) w = (propagateLoop fuel a w).bind (propagateLoop fuel b)
  | [], b, w => rfl
  | t :: a, b, w => by
    rw [List.cons_append, propagateLoop, propagateLoop]
    cases h : disaggregate t.y.getChildren fuel
        { w with tmpAmount := t.amount, xIter := t.x.getChildren } with
    | ok w1 => simp only [Run.ok_bind]; exact propagateLoop_append fuel a b w1
    | exception => rfl
    | undefined => rfl
    | timeout => rfl

theorem propagateLoop_fuel_add (fuel : Nat) (ts : List Transport) (w : Work)
    (h : propagateLoop fuel ts w ≠ .timeout) :
    ∀ n, propagateLoop (fuel + n) ts w = propagateLoop fuel ts w
  | 0 => rfl
  | n + 1 => by
    have ih := propagateLoop_fuel_add fuel ts w h n
    rw [← Nat.add_assoc, propagateLoop_fuel _ _ _ (by rw [ih]; exact h), ih]

/-- C5: if, while the coarse edge `t` of a plan is dispensed (after the edges `pre`
before it, and after some passes of the loop), every child of its source from the scan
position on has a residual working measure below `EPS`, then `propagate` raises the
exception for every sufficient fuel and returns a plan for no fuel at all. -/
theorem exhaustion_guard (costChain : List (List (List ℚ))) (X Y : List (List DataNode))
    (plan : TransportPlan) (xFine yFine : List DataNode) (cost : List (List ℚ))
    (pre post : List Transport) (t : Transport) (fuel0 : Nat) (w0 w : Work)
    (hX : Run.at X (plan.level + 1) = .ok xFine)
    (hY : Run.at Y (plan.level + 1) = .ok yFine)
    (hC : Run.at costChain (plan.level + 1) = .ok cost)
    (hsplit : plan.transports = pre ++ t :: post)
    (hpre : propagateLoop fuel0 pre (initialWork xFine yFine cost) = .ok w0)
    (hreach : Passes t.y.getChildren
      { w0 with tmpAmount := t.amount, xIter := t.x.getChildren } w)
    (hex : Exhausted w) :
    (∃ fuel1, ∀ fuel, fuel1 ≤ fuel → propagate fuel costChain X Y plan = .exception) ∧
    (∀ fuel newPlan, propagate fuel costChain X Y plan ≠ .ok newPlan) := by
  obtain ⟨f1, hf1⟩ := disaggregate_passes hreach hex
  have hraise : ∀ fuel, fuel0 + f1 ≤ fuel →
      propagate fuel costChain X Y plan = .exception := by
    intro fuel hf
    obtain ⟨n, hn⟩ := Nat.exists_eq_add_of_le (show fuel0 ≤ fuel by omega)
    unfold propagate
    rw [hX, hY, hC]
    simp only [Run.ok_bind]
    rw [hsplit, propagateLoop_append, hn,
      propagateLoop_fuel_add fuel0 pre _ (by rw [hpre]; simp) n, hpre, Run.ok_bind,
      propagateLoop, hf1 _ (by omega)]
    rfl
  refine ⟨⟨fuel0 + f1, hraise⟩, ?_⟩
  intro fuel newPlan hok
  have h1 := propagate_fuel_add fuel costChain X Y plan (by rw [hok]; simp) (fuel0 + f1)
  rw [hraise _ (by omega), hok] at h1
  cases h1

theorem exhaustion_guard_witness :
    (DecompositionChain 2 4 zeroGrid 2 2).bind
        (fun c => .ok (c.map fun l => l.map fun n => (n.getIndex, n.getMeasure)))
      = .ok (zeroChain.map fun l => l.map fun n => (n.getIndex, n.getMeasure)) ∧
    (∃ fuel1, ∀ fuel, fuel1 ≤ fuel →
      propagate fuel [[[0]], exampleCost] zeroChain zeroChain ⟨0, [⟨zeroRoot, zeroRoot, 0⟩]⟩
        = .exception) ∧
    (∀ fuel newPlan,
      propagate fuel [[[0]], exampleCost] zeroChain zeroChain ⟨0, [⟨zeroRoot, zeroRoot, 0⟩]⟩
        ≠ .ok newPlan) :=
  ⟨by decide!,
   exhaustion_guard [[[0]], exampleCost] zeroChain zeroChain ⟨0, [⟨zeroRoot, zeroRoot, 0⟩]⟩
    zeroLeaves zeroLeaves exampleCost [] [] ⟨zeroRoot, zeroRoot, 0⟩ 0
    (initialWork zeroLeaves zeroLeaves exampleCost) _ rfl rfl rfl rfl rfl (Passes.refl _)
    (by unfold Exhausted; decide!)⟩

theorem refinement_conservation_witness :
    ∃ (Xc Yc : List (List DataNode)) (cc : List (List (List ℚ))) (plan newPlan : TransportPlan),
      DecompositionChain 2 4 overshootX 2 2 = .ok Xc ∧
      DecompositionChain 2 4 overshootY 2 2 = .ok Yc ∧
      propagate 4 cc Xc Yc plan = .ok newPlan ∧
      (∀ xFine, Xc[plan.level + 1]? = some xFine → ∀ x ∈ xFine,
        outgoing newPlan.transports x.getIndex ≤ x.getMeasure + EPS) ∧
      (∀ yFine, Yc[plan.level + 1]? = some yFine → ∀ y ∈ yFine,
        incoming newPlan.transports y.getIndex ≤ y.getMeasure + EPS) := by
  obtain ⟨Xc, Yc, cc, rx, ry, np, hXc, hYc, -, -, -, -, -, hnp, -⟩ := overshoot_setup
  exact ⟨Xc, Yc, cc, _, np, hXc, hYc, hnp,
    refinement_conservation overshootX overshootY 2 2 (by decide)
      (by unfold GridNonneg overshootX; decide!) (by unfold GridNonneg overshootY; decide!)
      2 4 2 4 Xc Yc hXc hYc 4 cc _ np hnp⟩

/-! ## Sizes and index bounds along the coarsening loop -/

theorem parentNode_index_le {unb k s : Nat} {dataNodes : List DataNode} {part : List Nat}
    {i j : Nat} {node : DataNode}
    (h : parentNode unb k s dataNodes part i j = .ok node) : node.getIndex ≤ unb := by
  rw [(parentNode_ok h).2.2.1]
  unfold parentNode at h
  obtain ⟨children, -, h⟩ := Run.bind_eq_ok.1 h
  unfold DataNode.internal at h
  simp only at h
  by_cases hu : j + i * part.length > unb
  · rw [if_pos hu] at h
    cases h
  · omega

theorem coarsenStep_coarsenedBy {unb k s : Nat} {dataNodes parents : List DataNode}
    (hlen : dataNodes.length = s * s) (hs : 1 ≤ s) (hs1 : s ≠ 1)
    (h : coarsenStep unb k s dataNodes = .ok parents) :
    CoarsenedBy unb k dataNodes parents := by
  refine ⟨⟨s, hs, hs1, hlen, (coarsenStep_coarsens hlen hs h).2⟩, ?_⟩
  intro node hnode
  unfold coarsenStep at h
  obtain ⟨p, -, hpn⟩ := forall₂_mem_right (Run.forEach_eq_ok.1 h) hnode
  exact parentNode_index_le hpn

theorem length_partitionInIndex_pos (s k : Nat) : 1 ≤ (partitionInIndex s k).length := by
  obtain ⟨m, last, hpe, -⟩ := partitionInIndex_eq s k
  simp [hpe]

theorem coarsenLoop_coarsenedBy {unb k : Nat} :
    ∀ (fuel : Nat) (d : List DataNode) (s : Nat) (chain result : List (List DataNode)),
      d.length = s * s → 1 ≤ s →
      coarsenLoop unb k fuel d s chain = .ok result →
      ∃ more, result = chain ++ more ∧ List.Chain (CoarsenedBy unb k) d more := by
  intro fuel
  induction fuel with
  | zero =>
    intro d s chain result hlen hs h
    unfold coarsenLoop at h
    by_cases h1 : s = 1
    · rw [if_pos h1] at h
      injection h with h
      exact ⟨[], by simp [h], List.Chain.nil⟩
    · simp [h1] at h
  | succ fuel ih =>
    intro d s chain result hlen hs h
    rw [coarsenLoop.eq_def] at h
    simp only at h
    by_cases h1 : s = 1
    · rw [if_pos h1] at h
      injection h with h
      exact ⟨[], by simp [h], List.Chain.nil⟩
    · simp only [h1, if_false] at h
      obtain ⟨parents, hp, h⟩ := Run.bind_eq_ok.1 h
      have hco := coarsenStep_coarsenedBy hlen hs h1 hp
      obtain ⟨more, hres, hch⟩ := ih parents _ _ result (coarsenStep_coarsens hlen hs hp).2
        (length_partitionInIndex_pos s k) h
      exact ⟨parents :: more, by simp [hres], List.Chain.cons hco hch⟩

theorem DecompositionChain_coarsenedBy {fuel unb : Nat} {X : List (List ℚ)} {res k : Nat}
    {chain : List (List DataNode)} (hres : 1 ≤ res)
    (h : DecompositionChain fuel unb X res k = .ok chain) :
    ∀ l coarse fine, chain[l]? = some coarse → chain[l + 1]? = some fine →
      CoarsenedBy unb k fine coarse := by
  unfold DecompositionChain at h
  obtain ⟨L, hL, h⟩ := Run.bind_eq_ok.1 h
  obtain ⟨result, hloop, h⟩ := Run.bind_eq_ok.1 h
  injection h with h
  subst h
  obtain ⟨more, hres2, hch⟩ :=
    coarsenLoop_coarsenedBy fuel L res [L] result (leaves_facts hL).1 hres hloop
  subst hres2
  have hc : List.Chain' (flip (CoarsenedBy unb k)) ([L] ++ more).reverse :=
    List.chain'_reverse.2 (by simpa [flip] using hch)
  intro l coarse fine h1 h2
  exact chain'_getElem? hc l coarse fine h1 h2

/-! ## Leaf layout -/

theorem leaf_layout_facts {fuel unb : Nat} {X : List (List ℚ)} {res k : Nat}
    {chain : List (List DataNode)} (hres : 1 ≤ res)
    (h : DecompositionChain fuel unb X res k = .ok chain) :
    ∃ L, chain.getLast? = some L ∧ L.length = res * res ∧
      (∀ n ∈ L, n.getChildren = []) ∧
      ∀ a b row v, X[a]? = some row → row[b]? = some v → a < res → b < res →
        ∃ n, L[a + b * res]? = some n ∧ n.getMeasure = v ∧
          n.getCenter = ((a : ℚ), (b : ℚ)) ∧ n.getIndex = a + b * res := by
  obtain ⟨L, more, hL, rfl, -, -⟩ := DecompositionChain_ok hres h
  obtain ⟨hlen, hidx, -, hall⟩ := leaves_facts hL
  refine ⟨L, by simp, hlen, fun n hn => (hall n hn).1, ?_⟩
  intro a b row v hrow hv ha hb
  have hp : a + b * res < L.length := by
    rw [hlen]
    calc a + b * res < res + b * res := by omega
      _ = (b + 1) * res := by ring
      _ ≤ res * res := Nat.mul_le_mul_right _ hb
  refine ⟨L.get ⟨a + b * res, hp⟩, List.getElem?_eq_getElem hp, ?_⟩
  have hn : L.get ⟨a + b * res, hp⟩ ∈ L := List.get_mem _ _ _
  obtain ⟨-, a', b', ha', hb', hi, hc, hm⟩ := hall _ hn
  have hpos := index_of_getElem? hidx (List.getElem?_eq_getElem hp)
  have hi2 : a' + b' * res = a + b * res := by rw [← hi]; exact hpos
  have hb2 : b' = b := by
    have h1 : (a' + b' * res) / res = b' := by
      rw [Nat.add_mul_div_right _ _ (by omega), Nat.div_eq_of_lt ha', Nat.zero_add]
    have h2 : (a + b * res) / res = b := by
      rw [Nat.add_mul_div_right _ _ (by omega), Nat.div_eq_of_lt ha, Nat.zero_add]
    rw [← h1, ← h2, hi2]
  subst hb2
  have ha2 : a' = a := by omega
  subst ha2
  refine ⟨?_, hc, hpos⟩
  have hr : X.getD a' [] = row := by
    rw [List.getD_eq_getElem?_getD, hrow, Option.getD_some]
  rw [hm, hr, List.getD_eq_getElem?_getD, hv, Option.getD_some]

theorem length_partitionInIndex_le {s k : Nat} (hs : 1 ≤ s) (hk : 1 ≤ k) :
    (partitionInIndex s k).length ≤ s := by
  obtain ⟨m, last, hpe, hsum⟩ := partitionInIndex_eq s k
  have hlast : 1 ≤ last := partitionInIndex_mem_pos (k := k) hs last (by rw [hpe]; simp)
  have hm : m ≤ m * k := Nat.le_mul_of_pos_right m hk
  rw [hpe, List.length_append, List.length_replicate, List.length_singleton]
  omega

theorem DecompositionChain_chain {fuel unb : Nat} {X : List (List ℚ)} {res k : Nat}
    {chain : List (List DataNode)} (hres : 1 ≤ res)
    (h : DecompositionChain fuel unb X res k = .ok chain) :
    ∃ L more, leaves X res = .ok L ∧ chain = (L :: more).reverse ∧
      List.Chain (CoarsenedBy unb k) L more := by
  unfold DecompositionChain at h
  obtain ⟨L, hL, h⟩ := Run.bind_eq_ok.1 h
  obtain ⟨result, hloop, h⟩ := Run.bind_eq_ok.1 h
  injection h with h
  subst h
  obtain ⟨more, hres2, hch⟩ :=
    coarsenLoop_coarsenedBy fuel L res [L] result (leaves_facts hL).1 hres hloop
  exact ⟨L, more, hL, by rw [hres2]; rfl, hch⟩

theorem DecompositionChain_length_le {fuel unb : Nat} {X : List (List ℚ)} {res k : Nat}
    {chain : List (List DataNode)} (hres : 1 ≤ res) (hk : 1 ≤ k)
    (h : DecompositionChain fuel unb X res k = .ok chain) :
    ∀ level ∈ chain, level.length ≤ res * res := by
  obtain ⟨L, more, hL, rfl, hch⟩ := DecompositionChain_chain hres h
  intro level hlevel
  refine chain_forall (P := fun level => level.length ≤ res * res) ?_ hch
    (le_of_eq (leaves_facts hL).1) level (List.mem_reverse.1 hlevel)
  intro fine coarse hco hfine
  obtain ⟨s, hs, -, hf, hc⟩ := hco.size
  have hn := length_partitionInIndex_le (s := s) hs hk
  show coarse.length ≤ res * res
  rw [hc]
  calc (partitionInIndex s k).length * (partitionInIndex s k).length
      ≤ s * s := Nat.mul_le_mul hn hn
    _ = fine.length := hf.symm
    _ ≤ res * res := hfine

theorem Run.forEach_exception {α β : Type} {f : α → Run β} :
    ∀ {l : List α}, Run.forEach f l = .exception → ∃ a ∈ l, f a = .exception
  | [], h => by simp [Run.forEach] at h
  | a :: as, h => by
    rw [Run.forEach] at h
    cases hfa : f a with
    | ok b =>
      rw [hfa, Run.ok_bind] at h
      cases hr : Run.forEach f as with
      | ok bs => rw [hr] at h; cases h
      | exception =>
        obtain ⟨x, hx, hfx⟩ := Run.forEach_exception hr
        exact ⟨x, List.mem_cons_of_mem _ hx, hfx⟩
      | undefined => rw [hr] at h; cases h
      | timeout => rw [hr] at h; cases h
    | exception => exact ⟨a, List.mem_cons_self _ _, hfa⟩
    | undefined => rw [hfa] at h; cases h
    | timeout => rw [hfa] at h; cases h

theorem leaves_ne_exception (X : List (List ℚ)) (res : Nat) : leaves X res ≠ .exception := by
  intro h
  unfold leaves at h
  obtain ⟨p, -, hp⟩ := Run.forEach_exception h
  unfold Run.at at hp
  cases h1 : X[p.2]? with
  | none => rw [h1] at hp; cases hp
  | some row =>
    rw [h1] at hp
    simp only [Run.ok_bind] at hp
    cases h2 : row[p.1]? with
    | none => rw [h2] at hp; cases hp
    | some v => rw [h2] at hp; cases hp

theorem coarsenLoop_ne_exception {unb k : Nat} (hk : 1 ≤ k) :
    ∀ (fuel : Nat) (d : List DataNode) (s : Nat) (chain : List (List DataNode)),
      d.length = s * s → 1 ≤ s → s * s ≤ unb + 1 →
      coarsenLoop unb k fuel d s chain ≠ .exception := by
  intro fuel
  induction fuel with
  | zero =>
    intro d s chain _ _ _ h
    unfold coarsenLoop at h
    by_cases h1 : s = 1
    · simp [h1] at h
    · simp [h1] at h
  | succ fuel ih =>
    intro d s chain hlen hs hunb h
    rw [coarsenLoop.eq_def] at h
    simp only at h
    by_cases h1 : s = 1
    · simp [h1] at h
    · simp only [h1, if_false] at h
      have hn := length_partitionInIndex_le (s := s) hs hk
      have hsq : (partitionInIndex s k).length * (partitionInIndex s k).length ≤ s * s :=
        Nat.mul_le_mul hn hn
      obtain ⟨parents, hp⟩ := @coarsenStep_ok unb k s d hlen (by omega)
      rw [hp, Run.ok_bind] at h
      exact ih parents _ _ (coarsenStep_coarsens hlen hs hp).2
        (length_partitionInIndex_pos s k) (by omega) h

theorem DecompositionChain_ne_exception {unb : Nat} (X : List (List ℚ)) {res k : Nat}
    (fuel : Nat) (hres : 1 ≤ res) (hk : 1 ≤ k) (hunb : res * res ≤ unb + 1) :
    DecompositionChain fuel unb X res k ≠ .exception := by
  intro h
  unfold DecompositionChain at h
  cases hL : leaves X res with
  | ok L =>
    rw [hL, Run.ok_bind] at h
    cases hl : coarsenLoop unb k fuel L res [L] with
    | ok c => rw [hl] at h; cases h
    | exception =>
      exact coarsenLoop_ne_exception hk fuel L res [L] (leaves_facts hL).1 hres hunb hl
    | undefined => rw [hl] at h; cases h
    | timeout => rw [hl] at h; cases h
  | exception => exact leaves_ne_exception X res hL
  | undefined => rw [hL] at h; cases h
  | timeout => rw [hL] at h; cases h

/-! ## Leaf layout, index checks and index positions -/

/-- C11 (as amended): for `res ≥ 1` and a `res × res` grid, the finest level of every
chain the constructor returns has exactly `res*res` nodes, none of which has children,
and the leaf built for the cell `(a, b)` of value `X[a][b]` stands at position
`a + b*res` of that level, with measure `X[a][b]`, center `(a, b)` and index
`a + b*res` (the cells are visited column-first); with `k ≥ 2`, enough fuel and a bound
of at least `res*res` the constructor does return a chain. -/
theorem leaf_layout (X : List (List ℚ)) (res : Nat) (hres : 1 ≤ res) (hX : GridOK res X) :
    (∀ k fuel unb, 2 ≤ k → res ≤ fuel → res * res ≤ unb →
      ∃ chain, DecompositionChain fuel unb X res k = .ok chain) ∧
    (∀ k fuel unb chain, DecompositionChain fuel unb X res k = .ok chain →
      ∃ L, chain.getLast? = some L ∧ L.length = res * res ∧
        (∀ n ∈ L, n.getChildren = []) ∧
        ∀ a b row v, X[a]? = some row → row[b]? = some v →
          ∃ n, L[a + b * res]? = some n ∧ n.getMeasure = v ∧
            n.getCenter = ((a : ℚ), (b : ℚ)) ∧ n.getIndex = a + b * res) := by
  constructor
  · intro k fuel unb hk hfuel hunb
    obtain ⟨chain, hc, -⟩ := DecompositionChain_returns (k := k) hres hk hX hfuel hunb
    exact ⟨chain, hc⟩
  · intro k fuel unb chain hc
    obtain ⟨L, hlast, hlen, hleaf, hcell⟩ := leaf_layout_facts hres hc
    refine ⟨L, hlast, hlen, hleaf, ?_⟩
    intro a b row v hrow hv
    have ha : a < res := by
      rw [← hX.1]
      by_contra hcon
      rw [List.getElem?_eq_none (Nat.le_of_not_lt hcon)] at hrow
      cases hrow
    have hb : b < res := by
      rw [← hX.2 row (List.getElem?_mem hrow)]
      by_contra hcon
      rw [List.getElem?_eq_none (Nat.le_of_not_lt hcon)] at hv
      cases hv
    exact hcell a b row v hrow hv ha hb

theorem leaf_layout_witness :
    ∃ chain L, DecompositionChain 2 4 layoutX 2 2 = .ok chain ∧ chain.getLast? = some L ∧
      L.length = 2 * 2 ∧
      ∃ n, L[0 + 1 * 2]? = some n ∧ n.getMeasure = 2 ∧ n.getCenter = (((0 : ℕ) : ℚ), ((1 : ℕ) : ℚ)) ∧
        n.getIndex = 0 + 1 * 2 := by
  have h := leaf_layout layoutX 2 (by decide) ⟨rfl, by decide⟩
  obtain ⟨chain, hc⟩ := h.1 2 2 4 (by decide) (by decide) (by decide)
  obtain ⟨L, hlast, hlen, -, hcell⟩ := h.2 2 2 4 chain hc
  exact ⟨chain, L, hc, hlast, hlen, hcell 0 1 [1, 2] 2 rfl rfl⟩

/-- C11 (as stated) fails: in the chain built for the grid `[[1,2],[3,4]]` the leaf of
the cell `(0, 1)`, of measure `X[0][1] = 2` and center `(0, 1)`, has index `2`, not the
row-major position `0*2 + 1`. -/
theorem leaf_index_not_row_major :
    ∃ chain L n, DecompositionChain 2 4 layoutX 2 2 = .ok chain ∧
      chain.getLast? = some L ∧ n ∈ L ∧ n.getMeasure = 2 ∧
      n.getCenter = (((0 : ℕ) : ℚ), ((1 : ℕ) : ℚ)) ∧ n.getIndex ≠ 0 * 2 + 1 := by
  obtain ⟨chain, hc, -⟩ := @DecompositionChain_returns 2 4 layoutX 2 2 (by decide) (by decide) ⟨rfl, by decide⟩ (by decide) (by decide)
  obtain ⟨L, hlast, -, -, hcell⟩ := leaf_layout_facts (by decide) hc
  obtain ⟨n, hn, hm, hcen, hidx⟩ := hcell 0 1 [1, 2] 2 rfl rfl (by decide) (by decide)
  exact ⟨chain, L, n, hc, hlast, List.getElem?_mem hn, hm, hcen, by rw [hidx]; decide⟩

/-- C14 fails on the code: with the bound `2` the constructor returns a chain for a 2×2
grid although the leaves carry the indices `0, 1, 2, 3`, the last of which exceeds the
bound; only the nodes of the other levels are checked: in every returned chain their
indices are at most the bound. -/
theorem leaf_index_unchecked :
    (DecompositionChain 2 2 exampleX 2 2).bind
        (fun c => .ok (c.map fun l => l.map DataNode.getIndex)) = .ok [[0], [0, 1, 2, 3]] ∧
    2 < 3 ∧
    (∀ fuel unb X res k chain, 1 ≤ res → DecompositionChain fuel unb X res k = .ok chain →
      ∀ level ∈ chain.dropLast, ∀ node ∈ level, node.getIndex ≤ unb) := by
  refine ⟨by decide!, by decide, ?_⟩
  intro fuel unb X res k chain hres hc level hlevel node hnode
  obtain ⟨i, fine, h1, h2⟩ := mem_dropLast_getElem? hlevel
  exact (DecompositionChain_coarsenedBy hres hc i level fine h1 h2).bound node hnode

/-- C18: in every chain the constructor returns for `res ≥ 1`, the node at position `p`
of a level has index `p`; so in each level the indices are pairwise different, run over
`0 .. size-1`, and looking a node up by its index finds that node.  With `k ≥ 2`, enough
fuel and a bound of at least `res*res` the constructor does return a chain. -/
theorem index_equals_position (X : List (List ℚ)) (res k : Nat) (hres : 1 ≤ res)
    (hk : 2 ≤ k) (hX : GridOK res X) :
    (∀ fuel unb, res ≤ fuel → res * res ≤ unb →
      ∃ chain, DecompositionChain fuel unb X res k = .ok chain) ∧
    (∀ fuel unb chain, DecompositionChain fuel unb X res k = .ok chain →
      ∀ level ∈ chain,
        (∀ (p : Nat) (node : DataNode), level[p]? = some node → node.getIndex = p) ∧
        level.map DataNode.getIndex = List.range level.length ∧
        (level.map DataNode.getIndex).Nodup ∧
        ∀ node ∈ level, node.getIndex < level.length ∧
          level[node.getIndex]? = some node) := by
  constructor
  · intro fuel unb hfuel hunb
    obtain ⟨chain, hc, -⟩ := DecompositionChain_returns (k := k) hres hk hX hfuel hunb
    exact ⟨chain, hc⟩
  · intro fuel unb chain hc level hlevel
    have hidx := (DecompositionChain_invariant hres hc).index level hlevel
    refine ⟨fun p node hp => index_of_getElem? hidx hp, hidx, ?_, ?_⟩
    · rw [hidx]
      exact List.nodup_range _
    · intro node hnode
      obtain ⟨p, hp⟩ := List.mem_iff_getElem?.1 hnode
      have hi := index_of_getElem? hidx hp
      rw [hi]
      refine ⟨?_, hp⟩
      by_contra hcon
      rw [List.getElem?_eq_none (Nat.le_of_not_lt hcon)] at hp
      cases hp

theorem index_equals_position_witness :
    ∃ chain, DecompositionChain 2 4 exampleX 2 2 = .ok chain ∧
      ∀ level ∈ chain, ∀ (p : Nat) (node : DataNode), level[p]? = some node →
        node.getIndex = p := by
  have h := index_equals_position exampleX 2 2 (by decide) (by decide) ⟨rfl, by decide⟩
  obtain ⟨chain, hc⟩ := h.1 2 4 (by decide) (by decide)
  exact ⟨chain, hc, fun level hl => (h.2 2 4 chain hc level hl).1⟩

/-- C19: with the bound `res*res` the constructor never raises the exception, whatever
the grid and the fuel, and returns a chain for a `res × res` grid and fuel `≥ res`; in
a returned chain a level built from a level of scaled resolution `s` has `n*n` nodes,
`n = 1` for `s < 2k` and `n = ⌊s/k⌋` otherwise, with indices at most `n*n - 1`, and
`n*n ≤ res*res`. -/
theorem index_check_unreachable (X : List (List ℚ)) (res k fuel : Nat) (hres : 1 ≤ res)
    (hk : 2 ≤ k) :
    DecompositionChain fuel (res * res) X res k ≠ .exception ∧
    (GridOK res X → res ≤ fuel →
      ∃ chain, DecompositionChain fuel (res * res) X res k = .ok chain) ∧
    (∀ chain, DecompositionChain fuel (res * res) X res k = .ok chain →
      ∀ l coarse fine, chain[l]? = some coarse → chain[l + 1]? = some fine →
        ∃ s n, 2 ≤ s ∧ fine.length = s * s ∧ n = (if s < 2 * k then 1 else s / k) ∧
          coarse.length = n * n ∧ n * n ≤ res * res ∧
          ∀ node ∈ coarse, node.getIndex ≤ n * n - 1 ∧ node.getIndex < res * res) := by
  refine ⟨DecompositionChain_ne_exception X fuel hres (by omega) (by omega), ?_, ?_⟩
  · intro hX hfuel
    obtain ⟨chain, hc, -⟩ := @DecompositionChain_returns fuel (res * res) X res k hres hk hX
      hfuel (le_refl _)
    exact ⟨chain, hc⟩
  · intro chain hc l coarse fine h1 h2
    obtain ⟨s, hs, hs1, hf, hcl⟩ := (DecompositionChain_coarsenedBy hres hc l coarse fine h1 h2).size
    have hidx := (DecompositionChain_invariant hres hc).index coarse (List.getElem?_mem h1)
    have hle := DecompositionChain_length_le hres (show 1 ≤ k by omega) hc coarse
      (List.getElem?_mem h1)
    rw [length_partitionInIndex (s := s) (show 1 ≤ k by omega)] at hcl
    refine ⟨s, specNextResolution k s, by omega, hf, rfl, hcl, by rw [← hcl]; exact hle, ?_⟩
    intro node hnode
    obtain ⟨p, hp⟩ := List.mem_iff_getElem?.1 hnode
    have hi := index_of_getElem? hidx hp
    have hlt : p < coarse.length := by
      by_contra hcon
      rw [List.getElem?_eq_none (Nat.le_of_not_lt hcon)] at hp
      cases hp
    rw [hi]
    rw [hcl] at hlt hle
    omega

theorem index_check_unreachable_witness :
    DecompositionChain 2 (2 * 2) exampleX 2 2 ≠ .exception ∧
    ∃ chain, DecompositionChain 2 (2 * 2) exampleX 2 2 = .ok chain := by
  have h := index_check_unreachable exampleX 2 2 2 (by decide) (by decide)
  exact ⟨h.1, h.2.1 ⟨rfl, by decide⟩ (by decide)⟩

/-! ## The tie-break of `search` -/

theorem searchLoop_scan {tmpCost : List (List Cost)} {xIndex : Nat} {row : List Cost}
    (hrow : tmpCost[xIndex]? = some row) :
    ∀ (ys done : List DataNode) (minimum : Cost) (saved : DataNode),
      (∀ y ∈ ys, y.getIndex < row.length) → ScanState row done minimum saved →
      ∃ best minimum', searchLoop tmpCost xIndex ys minimum saved = .ok best ∧
        ScanState row (done ++ ys) minimum' best
  | [], done, minimum, saved, _, hst => by
    refine ⟨saved, minimum, rfl, ?_⟩
    rw [List.append_nil]
    exact hst
  | y :: ys, done, minimum, saved, hin, hst => by
    have hy : y.getIndex < row.length := hin y (List.mem_cons_self _ _)
    have hv : row[y.getIndex]? = some (row.get ⟨y.getIndex, hy⟩) := List.getElem?_eq_getElem hy
    generalize row.get ⟨y.getIndex, hy⟩ = v at hv
    rw [searchLoop, Run.at_eq_ok.2 hrow, Run.ok_bind, Run.at_eq_ok.2 hv, Run.ok_bind]
    have hin2 : ∀ y' ∈ ys, y'.getIndex < row.length :=
      fun y' hy' => hin y' (List.mem_cons_of_mem _ hy')
    have happ : done ++ y :: ys = (done ++ [y]) ++ ys := by simp
    rw [happ]
    by_cases hlt : Cost.lt v minimum = true
    · rw [if_pos hlt]
      apply searchLoop_scan hrow ys (done ++ [y]) v y hin2
      cases v with
      | none => simp [Cost.lt] at hlt
      | some r =>
        refine Or.inr ⟨done, [], r, rfl, rfl, hv, ?_, ?_⟩
        · intro y' hy' r' hr'
          rcases hst with ⟨-, hnone⟩ | ⟨pre, post, q, hd, hm, hs, hpre, hpost⟩
          · rw [hnone y' hy'] at hr'
            cases hr'
          · subst hm
            have hrq : r < q := by simpa [Cost.lt] using hlt
            rw [hd, List.mem_append, List.mem_cons] at hy'
            rcases hy' with h1 | rfl | h1
            · exact lt_trans hrq (hpre y' h1 r' hr')
            · rw [hs] at hr'
              injection hr' with hr'
              injection hr' with hr'
              rw [← hr']
              exact hrq
            · exact lt_of_lt_of_le hrq (hpost y' h1 r' hr')
        · intro y' hy'
          cases hy'
    · rw [if_neg hlt]
      apply searchLoop_scan hrow ys (done ++ [y]) minimum saved hin2
      rcases hst with ⟨hm, hnone⟩ | ⟨pre, post, q, hd, hm, hs, hpre, hpost⟩
      · refine Or.inl ⟨hm, ?_⟩
        intro y' hy'
        rw [List.mem_append, List.mem_singleton] at hy'
        rcases hy' with h1 | rfl
        · exact hnone y' h1
        · subst hm
          cases v with
          | none => exact hv
          | some r => simp [Cost.lt] at hlt
      · refine Or.inr ⟨pre, post ++ [y], q, by rw [hd]; simp, hm, hs, hpre, ?_⟩
        intro y' hy' r' hr'
        rw [List.mem_append, List.mem_singleton] at hy'
        rcases hy' with h1 | rfl
        · exact hpost y' h1 r' hr'
        · rw [hv] at hr'
          injection hr' with hr'
          subst hr' hm
          have : ¬ r' < q := by simpa [Cost.lt] using hlt
          exact le_of_not_lt this

theorem search_first_minimum_facts {tmpCost : List (List Cost)} {xIndex : Nat} {row : List Cost}
    {ys : List DataNode} (hrow : tmpCost[xIndex]? = some row)
    (hin : ∀ y ∈ ys, y.getIndex < row.length)
    (hfin : ∃ y ∈ ys, ∃ q, row[y.getIndex]? = some (some q)) :
    ∃ pre best post q, ys = pre ++ best :: post ∧ search tmpCost xIndex ys = .ok best ∧
      row[best.getIndex]? = some (some q) ∧
      (∀ y ∈ pre, ∀ r, row[y.getIndex]? = some (some r) → q < r) ∧
      (∀ y ∈ post, ∀ r, row[y.getIndex]? = some (some r) → q ≤ r) := by
  cases ys with
  | nil =>
    obtain ⟨y, hy, -⟩ := hfin
    cases hy
  | cons y0 ys =>
    obtain ⟨best, minimum', hs, hst⟩ := searchLoop_scan hrow (y0 :: ys) [] none y0 hin
      (Or.inl ⟨rfl, fun y hy => by cases hy⟩)
    rw [List.nil_append] at hst
    rcases hst with ⟨-, hnone⟩ | ⟨pre, post, q, hd, -, hb, hpre, hpost⟩
    · obtain ⟨y, hy, q, hq⟩ := hfin
      rw [hnone y hy] at hq
      cases hq
    · exact ⟨pre, best, post, q, hd, hs, hb, hpre, hpost⟩

/-- C13: for a working cost matrix `tmpCost` with row `tmpCost[xf.index]`, and a list `ys` of sink
children whose indices lie in that row and of which at least one has a finite cost,
`search` returns the first element of `ys` whose cost is the least one: the elements
before it have a strictly greater cost, those after it a cost at least as great (`+∞`
counting as greater than every number). -/
theorem search_first_minimum (tmpCost : List (List Cost)) (xf : DataNode) (row : List Cost)
    (ys : List DataNode) (hrow : tmpCost[xf.getIndex]? = some row)
    (hin : ∀ y ∈ ys, y.getIndex < row.length)
    (hfin : ∃ y ∈ ys, ∃ q, row[y.getIndex]? = some (some q)) :
    ∃ pre best post q, ys = pre ++ best :: post ∧ search tmpCost xf.getIndex ys = .ok best ∧
      row[best.getIndex]? = some (some q) ∧
      (∀ y ∈ pre, ∀ r, row[y.getIndex]? = some (some r) → q < r) ∧
      (∀ y ∈ post, ∀ r, row[y.getIndex]? = some (some r) → q ≤ r) :=
  search_first_minimum_facts hrow hin hfin

theorem search_first_minimum_witness :
    ∃ pre best post q, zeroLeaves = pre ++ best :: post ∧
      search [[some 1, some 0, none, some 0]] zeroRoot.getIndex zeroLeaves = .ok best ∧
      [some (1 : ℚ), some 0, none, some 0][best.getIndex]? = some (some q) ∧
      (∀ y ∈ pre, ∀ r, [some (1 : ℚ), some 0, none, some 0][y.getIndex]? = some (some r) →
        q < r) ∧
      (∀ y ∈ post, ∀ r, [some (1 : ℚ), some 0, none, some 0][y.getIndex]? = some (some r) →
        q ≤ r) :=
  search_first_minimum [[some 1, some 0, none, some 0]] zeroRoot
    [some 1, some 0, none, some 0] zeroLeaves rfl (by decide)
    ⟨DataNode.leaf 0 (0, 0) 0, by simp [zeroLeaves], 1, rfl⟩

/-! ## The edges of a plan stay within its level -/

theorem propagate_children {fuel : Nat} {costChain : List (List (List ℚ))}
    {X Y : List (List DataNode)} {plan newPlan : TransportPlan}
    (h : propagate fuel costChain X Y plan = .ok newPlan) :
    ∀ e ∈ newPlan.transports, ∃ t ∈ plan.transports,
      e.x ∈ t.x.getChildren ∧ e.y ∈ t.y.getChildren := by
  obtain ⟨groups, hg, hall⟩ := propagate_groups h
  intro e he
  rw [hg, List.mem_flatten] at he
  obtain ⟨g, hgm, heg⟩ := he
  obtain ⟨t, ht, -, hmem⟩ := forall₂_mem_right hall hgm
  exact ⟨t, ht, hmem e heg⟩

theorem propagate_level {fuel : Nat} {costChain : List (List (List ℚ))}
    {X Y : List (List DataNode)} {plan newPlan : TransportPlan}
    (h : propagate fuel costChain X Y plan = .ok newPlan) :
    newPlan.level = plan.level + 1 := by
  unfold propagate at h
  obtain ⟨xF, -, h⟩ := Run.bind_eq_ok.1 h
  obtain ⟨yF, -, h⟩ := Run.bind_eq_ok.1 h
  obtain ⟨c, -, h⟩ := Run.bind_eq_ok.1 h
  obtain ⟨w, -, h⟩ := Run.bind_eq_ok.1 h
  injection h with h
  rw [← h]

theorem propagate_planAt {fuel : Nat} {costChain : List (List (List ℚ))}
    {X Y : List (List DataNode)} {plan newPlan : TransportPlan}
    (hX : ChainInvariant X) (hY : ChainInvariant Y) (hp : PlanAt X Y plan)
    (h : propagate fuel costChain X Y plan = .ok newPlan) : PlanAt X Y newPlan := by
  obtain ⟨xs, ys, hxs, hys, hmem⟩ := hp
  obtain ⟨xF, yF, hxF, hyF⟩ := propagate_levels h
  rw [Run.at_eq_ok] at hxF hyF
  refine ⟨xF, yF, by rw [propagate_level h]; exact hxF, by rw [propagate_level h]; exact hyF, ?_⟩
  intro e he
  obtain ⟨t, ht, hex, hey⟩ := propagate_children h e he
  constructor
  · exact (hX.steps _ xs xF hxs hxF).perm.subset (List.mem_flatMap.2 ⟨t.x, (hmem t ht).1, hex⟩)
  · exact (hY.steps _ ys yF hys hyF).perm.subset (List.mem_flatMap.2 ⟨t.y, (hmem t ht).2, hey⟩)

theorem refine_planAt {wrapper : LocalSolver} {costChain : List (List (List ℚ))}
    {X Y : List (List DataNode)} {plan newPlan : TransportPlan} (hp : PlanAt X Y plan)
    (h : refine wrapper costChain X Y plan = .ok newPlan) :
    PlanAt X Y newPlan ∧ newPlan.level = plan.level := by
  obtain ⟨xs, ys, hxs, hys, hmem⟩ := hp
  unfold refine at h
  rw [Run.at_eq_ok.2 hxs, Run.ok_bind, Run.at_eq_ok.2 hys, Run.ok_bind] at h
  obtain ⟨cost, -, h⟩ := Run.bind_eq_ok.1 h
  simp only at h
  obtain ⟨written, hwr, h⟩ := Run.bind_eq_ok.1 h
  by_cases hlen : (wrapper cost (xs.map DataNode.getMeasure) (ys.map DataNode.getMeasure)
      (interactOf plan.transports)).length ≤ plan.transports.length
  · rw [if_pos hlen] at h
    injection h with h
    subst h
    refine ⟨⟨xs, ys, hxs, hys, ?_⟩, rfl⟩
    intro t ht
    simp only [List.mem_append] at ht
    rcases ht with ht | ht
    · obtain ⟨e, -, he⟩ := forall₂_mem_right (Run.forEach_eq_ok.1 hwr) ht
      obtain ⟨x, hx, he⟩ := Run.bind_eq_ok.1 he
      obtain ⟨y, hy, he⟩ := Run.bind_eq_ok.1 he
      injection he with he
      subst he
      exact ⟨Run.at_mem hx, Run.at_mem hy⟩
    · exact hmem t (List.mem_of_mem_drop ht)
  · rw [if_neg hlen] at h
    cases h

theorem coreLoop_planAt {fuel : Nat} {wrapper : LocalSolver}
    {costChain : List (List (List ℚ))} {X Y : List (List DataNode)}
    (hX : ChainInvariant X) (hY : ChainInvariant Y) :
    ∀ (n : Nat) {plan last : TransportPlan}, PlanAt X Y plan →
      coreLoop fuel wrapper costChain X Y n plan = .ok last →
      PlanAt X Y last ∧ last.level = plan.level + n
  | 0, plan, last, hp, h => by
    simp only [coreLoop] at h
    injection h with h
    subst h
    exact ⟨hp, rfl⟩
  | n + 1, plan, last, hp, h => by
    rw [coreLoop] at h
    obtain ⟨p1, h1, h⟩ := Run.bind_eq_ok.1 h
    obtain ⟨p2, h2, h⟩ := Run.bind_eq_ok.1 h
    have hp1 := propagate_planAt hX hY hp h1
    obtain ⟨hp2, hl2⟩ := refine_planAt hp1 h2
    obtain ⟨hl, hlev⟩ := coreLoop_planAt hX hY n hp2 h
    refine ⟨hl, ?_⟩
    rw [hlev, hl2, propagate_level h1]
    omega

theorem init_planAt {X Y : List (List DataNode)} {plan : TransportPlan}
    (h : TransportPlan.init X Y = .ok plan) : PlanAt X Y plan ∧ plan.level = 0 := by
  obtain ⟨rx, ry, xs, ys, hx, hy, rfl⟩ := init_ok h
  refine ⟨⟨rx :: xs, ry :: ys, hx, hy, ?_⟩, rfl⟩
  intro t ht
  simp only [List.mem_singleton] at ht
  subst ht
  exact ⟨List.mem_cons_self _ _, List.mem_cons_self _ _⟩

theorem decomposeCost_ok_length {cost : List (List ℚ)} {X Y : List (List DataNode)}
    {cc : List (List (List ℚ))} (h : decomposeCost cost X Y = .ok cc) : X.length ≠ 0 := by
  unfold decomposeCost at h
  intro h0
  rw [if_pos h0] at h
  cases h

theorem chain_sizes_unique {u u' k : Nat} :
    ∀ {more more' : List (List DataNode)} {L L' : List DataNode},
      List.Chain (CoarsenedBy u k) L more → List.Chain (CoarsenedBy u' k) L' more' →
      L.length = L'.length →
      (L :: more).getLast?.map List.length = some 1 →
      (L' :: more').getLast?.map List.length = some 1 →
      (L :: more).map List.length = (L' :: more').map List.length
  | [], [], L, L', _, _, hl, _, _ => by simp [hl]
  | [], c' :: m', L, L', _, hc', hl, h1, _ => by
    exfalso
    cases hc' with
    | cons hco _ =>
      obtain ⟨s, hs, hs1, hf, -⟩ := hco.size
      simp only [List.getLast?_singleton, Option.map_some', Option.some.injEq] at h1
      have : s * s = 1 := by omega
      have := Nat.eq_one_of_mul_eq_one_right this
      exact hs1 this
  | c :: m, [], L, L', hc, _, hl, _, h1' => by
    exfalso
    cases hc with
    | cons hco _ =>
      obtain ⟨s, hs, hs1, hf, -⟩ := hco.size
      simp only [List.getLast?_singleton, Option.map_some', Option.some.injEq] at h1'
      have : s * s = 1 := by omega
      have := Nat.eq_one_of_mul_eq_one_right this
      exact hs1 this
  | c :: m, c' :: m', L, L', hc, hc', hl, h1, h1' => by
    cases hc with
    | cons hco hrest =>
      cases hc' with
      | cons hco' hrest' =>
        obtain ⟨s, hs, -, hf, hcl⟩ := hco.size
        obtain ⟨s', hs', -, hf', hcl'⟩ := hco'.size
        have hss : s = s' := by
          have : s * s = s' * s' := by omega
          exact Nat.mul_self_inj.1 this
        subst hss
        rw [List.getLast?_cons_cons] at h1 h1'
        have ih := chain_sizes_unique hrest hrest' (by rw [hcl, hcl']) h1 h1'
        show L.length :: List.map List.length (c :: m)
          = L'.length :: List.map List.length (c' :: m')
        rw [ih, hl]

theorem DecompositionChain_same_shape {fuel unb fuel' unb' : Nat} {X Y : List (List ℚ)}
    {res k : Nat} {Xc Yc : List (List DataNode)} (hres : 1 ≤ res)
    (hX : DecompositionChain fuel unb X res k = .ok Xc)
    (hY : DecompositionChain fuel' unb' Y res k = .ok Yc) :
    Xc.map List.length = Yc.map List.length := by
  have hrX := (DecompositionChain_invariant hres hX).root
  have hrY := (DecompositionChain_invariant hres hY).root
  obtain ⟨L, more, hL, rfl, hch⟩ := DecompositionChain_chain hres hX
  obtain ⟨L', more', hL', rfl, hch'⟩ := DecompositionChain_chain hres hY
  rw [List.head?_reverse] at hrX hrY
  have h := chain_sizes_unique hch hch'
    (by rw [(leaves_facts hL).1, (leaves_facts hL').1]) hrX hrY
  rw [List.map_reverse, List.map_reverse, h]

theorem core_leaf_facts {fuel unb : Nat} {wrapper : LocalSolver} {X Y cost : List (List ℚ)}
    {res : Nat} {result : List (Nat × Nat × ℚ)} (hres : 1 ≤ res)
    (h : core fuel unb wrapper X Y cost res = .ok result) :
    ∃ Xc Yc LX LY, DecompositionChain fuel unb X res 2 = .ok Xc ∧
      DecompositionChain fuel unb Y res 2 = .ok Yc ∧
      Xc.getLast? = some LX ∧ Yc.getLast? = some LY ∧
      LX.length = res * res ∧ LY.length = res * res ∧
      ∀ e ∈ result, e.1 < res * res ∧ e.2.1 < res * res ∧
        (∃ x ∈ LX, x.getIndex = e.1 ∧ x.getChildren = []) ∧
        (∃ y ∈ LY, y.getIndex = e.2.1 ∧ y.getChildren = []) := by
  unfold core at h
  obtain ⟨Xc, hXc, h⟩ := Run.bind_eq_ok.1 h
  obtain ⟨Yc, hYc, h⟩ := Run.bind_eq_ok.1 h
  obtain ⟨cc, hcc, h⟩ := Run.bind_eq_ok.1 h
  obtain ⟨plan0, h0, h⟩ := Run.bind_eq_ok.1 h
  obtain ⟨last, hl, h⟩ := Run.bind_eq_ok.1 h
  injection h with h
  subst h
  have hiX := DecompositionChain_invariant hres hXc
  have hiY := DecompositionChain_invariant hres hYc
  obtain ⟨hp0, hl0⟩ := init_planAt h0
  obtain ⟨⟨xs, ys, hxs, hys, hmem⟩, hlev⟩ := coreLoop_planAt hiX hiY _ hp0 hl
  rw [hl0, Nat.zero_add] at hlev
  obtain ⟨LX, hlastX, hlenX, hleafX, -⟩ := leaf_layout_facts hres hXc
  obtain ⟨LY, hlastY, hlenY, hleafY, -⟩ := leaf_layout_facts hres hYc
  have hdepth : Xc.length = Yc.length := by
    have h1 := congrArg List.length (DecompositionChain_same_shape hres hXc hYc)
    simpa using h1
  rw [hlev, ← List.getLast?_eq_getElem?, hlastX] at hxs
  rw [hlev, hdepth, ← List.getLast?_eq_getElem?, hlastY] at hys
  injection hxs with hxs
  injection hys with hys
  subst hxs hys
  refine ⟨Xc, Yc, LX, LY, hXc, hYc, hlastX, hlastY, hlenX, hlenY, ?_⟩
  intro e he
  obtain ⟨t, ht, rfl⟩ := List.mem_map.1 he
  obtain ⟨hx, hy⟩ := hmem t ht
  have hix := hiX.index LX (List.mem_of_mem_getLast? hlastX)
  have hiy := hiY.index LY (List.mem_of_mem_getLast? hlastY)
  obtain ⟨p, hp⟩ := List.mem_iff_getElem?.1 hx
  obtain ⟨q, hq⟩ := List.mem_iff_getElem?.1 hy
  have hpl : p < LX.length := by
    by_contra hc
    rw [List.getElem?_eq_none (Nat.le_of_not_lt hc)] at hp
    cases hp
  have hql : q < LY.length := by
    by_contra hc
    rw [List.getElem?_eq_none (Nat.le_of_not_lt hc)] at hq
    cases hq
  refine ⟨?_, ?_, ⟨t.x, hx, rfl, hleafX _ hx⟩, ⟨t.y, hy, rfl, hleafY _ hy⟩⟩
  · show t.x.getIndex < res * res
    rw [index_of_getElem? hix hp, ← hlenX]
    exact hpl
  · show t.y.getIndex < res * res
    rw [index_of_getElem? hiy hq, ← hlenY]
    exact hql

/-! ## Output in leaf indices -/

/-- C15: whenever `propagate` returns, every edge of the new plan joins a child of the
source and a child of the sink of one edge of the old plan; and every triple `(i, j, a)`
that `core` returns on `res × res` grids (`1 ≤ res`, any local solver, the identity one
in particular) has `i < res * res` and `j < res * res`, and `i` and `j` are the indices
of childless nodes of the last (finest) levels of the two chains, which hold
`res * res` nodes each. -/
theorem output_in_leaf_indices :
    (∀ fuel costChain Xc Yc plan newPlan,
      propagate fuel costChain Xc Yc plan = .ok newPlan →
      ∀ e ∈ newPlan.transports, ∃ t ∈ plan.transports,
        e.x ∈ t.x.getChildren ∧ e.y ∈ t.y.getChildren) ∧
    (∀ fuel unb wrapper X Y cost res result, 1 ≤ res →
      core fuel unb wrapper X Y cost res = .ok result →
      ∃ Xc Yc LX LY, DecompositionChain fuel unb X res 2 = .ok Xc ∧
        DecompositionChain fuel unb Y res 2 = .ok Yc ∧
        Xc.getLast? = some LX ∧ Yc.getLast? = some LY ∧
        LX.length = res * res ∧ LY.length = res * res ∧
        ∀ e ∈ result, e.1 < res * res ∧ e.2.1 < res * res ∧
          (∃ x ∈ LX, x.getIndex = e.1 ∧ x.getChildren = []) ∧
          (∃ y ∈ LY, y.getIndex = e.2.1 ∧ y.getChildren = [])) :=
  ⟨fun _ _ _ _ _ _ h => propagate_children h,
   fun _ _ _ _ _ _ _ _ hres h => core_leaf_facts hres h⟩

theorem output_in_leaf_indices_witness :
    (∃ result, core 4 4 identitySolver exampleX exampleY exampleCost 2 = .ok result ∧
      ∀ e ∈ result, e.1 < 2 * 2 ∧ e.2.1 < 2 * 2) ∧
    (∃ (Xc Yc : List (List DataNode)) (cc : List (List (List ℚ))) (plan newPlan : TransportPlan),
      propagate 4 cc Xc Yc plan = .ok newPlan ∧ newPlan.transports.length = 4 ∧
      ∀ e ∈ newPlan.transports, ∃ t ∈ plan.transports,
        e.x ∈ t.x.getChildren ∧ e.y ∈ t.y.getChildren) := by
  constructor
  · have hrun := core_example_run 4 (by decide)
    obtain ⟨_, _, _, _, -, -, -, -, -, -, hall⟩ :=
      output_in_leaf_indices.2 4 4 identitySolver exampleX exampleY exampleCost 2 _
        (by decide) hrun
    exact ⟨_, hrun, fun e he => ⟨(hall e he).1, (hall e he).2.1⟩⟩
  · have hrun : firstPropagate 4 4 exampleX exampleY exampleCost 2
        = .ok [(0, 0, 0), (0, 1, 0), (0, 2, 0), (0, 3, 1)] := by decide!
    unfold firstPropagate at hrun
    obtain ⟨Xc, -, hrun⟩ := Run.bind_eq_ok.1 hrun
    obtain ⟨Yc, -, hrun⟩ := Run.bind_eq_ok.1 hrun
    obtain ⟨cc, -, hrun⟩ := Run.bind_eq_ok.1 hrun
    obtain ⟨p0, -, hrun⟩ := Run.bind_eq_ok.1 hrun
    obtain ⟨np, hnp, hfin⟩ := Run.bind_eq_ok.1 hrun
    have hout : interactOf np.transports = [(0, 0, 0), (0, 1, 0), (0, 2, 0), (0, 3, 1)] := by
      injection hfin
    have hlen : np.transports.length = 4 := by
      have := congrArg List.length hout
      simpa [interactOf] using this
    exact ⟨Xc, Yc, cc, p0, np, hnp, hlen, output_in_leaf_indices.1 4 cc Xc Yc p0 np hnp⟩

/-! ## Writing the solver's answer back -/

/-- C16: `refine` does not resize the plan. On the level-1 plan of the 2×2 example, whose
edges are `(0,0,0), (0,1,0), (0,2,0), (0,3,1)`, a local solver that drops the entries of
amount zero answers the single triple `(0,3,1)`, and the plan after `refine` still has
four edges, `(0,3,1), (0,1,0), (0,2,0), (0,3,1)`: the last three are left over from
before the call and the total amount has become `2`. With a local solver that splits
every entry into two halves (eight triples) `refine` writes past the end of the edge
list, which is undefined behaviour. -/
theorem refine_keeps_old_length :
    ∃ (Xc Yc : List (List DataNode)) (cc : List (List (List ℚ))) (xs ys : List DataNode)
      (cost : List (List ℚ)) (plan refined : TransportPlan),
      DecompositionChain 4 4 exampleX 2 2 = .ok Xc ∧
      DecompositionChain 4 4 exampleY 2 2 = .ok Yc ∧
      decomposeCost exampleCost Xc Yc = .ok cc ∧
      plan.level = 1 ∧ Xc[1]? = some xs ∧ Yc[1]? = some ys ∧ cc[1]? = some cost ∧
      interactOf plan.transports = [(0, 0, 0), (0, 1, 0), (0, 2, 0), (0, 3, 1)] ∧
      pruningSolver cost (xs.map DataNode.getMeasure) (ys.map DataNode.getMeasure)
        (interactOf plan.transports) = [(0, 3, 1)] ∧
      refine pruningSolver cc Xc Yc plan = .ok refined ∧
      interactOf refined.transports = [(0, 3, 1), (0, 1, 0), (0, 2, 0), (0, 3, 1)] ∧
      totalAmount refined.transports = 2 ∧ totalAmount plan.transports = 1 ∧
      (splittingSolver cost (xs.map DataNode.getMeasure) (ys.map DataNode.getMeasure)
        (interactOf plan.transports)).length = 8 ∧
      refine splittingSolver cc Xc Yc plan = .undefined := by
  have hrun : firstRefine pruningSolver 4 4 exampleX exampleY exampleCost 2
      = .ok [(0, 3, 1), (0, 1, 0), (0, 2, 0), (0, 3, 1)] := by decide!
  have hrun2 : firstRefine splittingSolver 4 4 exampleX exampleY exampleCost 2
      = .undefined := by decide!
  unfold firstRefine at hrun hrun2
  obtain ⟨Xc, hXc, hrun⟩ := Run.bind_eq_ok.1 hrun
  obtain ⟨Yc, hYc, hrun⟩ := Run.bind_eq_ok.1 hrun
  obtain ⟨cc, hcc, hrun⟩ := Run.bind_eq_ok.1 hrun
  obtain ⟨p0, hp0, hrun⟩ := Run.bind_eq_ok.1 hrun
  obtain ⟨np, hnp, hrun⟩ := Run.bind_eq_ok.1 hrun
  obtain ⟨refined, href, hfin⟩ := Run.bind_eq_ok.1 hrun
  rw [hXc, Run.ok_bind, hYc, Run.ok_bind, hcc, Run.ok_bind, hp0, Run.ok_bind, hnp,
    Run.ok_bind] at hrun2
  have hundef : refine splittingSolver cc Xc Yc np = .undefined := by
    cases hr : refine splittingSolver cc Xc Yc np with
    | ok a => rw [hr, Run.ok_bind] at hrun2; cases hrun2
    | exception => rw [hr] at hrun2; cases hrun2
    | undefined => rfl
    | timeout => rw [hr] at hrun2; cases hrun2
  have hout : interactOf refined.transports
      = [(0, 3, 1), (0, 1, 0), (0, 2, 0), (0, 3, 1)] := by
    injection hfin
  have hfp : firstPropagate 4 4 exampleX exampleY exampleCost 2
      = .ok [(0, 0, 0), (0, 1, 0), (0, 2, 0), (0, 3, 1)] := by decide!
  unfold firstPropagate at hfp
  rw [hXc, Run.ok_bind, hYc, Run.ok_bind, hcc, Run.ok_bind, hp0, Run.ok_bind, hnp,
    Run.ok_bind] at hfp
  have hin : interactOf np.transports = [(0, 0, 0), (0, 1, 0), (0, 2, 0), (0, 3, 1)] := by
    injection hfp
  obtain ⟨-, hl0⟩ := init_planAt hp0
  have hlev : np.level = 1 := by rw [propagate_level hnp, hl0]
  have href2 := href
  unfold refine at href2
  obtain ⟨xs, hxs, href2⟩ := Run.bind_eq_ok.1 href2
  obtain ⟨ys, hys, href2⟩ := Run.bind_eq_ok.1 href2
  obtain ⟨cost, hcost, -⟩ := Run.bind_eq_ok.1 href2
  rw [hlev, Run.at_eq_ok] at hxs hys hcost
  have htot : ∀ ts : List Transport, totalAmount ts = ((interactOf ts).map fun e => e.2.2).sum := by
    intro ts
    simp [totalAmount, interactOf, Function.comp_def]
  refine ⟨Xc, Yc, cc, xs, ys, cost, np, refined, hXc, hYc, hcc, hlev, hxs, hys, hcost, hin,
    ?_, href, hout, ?_, ?_, ?_, hundef⟩
  · rw [hin]; show List.filter _ _ = _; decide!
  · rw [htot, hout]; decide!
  · rw [htot, hin]; decide!
  · rw [hin]; rfl

/-! ## Cost hierarchy -/

theorem at_bind_at_eq_ok {m : List (List ℚ)} {i j : Nat} {v : ℚ} :
    ((Run.at m i).bind fun row => Run.at row j) = .ok v ↔ entry m i j = some v := by
  unfold entry
  rw [Run.bind_eq_ok]
  constructor
  · rintro ⟨row, h1, h2⟩
    rw [Run.at_eq_ok] at h1 h2
    rw [h1]
    exact h2
  · intro h
    cases hr : m[i]? with
    | none => rw [hr] at h; cases h
    | some row =>
      rw [hr] at h
      exact ⟨row, Run.at_eq_ok.2 hr, Run.at_eq_ok.2 h⟩

theorem entry_of_matrixFor {xs ys : List DataNode} {m : List (List ℚ)} (hm : MatrixFor xs ys m)
    {i j : Nat} (hi : i < xs.length) (hj : j < ys.length) : ∃ v, entry m i j = some v := by
  have hi2 : i < m.length := by rw [hm.1]; exact hi
  have hrow : m[i]? = some (m.get ⟨i, hi2⟩) := by simp [List.getElem?_eq_getElem hi2]
  have hlen := hm.2 _ (List.getElem?_mem hrow)
  have hj2 : j < (m.get ⟨i, hi2⟩).length := by rw [hlen]; exact hj
  refine ⟨(m.get ⟨i, hi2⟩).get ⟨j, hj2⟩, ?_⟩
  unfold entry
  rw [hrow]
  simp [List.getElem?_eq_getElem hj2]

theorem forall₂_getElem? {α β : Type} {R : α → β → Prop} :
    ∀ {l : List α} {bs : List β}, List.Forall₂ R l bs → ∀ (i : Nat) (a : α),
      l[i]? = some a → ∃ b, bs[i]? = some b ∧ R a b
  | _, _, .nil, i, a, h => by simp at h
  | _, _, .cons hab hrest, 0, a, h => by
    simp only [List.getElem?_cons_zero, Option.some.injEq] at h
    subst h
    exact ⟨_, by simp, hab⟩
  | _, _, .cons _ hrest, i + 1, a, h => by
    simp only [List.getElem?_cons_succ] at h
    obtain ⟨b, hb, hr⟩ := forall₂_getElem? hrest i a h
    exact ⟨b, by simpa using hb, hr⟩

theorem childCostSum_eq_ok {fine : List (List ℚ)} {xch ych : List DataNode} {s : ℚ} :
    childCostSum fine xch ych = .ok s ↔
      ∃ vs, List.Forall₂ (fun (p : DataNode × DataNode) v =>
          entry fine p.1.getIndex p.2.getIndex = some v)
          (xch.flatMap fun cx => ych.map fun cy => (cx, cy)) vs ∧ s = vs.sum := by
  unfold childCostSum
  rw [Run.bind_eq_ok]
  constructor
  · rintro ⟨vs, h1, h2⟩
    refine ⟨vs, (Run.forEach_eq_ok.1 h1).imp fun _ _ h => at_bind_at_eq_ok.1 h, ?_⟩
    injection h2 with h2
    rw [← h2]
    have := foldl_add_eq_sum (fun v : ℚ => v) vs 0
    simpa using this
  · rintro ⟨vs, h1, rfl⟩
    refine ⟨vs, Run.forEach_eq_ok.2 (h1.imp fun _ _ h => at_bind_at_eq_ok.2 h), ?_⟩
    have := foldl_add_eq_sum (fun v : ℚ => v) vs 0
    simp only [List.map_id', zero_add] at this
    rw [this]

theorem forall₂_of_forall_exists {α β : Type} {R : α → β → Prop} :
    ∀ {l : List α}, (∀ a ∈ l, ∃ b, R a b) → ∃ bs, List.Forall₂ R l bs
  | [], _ => ⟨[], .nil⟩
  | a :: as, h => by
    obtain ⟨b, hb⟩ := h a (List.mem_cons_self _ _)
    obtain ⟨bs, hbs⟩ := forall₂_of_forall_exists (l := as)
      (fun x hx => h x (List.mem_cons_of_mem _ hx))
    exact ⟨b :: bs, .cons hb hbs⟩

theorem coarseCost_ok {fine : List (List ℚ)} {fx fy xs ys : List DataNode}
    (hfine : MatrixFor fx fy fine)
    (hx : ∀ x ∈ xs, ∀ c ∈ x.getChildren, c.getIndex < fx.length)
    (hy : ∀ y ∈ ys, ∀ c ∈ y.getChildren, c.getIndex < fy.length) :
    ∃ m, coarseCost fine xs ys = .ok m ∧ MatrixFor xs ys m ∧ AveragesOver fine m xs ys := by
  have hcell : ∀ x ∈ xs, ∀ y ∈ ys, ∃ v,
      ((childCostSum fine x.getChildren y.getChildren).bind fun costSum =>
        Run.ok (costSum / x.getChildren.length / y.getChildren.length)) = .ok v := by
    intro x hxm y hym
    obtain ⟨vs, hvs⟩ := forall₂_of_forall_exists
      (R := fun (p : DataNode × DataNode) v => entry fine p.1.getIndex p.2.getIndex = some v)
      (l := x.getChildren.flatMap fun cx => y.getChildren.map fun cy => (cx, cy))
      (by
        intro p hp
        obtain ⟨cx, hcx, hp⟩ := List.mem_flatMap.1 hp
        obtain ⟨cy, hcy, rfl⟩ := List.mem_map.1 hp
        exact entry_of_matrixFor hfine (hx x hxm cx hcx) (hy y hym cy hcy))
    rw [childCostSum_eq_ok.2 ⟨vs, hvs, rfl⟩, Run.ok_bind]
    exact ⟨_, rfl⟩
  have hrow : ∀ x ∈ xs, ∃ row, Run.forEach (fun y : DataNode =>
      (childCostSum fine x.getChildren y.getChildren).bind fun costSum =>
        Run.ok (costSum / x.getChildren.length / y.getChildren.length)) ys = .ok row :=
    fun x hxm => Run.forEach_ok_of_forall (fun y hym => hcell x hxm y hym)
  obtain ⟨m, hm⟩ := Run.forEach_ok_of_forall hrow
  have hm2 := Run.forEach_eq_ok.1 hm
  refine ⟨m, hm, ⟨Run.forEach_length hm, ?_⟩, ?_⟩
  · intro row hr
    obtain ⟨x, -, hxr⟩ := forall₂_mem_right hm2 hr
    exact Run.forEach_length hxr
  · intro i j x y hxi hyj
    obtain ⟨row, hrow, hxr⟩ := forall₂_getElem? hm2 i x hxi
    obtain ⟨v, hv, hcv⟩ := forall₂_getElem? (Run.forEach_eq_ok.1 hxr) j y hyj
    obtain ⟨s, hs, hcv⟩ := Run.bind_eq_ok.1 hcv
    obtain ⟨vs, hvs, rfl⟩ := childCostSum_eq_ok.1 hs
    refine ⟨vs, hvs, ?_⟩
    unfold entry
    rw [hrow, Option.some_bind, hv]
    injection hcv with hcv
    rw [← hcv, div_div]

theorem children_index_lt {chain : List (List DataNode)} (hc : ChainInvariant chain)
    {l : Nat} {xs fx : List DataNode} (hxs : chain[l]? = some xs)
    (hfx : chain[l + 1]? = some fx) :
    ∀ x ∈ xs, ∀ c ∈ x.getChildren, c.getIndex < fx.length := by
  intro x hx c hcx
  have hmem : c ∈ fx :=
    (hc.steps l xs fx hxs hfx).perm.subset (List.mem_flatMap.2 ⟨x, hx, hcx⟩)
  obtain ⟨p, hp⟩ := List.mem_iff_getElem?.1 hmem
  rw [index_of_getElem? (hc.index fx (List.getElem?_mem hfx)) hp]
  by_contra hcon
  rw [List.getElem?_eq_none (Nat.le_of_not_lt hcon)] at hp
  cases hp

theorem decomposeCostLoop_ok {X Y : List (List DataNode)} (hX : ChainInvariant X)
    (hY : ChainInvariant Y) (hlen : X.length = Y.length) :
    ∀ (n : Nat) (fine : List (List ℚ)) (rest : List (List (List ℚ))) (fx fy : List DataNode),
      X[n]? = some fx → Y[n]? = some fy → MatrixFor fx fy fine →
      ∃ pre, decomposeCostLoop X Y (List.range n).reverse (fine :: rest)
          = .ok (pre ++ fine :: rest) ∧ pre.length = n ∧
        ∀ l xs ys, X[l]? = some xs → Y[l]? = some ys → l < n →
          ∃ m finer, (pre ++ fine :: rest)[l]? = some m ∧
            (pre ++ fine :: rest)[l + 1]? = some finer ∧ AveragesOver finer m xs ys
  | 0, fine, rest, fx, fy, _, _, _ => ⟨[], rfl, rfl, fun l _ _ _ _ hl => by omega⟩
  | n + 1, fine, rest, fx, fy, hfx, hfy, hfine => by
    have hnX : n < X.length := by
      have := (List.getElem?_eq_some_iff.1 hfx).1
      omega
    have hnY : n < Y.length := by omega
    have hxs : X[n]? = some (X.get ⟨n, hnX⟩) := by simp [List.getElem?_eq_getElem hnX]
    have hys : Y[n]? = some (Y.get ⟨n, hnY⟩) := by simp [List.getElem?_eq_getElem hnY]
    obtain ⟨m, hm, hmat, havg⟩ := @coarseCost_ok fine fx fy (X.get ⟨n, hnX⟩) (Y.get ⟨n, hnY⟩)
      hfine (children_index_lt hX hxs hfx) (children_index_lt hY hys hfy)
    obtain ⟨pre, hrun, hpre, hall⟩ := decomposeCostLoop_ok hX hY hlen n m (fine :: rest)
      _ _ hxs hys hmat
    refine ⟨pre ++ [m], ?_, by simp [hpre], ?_⟩
    · rw [List.range_succ, List.reverse_append, List.reverse_singleton, List.singleton_append,
        decomposeCostLoop, Run.at_eq_ok.2 hxs, Run.ok_bind, Run.at_eq_ok.2 hys, Run.ok_bind]
      simp only [Run.at, List.getElem?_cons_zero, Run.ok_bind, hm]
      rw [hrun, List.append_assoc, List.singleton_append]
    · intro l xs ys hlx hly hl
      rw [List.append_assoc, List.singleton_append]
      rcases Nat.lt_succ_iff_lt_or_eq.1 hl with hl2 | rfl
      · exact hall l xs ys hlx hly hl2
      · rw [hxs] at hlx
        rw [hys] at hly
        injection hlx with hlx
        injection hly with hly
        subst hlx hly
        refine ⟨m, fine, ?_, ?_, havg⟩
        · rw [List.getElem?_append_right (by omega), hpre, Nat.sub_self]
          rfl
        · rw [List.getElem?_append_right (by omega), hpre, Nat.add_sub_cancel_left]
          simp

/-- C12: for two chains satisfying the chain invariant, of the same depth `d`, and a cost
matrix with one row per node of the finest source level and one column per node of the
finest sink level, `decomposeCost` returns `d` matrices, the last of which,
`costChain[d-1]`, is the given one; and for every level `l` with `l + 1 < d`, every
node `x` at position `i` of the source level `l` and `y` at position `j` of the sink
level `l`, all entries `costChain[l+1][cx.index][cy.index]` for children `cx` of `x` and
`cy` of `y` exist, and `costChain[l][i][j]` is their sum divided by the product of the
numbers of children. -/
theorem cost_hierarchy (X Y : List (List DataNode)) (cost : List (List ℚ))
    (LX LY : List DataNode) (hX : ChainInvariant X) (hY : ChainInvariant Y)
    (hlen : X.length = Y.length) (hLX : X.getLast? = some LX) (hLY : Y.getLast? = some LY)
    (hcost : MatrixFor LX LY cost) :
    ∃ costChain, decomposeCost cost X Y = .ok costChain ∧
      costChain.length = X.length ∧ costChain[X.length - 1]? = some cost ∧
      ∀ l xs ys, X[l]? = some xs → Y[l]? = some ys → l + 1 < X.length →
        ∃ m finer, costChain[l]? = some m ∧ costChain[l + 1]? = some finer ∧
          AveragesOver finer m xs ys := by
  have hne : X.length ≠ 0 := by
    intro h0
    rw [List.length_eq_zero.1 h0] at hLX
    cases hLX
  rw [List.getLast?_eq_getElem?] at hLX hLY
  rw [← hlen] at hLY
  obtain ⟨pre, hrun, hpre, hall⟩ :=
    decomposeCostLoop_ok hX hY hlen (X.length - 1) cost [] LX LY hLX hLY hcost
  refine ⟨pre ++ [cost], ?_, by simp [hpre]; omega, ?_, ?_⟩
  · unfold decomposeCost
    rw [if_neg hne, hrun]
  · rw [List.getElem?_append_right (by omega), hpre, Nat.sub_self]
    rfl
  · intro l xs ys hlx hly hl
    exact hall l xs ys hlx hly (by omega)

theorem cost_hierarchy_witness :
    ∃ (Xc Yc : List (List DataNode)) (costChain : List (List (List ℚ))),
      DecompositionChain 4 4 exampleX 2 2 = .ok Xc ∧
      DecompositionChain 4 4 exampleY 2 2 = .ok Yc ∧
      decomposeCost exampleCost Xc Yc = .ok costChain ∧
      costChain.length = Xc.length ∧ costChain[Xc.length - 1]? = some exampleCost := by
  have hrun := core_example_run 4 (by decide)
  unfold core at hrun
  obtain ⟨Xc, hXc, hrun⟩ := Run.bind_eq_ok.1 hrun
  obtain ⟨Yc, hYc, -⟩ := Run.bind_eq_ok.1 hrun
  obtain ⟨LX, hlastX, hlenX, -, -⟩ := leaf_layout_facts (by decide) hXc
  obtain ⟨LY, hlastY, hlenY, -, -⟩ := leaf_layout_facts (by decide) hYc
  have hdepth : Xc.length = Yc.length := by
    have h1 := congrArg List.length
      (DecompositionChain_same_shape (by decide) hXc hYc)
    simpa using h1
  obtain ⟨cc, hcc, hl, hlast, -⟩ := cost_hierarchy Xc Yc exampleCost LX LY
    (DecompositionChain_invariant (by decide) hXc)
    (DecompositionChain_invariant (by decide) hYc) hdepth hlastX hlastY
    ⟨by rw [hlenX]; rfl, by rw [hlenY]; decide⟩
  exact ⟨Xc, Yc, cc, hXc, hYc, hcc, hl, hlast⟩

/-! ## Termination of `propagate` -/

theorem columnInf_iff {c : List (List Cost)} {j : Nat} :
    columnInf c j = true ↔ ∀ row ∈ c, row[j]? = some none := by
  simp [columnInf, List.all_eq_true]

theorem getD_set_self {v : List ℚ} {i : Nat} (x : ℚ) (h : i < v.length) :
    (v.set i x).getD i 0 = x := by
  rw [List.getD_eq_getElem?_getD, List.getElem?_set_self (by simpa using h)]
  rfl

theorem getD_set_ne {v : List ℚ} {i k : Nat} (x : ℚ) (h : i ≠ k) :
    (v.set i x).getD k 0 = v.getD k 0 := by
  rw [List.getD_eq_getElem?_getD, List.getD_eq_getElem?_getD, List.getElem?_set_ne h]

theorem at_getD {v : List ℚ} {i : Nat} (h : i < v.length) : Run.at v i = .ok (v.getD i 0) := by
  rw [Run.at_eq_ok, List.getD_eq_getElem?_getD, List.getElem?_eq_getElem h]
  rfl

theorem sumAt_set_of_not_mem {v : List ℚ} {i : Nat} (x : ℚ) :
    ∀ {idx : List Nat}, i ∉ idx → sumAt (v.set i x) idx = sumAt v idx
  | [], _ => rfl
  | k :: idx, h => by
    have hk : i ≠ k := fun e => h (e ▸ List.mem_cons_self _ _)
    have hrest : i ∉ idx := fun e => h (List.mem_cons_of_mem _ e)
    have ih := sumAt_set_of_not_mem (v := v) x hrest
    unfold sumAt at ih ⊢
    rw [List.map_cons, List.sum_cons, List.map_cons, List.sum_cons, ih, getD_set_ne x hk]

theorem sumAt_set_of_mem {v : List ℚ} {i : Nat} (x : ℚ) (hi : i < v.length) :
    ∀ {idx : List Nat}, idx.Nodup → i ∈ idx →
      sumAt (v.set i x) idx = sumAt v idx - v.getD i 0 + x
  | [], _, h => by cases h
  | k :: idx, hnd, h => by
    rw [List.nodup_cons] at hnd
    by_cases hk : i = k
    · subst hk
      have h1 := sumAt_set_of_not_mem (v := v) x hnd.1
      unfold sumAt at h1 ⊢
      rw [List.map_cons, List.sum_cons, List.map_cons, List.sum_cons, h1, getD_set_self x hi]
      ring
    · have hmem : i ∈ idx := by
        rcases List.mem_cons.1 h with e | e
        · exact absurd e hk
        · exact e
      have ih := sumAt_set_of_mem (v := v) x hi hnd.2 hmem
      unfold sumAt at ih ⊢
      rw [List.map_cons, List.sum_cons, List.map_cons, List.sum_cons, ih, getD_set_ne x hk]
      ring

theorem sumAt_eq_zero {v : List ℚ} {idx : List Nat} (h : ∀ i ∈ idx, v.getD i 0 = 0) :
    sumAt v idx = 0 := by
  unfold sumAt
  apply List.sum_eq_zero
  intro x hx
  obtain ⟨i, hi, rfl⟩ := List.mem_map.1 hx
  exact h i hi

theorem countP_lt_countP {α : Type} {p q : α → Bool} :
    ∀ {l : List α}, (∀ a ∈ l, q a = true → p a = true) →
      (∃ a ∈ l, p a = true ∧ q a = false) → l.countP q < l.countP p
  | [], _, h => by
    obtain ⟨a, ha, -⟩ := h
    cases ha
  | b :: l, hmono, h => by
    have hmono2 : ∀ a ∈ l, q a = true → p a = true :=
      fun a ha => hmono a (List.mem_cons_of_mem _ ha)
    have hle : l.countP q ≤ l.countP p := List.countP_mono_left hmono2
    rw [List.countP_cons, List.countP_cons]
    obtain ⟨a, ha, hpa, hqa⟩ := h
    rcases List.mem_cons.1 ha with e | e
    · subst e
      rw [hpa, hqa]
      simp only [if_true, Bool.false_eq_true, if_false]
      omega
    · have hlt := countP_lt_countP hmono2 ⟨a, e, hpa, hqa⟩
      by_cases hq : q b = true
      · rw [hq, hmono b (List.mem_cons_self _ _) hq]
        simp only [if_true]
        omega
      · rw [Bool.not_eq_true] at hq
        rw [hq]
        simp only [Bool.false_eq_true, if_false]
        omega

theorem skipExhausted_total {tmpX : List ℚ} :
    ∀ {it : List DataNode}, it ≠ [] → (∀ x ∈ it, x.getIndex < tmpX.length) →
      skipExhausted tmpX it = .exception ∨
      ∃ pre xf rest, it = pre ++ xf :: rest ∧ skipExhausted tmpX it = .ok (xf :: rest) ∧
        EPS ≤ tmpX.getD xf.getIndex 0
  | [], h, _ => absurd rfl h
  | x :: it, _, hin => by
    have hx := hin x (List.mem_cons_self _ _)
    rw [skipExhausted.eq_def]
    simp only
    rw [at_getD hx, Run.ok_bind]
    by_cases hlt : tmpX.getD x.getIndex 0 < EPS
    · rw [if_pos hlt]
      cases it with
      | nil => exact Or.inl rfl
      | cons x2 it2 =>
        simp only
        rcases @skipExhausted_total tmpX (x2 :: it2) (by simp)
          (fun y hy => hin y (List.mem_cons_of_mem _ hy)) with h | ⟨pre, xf, rest, h1, h2, h3⟩
        · exact Or.inl h
        · exact Or.inr ⟨x :: pre, xf, rest, by rw [h1]; rfl, h2, h3⟩
    · rw [if_neg hlt]
      exact Or.inr ⟨[], x, it, rfl, rfl, le_of_not_lt hlt⟩

theorem search_total {tmpCost : List (List Cost)} {xIndex : Nat} {row : List Cost}
    {ys : List DataNode} (hrow : tmpCost[xIndex]? = some row) (hne : ys ≠ [])
    (hin : ∀ y ∈ ys, y.getIndex < row.length) :
    ∃ best, search tmpCost xIndex ys = .ok best ∧ best ∈ ys ∧
      (row[best.getIndex]? = some none → ∀ y ∈ ys, row[y.getIndex]? = some none) := by
  cases ys with
  | nil => exact absurd rfl hne
  | cons y0 ys =>
    obtain ⟨best, minimum', hs, hst⟩ := searchLoop_scan hrow (y0 :: ys) [] none y0 hin
      (Or.inl ⟨rfl, fun y hy => by cases hy⟩)
    rw [List.nil_append] at hst
    have hsearch : search tmpCost xIndex (y0 :: ys) = .ok best := hs
    refine ⟨best, hsearch, search_mem hsearch, ?_⟩
    rcases hst with ⟨-, hnone⟩ | ⟨pre, post, q, -, -, hb, -, -⟩
    · exact fun _ => hnone
    · intro hcon
      rw [hb] at hcon
      cases hcon

theorem setToInf_column {tmpCost : List (List Cost)} {j : Nat} (h : ∀ row ∈ tmpCost, j < row.length) :
    setToInf tmpCost false j = .ok (tmpCost.map fun row => row.set j none) := by
  unfold setToInf
  simp only [Bool.false_eq_true, if_false]
  apply Run.forEach_map
  intro row hr
  rw [if_pos (h row hr)]

theorem setToInf_row {tmpCost : List (List Cost)} {i : Nat} {row : List Cost} (h : tmpCost[i]? = some row) :
    setToInf tmpCost true i = .ok (tmpCost.set i (row.map fun _ => none)) := by
  unfold setToInf
  rw [if_pos rfl, Run.at_eq_ok.2 h, Run.ok_bind]

theorem columnInf_column {tmpCost : List (List Cost)} {j k : Nat} (hj : ∀ row ∈ tmpCost, j < row.length)
    (h : k = j ∨ columnInf tmpCost k = true) :
    columnInf (tmpCost.map fun row => row.set j none) k = true := by
  rw [columnInf_iff]
  intro row2 hr2
  obtain ⟨row, hr, rfl⟩ := List.mem_map.1 hr2
  by_cases hk : j = k
  · subst hk
    rw [List.getElem?_set_self (hj row hr)]
  · rw [List.getElem?_set_ne hk]
    rcases h with h | h
    · exact absurd h.symm hk
    · exact columnInf_iff.1 h row hr

theorem columnInf_row {tmpCost : List (List Cost)} {i k : Nat} {row : List Cost}
    (h : columnInf tmpCost k = true) (hrow : tmpCost[i]? = some row) :
    columnInf (tmpCost.set i (row.map fun _ => none)) k = true := by
  rw [columnInf_iff] at h ⊢
  intro row2 hr2
  rcases List.mem_or_eq_of_mem_set hr2 with hm | rfl
  · exact h row2 hm
  · have hk := h row (List.getElem?_mem hrow)
    have hlt : k < row.length := by
      by_contra hc
      rw [List.getElem?_eq_none (Nat.le_of_not_lt hc)] at hk
      cases hk
    rw [List.getElem?_map, List.getElem?_eq_getElem hlt]
    rfl

theorem slack_update {ny : Nat} {ys : List DataNode} (hs : SinkFacts ny ys) {pend : Nat → ℚ}
    {yC best : DataNode} (hyC : yC ∈ ys) (hbest : best ∈ yC.getChildren) {tmpY : List ℚ}
    (hlen : tmpY.length = ny) {amount e : ℚ}
    (h : Slack ys pend yC.getIndex amount tmpY) :
    Slack ys pend yC.getIndex (amount - e)
      (tmpY.set best.getIndex (tmpY.getD best.getIndex 0 - e)) := by
  intro y hy
  have hold := h y hy
  by_cases hq : y.getIndex = yC.getIndex
  · have hy2 := hs.unique y hy yC hyC hq
    subst hy2
    rw [if_pos rfl] at hold ⊢
    rw [sumAt_set_of_mem _ (by rw [hlen]; exact hs.bound y hy best hbest) (hs.nodup y hy)
      (List.mem_map.2 ⟨best, hbest, rfl⟩)]
    linarith
  · rw [if_neg hq] at hold ⊢
    rw [sumAt_set_of_not_mem]
    · exact hold
    · intro hmem
      obtain ⟨c, hc, hci⟩ := List.mem_map.1 hmem
      exact hs.disjoint y hy yC hyC hq c hc best hbest hci

theorem disaggregateStep_progress {nx ny : Nat} {ys : List DataNode} {pend : Nat → ℚ}
    {t : Transport} {w : Work} (hs : SinkFacts ny ys) (hty : t.y ∈ ys)
    (hpend : ∀ q, 0 ≤ pend q) (hinv : WorkInv nx ny w) (hamt : 0 ≤ w.tmpAmount)
    (hslack : Slack ys pend t.y.getIndex w.tmpAmount w.tmpYMeasure)
    (hne : w.xIter ≠ []) (hin : ∀ x ∈ w.xIter, x.getIndex < nx) :
    disaggregateStep t.y.getChildren w = .exception ∨
    ∃ b w', disaggregateStep t.y.getChildren w = .ok (b, w') ∧ WorkInv nx ny w' ∧
      (b = true → Slack ys pend t.y.getIndex 0 w'.tmpYMeasure) ∧
      (b = false → 0 ≤ w'.tmpAmount ∧
        Slack ys pend t.y.getIndex w'.tmpAmount w'.tmpYMeasure ∧
        w'.xIter ≠ [] ∧ (∀ x ∈ w'.xIter, x.getIndex < nx) ∧
        remainingWork t.y.getChildren w' < remainingWork t.y.getChildren w) := by
  have hinX : ∀ x ∈ w.xIter, x.getIndex < w.tmpXMeasure.length := by
    rw [hinv.lenX]; exact hin
  rcases skipExhausted_total hne hinX with hex | ⟨pre, xf, rest, hit, hskip, hge⟩
  · left
    unfold disaggregateStep
    rw [hex]
    rfl
  right
  have hxfmem : xf ∈ w.xIter := by rw [hit]; simp
  have hxf : xf.getIndex < nx := hin xf hxfmem
  have hxfX : xf.getIndex < w.tmpXMeasure.length := hinX xf hxfmem
  have hxfC : xf.getIndex < w.tmpCost.length := by rw [hinv.rows]; exact hxf
  have hrow : w.tmpCost[xf.getIndex]? = some (w.tmpCost.get ⟨xf.getIndex, hxfC⟩) := by
    simp [List.getElem?_eq_getElem hxfC]
  generalize w.tmpCost.get ⟨xf.getIndex, hxfC⟩ = row at hrow
  have hrowlen : row.length = ny := hinv.cols row (List.getElem?_mem hrow)
  obtain ⟨best, hsearch, hbest, hnone⟩ := search_total hrow (hs.nonempty t.y hty)
    (fun y hy => by rw [hrowlen]; exact hs.bound t.y hty y hy)
  have hbY : best.getIndex < w.tmpYMeasure.length := by
    rw [hinv.lenY]; exact hs.bound t.y hty best hbest
  have hbcol : ∀ r ∈ w.tmpCost, best.getIndex < r.length := by
    intro r hr
    rw [hinv.cols r hr]
    exact hs.bound t.y hty best hbest
  have hsuffix : ∀ x ∈ xf :: rest, x.getIndex < nx := by
    intro x hx
    apply hin
    rw [hit]
    exact List.mem_append_right _ hx
  -- a sink child whose column is `+∞` everywhere is only selected when nothing is left
  have hK : columnInf w.tmpCost best.getIndex = true →
      w.tmpAmount = 0 ∧ w.tmpYMeasure.getD best.getIndex 0 = 0 := by
    intro hcol
    have hb := columnInf_iff.1 hcol row (List.getElem?_mem hrow)
    have hall := hnone hb
    have hmarked : ∀ y ∈ t.y.getChildren, w.tmpYMeasure.getD y.getIndex 0 = 0 := by
      intro y hy
      rcases hinv.marks _ _ row hrow (hall y hy) with hlt | ⟨-, h0⟩
      · exact absurd hge (not_le.2 hlt)
      · exact h0
    have hsum : sumAt w.tmpYMeasure (t.y.getChildren.map DataNode.getIndex) = 0 := by
      apply sumAt_eq_zero
      intro i hi
      obtain ⟨y, hy, rfl⟩ := List.mem_map.1 hi
      exact hmarked y hy
    have h1 := hslack t.y hty
    rw [if_pos rfl, hsum] at h1
    have h2 := hpend t.y.getIndex
    exact ⟨by linarith, hmarked best hbest⟩
  have hEPS := EPS_pos
  have hcountIter : ∀ tx : List ℚ,
      (∀ x : DataNode, EPS ≤ tx.getD x.getIndex 0 → EPS ≤ w.tmpXMeasure.getD x.getIndex 0) →
      (xf :: rest).countP (fun x => decide (EPS ≤ tx.getD x.getIndex 0))
        ≤ w.xIter.countP (fun x => decide (EPS ≤ w.tmpXMeasure.getD x.getIndex 0)) := by
    intro tx htx
    have h1 : (xf :: rest).countP (fun x => decide (EPS ≤ tx.getD x.getIndex 0))
        ≤ (xf :: rest).countP (fun x => decide (EPS ≤ w.tmpXMeasure.getD x.getIndex 0)) :=
      List.countP_mono_left (fun x _ hx => by
        simp only [decide_eq_true_eq] at hx ⊢
        exact htx x hx)
    have h2 : (xf :: rest).Sublist w.xIter := by
      rw [hit]
      exact List.sublist_append_right _ _
    exact h1.trans (h2.countP_le _)
  unfold disaggregateStep
  rw [hskip, Run.ok_bind]
  simp only
  rw [at_getD hxfX, Run.ok_bind, hsearch, Run.ok_bind, at_getD hbY, Run.ok_bind]
  by_cases hfinal : w.tmpAmount ≤ w.tmpYMeasure.getD best.getIndex 0 + EPS ∧
      w.tmpAmount ≤ w.tmpXMeasure.getD xf.getIndex 0 + EPS
  · rw [if_pos hfinal, Run.store_eq_ok.2 ⟨hxfX, rfl⟩, Run.ok_bind,
      Run.store_eq_ok.2 ⟨hbY, rfl⟩, Run.ok_bind]
    refine ⟨true, _, rfl, ?_, ?_, ?_⟩
    · refine ⟨by simp [hinv.lenX], by simp [hinv.lenY], hinv.rows, hinv.cols, ?_⟩
      intro i j r hr hj
      show (w.tmpXMeasure.set xf.getIndex _).getD i 0 < EPS ∨
        (columnInf w.tmpCost j = true ∧ (w.tmpYMeasure.set best.getIndex _).getD j 0 = 0)
      rcases hinv.marks i j r hr hj with hlt | ⟨hcol, h0⟩
      · left
        have hne2 : xf.getIndex ≠ i := by
          intro e
          rw [← e] at hlt
          exact absurd hge (not_le.2 hlt)
        rw [getD_set_ne _ hne2]
        exact hlt
      · right
        refine ⟨hcol, ?_⟩
        by_cases hjb : best.getIndex = j
        · subst hjb
          obtain ⟨ha, hy0⟩ := hK hcol
          rw [getD_set_self _ hbY, ha, hy0]
          norm_num
        · rw [getD_set_ne _ hjb]
          exact h0
    · intro _
      have := slack_update hs hty hbest hinv.lenY (e := w.tmpAmount) hslack
      rw [sub_self] at this
      exact this
    · intro hb
      cases hb
  · rw [if_neg hfinal]
    have hncol : ¬ columnInf w.tmpCost best.getIndex = true := by
      intro hcol
      obtain ⟨ha, hy0⟩ := hK hcol
      apply hfinal
      rw [ha, hy0]
      constructor <;> linarith
    by_cases hlt : w.tmpYMeasure.getD best.getIndex 0 < w.tmpXMeasure.getD xf.getIndex 0
    · rw [if_pos hlt, Run.store_eq_ok.2 ⟨hxfX, rfl⟩, Run.ok_bind,
        Run.store_eq_ok.2 ⟨hbY, rfl⟩, Run.ok_bind, setToInf_column hbcol, Run.ok_bind]
      refine ⟨false, _, rfl, ?_, ?_, ?_⟩
      · refine ⟨by simp [hinv.lenX], by simp [hinv.lenY], by simp [hinv.rows], ?_, ?_⟩
        · intro r2 hr2
          obtain ⟨r, hr, rfl⟩ := List.mem_map.1 hr2
          simp [hinv.cols r hr]
        · intro i j r2 hr2 hj
          show (w.tmpXMeasure.set xf.getIndex _).getD i 0 < EPS ∨
            (columnInf (w.tmpCost.map fun row => row.set best.getIndex none) j = true ∧
              (w.tmpYMeasure.set best.getIndex 0).getD j 0 = 0)
          have hr2b : (w.tmpCost.map fun row => row.set best.getIndex none)[i]? = some r2 := hr2
          rw [List.getElem?_map] at hr2b
          cases hr : w.tmpCost[i]? with
          | none => rw [hr] at hr2b; cases hr2b
          | some r =>
            rw [hr] at hr2b
            injection hr2b with hr2b
            subst hr2b
            by_cases hjb : best.getIndex = j
            · subst hjb
              right
              exact ⟨columnInf_column hbcol (Or.inl rfl), getD_set_self _ hbY⟩
            · rw [List.getElem?_set_ne hjb] at hj
              rcases hinv.marks i j r hr hj with hlt2 | ⟨hcol, h0⟩
              · left
                have hne2 : xf.getIndex ≠ i := by
                  intro e
                  rw [← e] at hlt2
                  exact absurd hge (not_le.2 hlt2)
                rw [getD_set_ne _ hne2]
                exact hlt2
              · right
                refine ⟨columnInf_column hbcol (Or.inr hcol), ?_⟩
                rw [getD_set_ne _ hjb]
                exact h0
      · intro hb
        cases hb
      · intro _
        have hamt2 : 0 ≤ w.tmpAmount - w.tmpYMeasure.getD best.getIndex 0 := by
          by_contra hcon
          apply hfinal
          constructor <;> linarith
        have hsl := slack_update hs hty hbest hinv.lenY
          (e := w.tmpYMeasure.getD best.getIndex 0) hslack
        rw [sub_self] at hsl
        refine ⟨hamt2, hsl, by simp, hsuffix, ?_⟩
        unfold remainingWork
        show t.y.getChildren.countP (fun y =>
              !columnInf (w.tmpCost.map fun row => row.set best.getIndex none) y.getIndex) +
            (xf :: rest).countP (fun x => decide (EPS ≤
              (w.tmpXMeasure.set xf.getIndex _).getD x.getIndex 0)) < _
        have h1 : t.y.getChildren.countP (fun y =>
              !columnInf (w.tmpCost.map fun row => row.set best.getIndex none) y.getIndex)
            < t.y.getChildren.countP (fun y => !columnInf w.tmpCost y.getIndex) := by
          apply countP_lt_countP
          · intro y _ hy
            rw [Bool.not_eq_true', ← Bool.not_eq_true] at hy ⊢
            exact fun hc => hy (columnInf_column hbcol (Or.inr hc))
          · refine ⟨best, hbest, ?_, ?_⟩
            · rw [Bool.not_eq_true', ← Bool.not_eq_true]
              exact hncol
            · rw [columnInf_column hbcol (Or.inl rfl)]
              rfl
        have h2 := hcountIter (w.tmpXMeasure.set xf.getIndex
          (w.tmpXMeasure.getD xf.getIndex 0 - w.tmpYMeasure.getD best.getIndex 0))
          (by
            intro x hx
            by_cases hxi : xf.getIndex = x.getIndex
            · rw [← hxi]
              exact hge
            · rw [getD_set_ne _ hxi] at hx
              exact hx)
        omega
    · rw [if_neg hlt, Run.store_eq_ok.2 ⟨hbY, rfl⟩, Run.ok_bind,
        Run.store_eq_ok.2 ⟨hxfX, rfl⟩, Run.ok_bind, setToInf_row hrow, Run.ok_bind]
      refine ⟨false, _, rfl, ?_, ?_, ?_⟩
      · refine ⟨by simp [hinv.lenX], by simp [hinv.lenY], by simp [hinv.rows], ?_, ?_⟩
        · intro r2 hr2
          rcases List.mem_or_eq_of_mem_set hr2 with hm | rfl
          · exact hinv.cols r2 hm
          · simp [hrowlen]
        · intro i j r2 hr2 hj
          show (w.tmpXMeasure.set xf.getIndex 0).getD i 0 < EPS ∨
            (columnInf (w.tmpCost.set xf.getIndex (row.map fun _ => none)) j = true ∧
              (w.tmpYMeasure.set best.getIndex _).getD j 0 = 0)
          by_cases hxi : xf.getIndex = i
          · left
            rw [← hxi, getD_set_self _ hxfX]
            exact hEPS
          · have hr2b : (w.tmpCost.set xf.getIndex (row.map fun _ => none))[i]? = some r2 := hr2
            rw [List.getElem?_set_ne hxi] at hr2b
            rcases hinv.marks i j r2 hr2b hj with hlt2 | ⟨hcol, h0⟩
            · left
              rw [getD_set_ne _ hxi]
              exact hlt2
            · right
              refine ⟨columnInf_row hcol hrow, ?_⟩
              have hjb : best.getIndex ≠ j := by
                intro e
                rw [← e] at hcol
                exact hncol hcol
              rw [getD_set_ne _ hjb]
              exact h0
      · intro hb
        cases hb
      · intro _
        have hamt2 : 0 ≤ w.tmpAmount - w.tmpXMeasure.getD xf.getIndex 0 := by
          by_contra hcon
          apply hfinal
          constructor <;> linarith
        have hsl := slack_update hs hty hbest hinv.lenY
          (e := w.tmpXMeasure.getD xf.getIndex 0) hslack
        refine ⟨hamt2, hsl, by simp, hsuffix, ?_⟩
        unfold remainingWork
        show t.y.getChildren.countP (fun y =>
              !columnInf (w.tmpCost.set xf.getIndex (row.map fun _ => none)) y.getIndex) +
            (xf :: rest).countP (fun x => decide (EPS ≤
              (w.tmpXMeasure.set xf.getIndex 0).getD x.getIndex 0)) < _
        have h1 : t.y.getChildren.countP (fun y =>
              !columnInf (w.tmpCost.set xf.getIndex (row.map fun _ => none)) y.getIndex)
            ≤ t.y.getChildren.countP (fun y => !columnInf w.tmpCost y.getIndex) := by
          apply List.countP_mono_left
          intro y _ hy
          rw [Bool.not_eq_true', ← Bool.not_eq_true] at hy ⊢
          exact fun hc => hy (columnInf_row hc hrow)
        have h2 : (xf :: rest).countP (fun x => decide (EPS ≤
              (w.tmpXMeasure.set xf.getIndex 0).getD x.getIndex 0))
            < (xf :: rest).countP (fun x =>
              decide (EPS ≤ w.tmpXMeasure.getD x.getIndex 0)) := by
          apply countP_lt_countP
          · intro x _ hx
            simp only [decide_eq_true_eq] at hx ⊢
            by_cases hxi : xf.getIndex = x.getIndex
            · rw [← hxi]
              exact hge
            · rw [getD_set_ne _ hxi] at hx
              exact hx
          · refine ⟨xf, List.mem_cons_self _ _, ?_, ?_⟩
            · simp only [decide_eq_true_eq]
              exact hge
            · rw [getD_set_self _ hxfX]
              simp only [decide_eq_false_iff_not, not_le]
              exact hEPS
        have h3 := hcountIter w.tmpXMeasure (fun _ hx => hx)
        omega

theorem disaggregate_terminates {nx ny : Nat} {ys : List DataNode} {pend : Nat → ℚ}
    {t : Transport} (hs : SinkFacts ny ys) (hty : t.y ∈ ys) (hpend : ∀ q, 0 ≤ pend q) :
    ∀ (fuel : Nat) (w : Work), WorkInv nx ny w → 0 ≤ w.tmpAmount →
      Slack ys pend t.y.getIndex w.tmpAmount w.tmpYMeasure →
      w.xIter ≠ [] → (∀ x ∈ w.xIter, x.getIndex < nx) →
      remainingWork t.y.getChildren w < fuel →
      disaggregate t.y.getChildren fuel w = .exception ∨
      ∃ w', disaggregate t.y.getChildren fuel w = .ok w' ∧ WorkInv nx ny w' ∧
        Slack ys pend t.y.getIndex 0 w'.tmpYMeasure
  | 0, _, _, _, _, _, _, h => by omega
  | fuel + 1, w, hinv, hamt, hslack, hne, hin, hlt => by
    rw [disaggregate]
    rcases disaggregateStep_progress hs hty hpend hinv hamt hslack hne hin with
      hex | ⟨b, w', hstep, hinv', htrue, hfalse⟩
    · left
      rw [hex]
      rfl
    · rw [hstep, Run.ok_bind]
      cases b with
      | true =>
        right
        exact ⟨w', by simp, hinv', htrue rfl⟩
      | false =>
        obtain ⟨hamt', hslack', hne', hin', hdec⟩ := hfalse rfl
        simp only [Bool.false_eq_true, if_false]
        exact disaggregate_terminates hs hty hpend fuel w' hinv' hamt' hslack' hne' hin'
          (by omega)

theorem incoming_cons (t : Transport) (ts : List Transport) (q : Nat) :
    incoming (t :: ts) q = (if t.y.getIndex = q then t.amount else 0) + incoming ts q := by
  unfold incoming flow
  by_cases h : t.y.getIndex = q
  · rw [List.filter_cons_of_pos (by simpa using h), if_pos h, List.map_cons, List.sum_cons]
  · rw [List.filter_cons_of_neg (by simpa using h), if_neg h, zero_add]

theorem incoming_nonneg {ts : List Transport} (h : ∀ t ∈ ts, 0 ≤ t.amount) (q : Nat) :
    0 ≤ incoming ts q := by
  unfold incoming flow
  apply List.sum_nonneg
  intro a ha
  obtain ⟨t, ht, rfl⟩ := List.mem_map.1 ha
  exact h t (List.mem_of_mem_filter ht)

theorem propagateLoop_terminates {nx ny : Nat} {ys : List DataNode} (hs : SinkFacts ny ys)
    (fuel : Nat) :
    ∀ (ts : List Transport) (w : Work), WorkInv nx ny w →
      (∀ t ∈ ts, t.y ∈ ys ∧ 0 ≤ t.amount ∧ t.x.getChildren ≠ [] ∧
        (∀ c ∈ t.x.getChildren, c.getIndex < nx) ∧
        t.y.getChildren.length + t.x.getChildren.length < fuel) →
      (∀ y ∈ ys, incoming ts y.getIndex
        ≤ sumAt w.tmpYMeasure (y.getChildren.map DataNode.getIndex)) →
      propagateLoop fuel ts w = .exception ∨ ∃ w', propagateLoop fuel ts w = .ok w'
  | [], w, _, _, _ => Or.inr ⟨w, rfl⟩
  | t :: ts, w, hinv, hts, hslack => by
    obtain ⟨hty, hamt, hne, hin, hfuel⟩ := hts t (List.mem_cons_self _ _)
    have hrest : ∀ t2 ∈ ts, t2.y ∈ ys ∧ 0 ≤ t2.amount ∧ t2.x.getChildren ≠ [] ∧
        (∀ c ∈ t2.x.getChildren, c.getIndex < nx) ∧
        t2.y.getChildren.length + t2.x.getChildren.length < fuel :=
      fun t2 h2 => hts t2 (List.mem_cons_of_mem _ h2)
    have hpend : ∀ q, 0 ≤ incoming ts q := incoming_nonneg (fun t2 h2 => (hrest t2 h2).2.1)
    have hinv0 : WorkInv nx ny { w with tmpAmount := t.amount, xIter := t.x.getChildren } :=
      ⟨hinv.lenX, hinv.lenY, hinv.rows, hinv.cols, hinv.marks⟩
    have hslack0 : Slack ys (incoming ts) t.y.getIndex t.amount w.tmpYMeasure := by
      intro y hy
      have h := hslack y hy
      rw [incoming_cons] at h
      by_cases hq : y.getIndex = t.y.getIndex
      · rw [if_pos hq]
        rw [if_pos hq.symm] at h
        linarith
      · rw [if_neg hq]
        rw [if_neg (fun e => hq e.symm)] at h
        linarith
    have hwork : remainingWork t.y.getChildren
        { w with tmpAmount := t.amount, xIter := t.x.getChildren } < fuel := by
      unfold remainingWork
      have h1 := List.countP_le_length
        (fun y : DataNode => !columnInf w.tmpCost y.getIndex) (l := t.y.getChildren)
      have h2 := List.countP_le_length
        (fun x : DataNode => decide (EPS ≤ w.tmpXMeasure.getD x.getIndex 0))
        (l := t.x.getChildren)
      show List.countP (fun y : DataNode => !columnInf w.tmpCost y.getIndex) t.y.getChildren
        + List.countP (fun x : DataNode => decide (EPS ≤ w.tmpXMeasure.getD x.getIndex 0))
          t.x.getChildren < fuel
      omega
    rw [propagateLoop]
    rcases disaggregate_terminates hs hty hpend fuel _ hinv0 hamt hslack0 hne hin hwork with
      hex | ⟨w1, hw1, hinv1, hslack1⟩
    · left
      rw [hex]
      rfl
    · rw [hw1, Run.ok_bind]
      apply propagateLoop_terminates hs fuel ts w1 hinv1 hrest
      intro y hy
      have h := hslack1 y hy
      simp only [ite_self, add_zero] at h
      exact h

theorem getElem?_of_mem_indexed {level : List DataNode}
    (h : level.map DataNode.getIndex = List.range level.length) {c : DataNode}
    (hc : c ∈ level) : level[c.getIndex]? = some c := by
  obtain ⟨p, hp⟩ := List.mem_iff_getElem?.1 hc
  rw [index_of_getElem? h hp]
  exact hp

theorem length_le_flatMap {α β : Type} (f : α → List β) :
    ∀ {l : List α} {a : α}, a ∈ l → (f a).length ≤ (l.flatMap f).length
  | [], _, h => by cases h
  | b :: l, a, h => by
    rw [List.flatMap_cons, List.length_append]
    rcases List.mem_cons.1 h with e | e
    · subst e
      omega
    · have := length_le_flatMap f e
      omega

theorem sinkFacts_of_coarsens {fy ys : List DataNode} (hco : Coarsens fy ys)
    (hidx : fy.map DataNode.getIndex = List.range fy.length) : SinkFacts fy.length ys := by
  have hnd : (ys.flatMap fun y => y.getChildren.map DataNode.getIndex).Nodup := by
    rw [← List.map_flatMap]
    have hp := hco.perm.map DataNode.getIndex
    rw [hidx] at hp
    exact hp.nodup_iff.2 (List.nodup_range _)
  rw [List.nodup_flatMap] at hnd
  have huniq : ∀ y ∈ ys, ∀ y2 ∈ ys, y.getIndex = y2.getIndex → y = y2 := by
    intro y hy y2 hy2 he
    have h1 := getElem?_of_mem_indexed hco.index hy
    have h2 := getElem?_of_mem_indexed hco.index hy2
    rw [he, h2] at h1
    injection h1 with h1
    exact h1.symm
  refine ⟨fun y hy => (hco.tree y hy).1, ?_, hnd.1, ?_, huniq⟩
  · intro y hy c hc
    have hmem : c ∈ fy := hco.perm.subset (List.mem_flatMap.2 ⟨y, hy, hc⟩)
    have hget := getElem?_of_mem_indexed hidx hmem
    by_contra hcon
    rw [List.getElem?_eq_none (Nat.le_of_not_lt hcon)] at hget
    cases hget
  · intro y hy y2 hy2 hne c hc c2 hc2 he
    have hsym : Symmetric fun a b : DataNode =>
        List.Disjoint (a.getChildren.map DataNode.getIndex)
          (b.getChildren.map DataNode.getIndex) := fun _ _ h => h.symm
    have hd := hnd.2.forall hsym hy hy2 (fun e => hne (by rw [e]))
    exact hd (List.mem_map.2 ⟨c, hc, rfl⟩) (List.mem_map.2 ⟨c2, hc2, he.symm⟩)

theorem initialWork_inv {fx fy : List DataNode} {cost : List (List ℚ)}
    (hcost : MatrixFor fx fy cost) : WorkInv fx.length fy.length (initialWork fx fy cost) := by
  refine ⟨by simp [initialWork], by simp [initialWork], by simp [initialWork, hcost.1], ?_, ?_⟩
  · intro row hr
    simp only [initialWork] at hr
    obtain ⟨r, hrm, rfl⟩ := List.mem_map.1 hr
    simp [hcost.2 r hrm]
  · intro i j row hr hj
    exfalso
    simp only [initialWork, List.getElem?_map] at hr
    cases hc : cost[i]? with
    | none => rw [hc] at hr; cases hr
    | some r =>
      rw [hc] at hr
      injection hr with hr
      subst hr
      rw [List.getElem?_map] at hj
      cases hv : r[j]? with
      | none => rw [hv] at hj; cases hj
      | some v => rw [hv] at hj; cases hj

theorem initialWork_slack {fy ys : List DataNode} (hco : Coarsens fy ys)
    (hidx : fy.map DataNode.getIndex = List.range fy.length) (fx : List DataNode)
    (cost : List (List ℚ)) :
    ∀ y ∈ ys, sumAt (initialWork fx fy cost).tmpYMeasure
      (y.getChildren.map DataNode.getIndex) = y.getMeasure := by
  intro y hy
  rw [(hco.tree y hy).2.1]
  unfold sumAt
  rw [List.map_map]
  apply congrArg
  apply List.map_congr_left
  intro c hc
  have hmem : c ∈ fy := hco.perm.subset (List.mem_flatMap.2 ⟨y, hy, hc⟩)
  have hget := getElem?_of_mem_indexed hidx hmem
  show (fy.map DataNode.getMeasure).getD c.getIndex 0 = c.getMeasure
  rw [List.getD_eq_getElem?_getD, List.getElem?_map, hget]
  rfl

theorem decomposeCostLoop_suffix {X Y : List (List DataNode)} :
    ∀ (todo : List Nat) (acc cc : List (List (List ℚ))),
      decomposeCostLoop X Y todo acc = .ok cc →
      ∃ pre, cc = pre ++ acc ∧ pre.length = todo.length
  | [], acc, cc, h => by
    simp only [decomposeCostLoop] at h
    injection h with h
    exact ⟨[], h.symm, rfl⟩
  | l :: todo, acc, cc, h => by
    rw [decomposeCostLoop] at h
    obtain ⟨xs, -, h⟩ := Run.bind_eq_ok.1 h
    obtain ⟨ys, -, h⟩ := Run.bind_eq_ok.1 h
    obtain ⟨fine, -, h⟩ := Run.bind_eq_ok.1 h
    obtain ⟨m, -, h⟩ := Run.bind_eq_ok.1 h
    obtain ⟨pre, hpre, hlen⟩ := decomposeCostLoop_suffix todo (m :: acc) cc h
    exact ⟨pre ++ [m], by rw [hpre]; simp, by simp [hlen]⟩

theorem decomposeCost_last {cost : List (List ℚ)} {X Y : List (List DataNode)}
    {cc : List (List (List ℚ))} (h : decomposeCost cost X Y = .ok cc) :
    cc.length = X.length ∧ cc[X.length - 1]? = some cost := by
  have hne := decomposeCost_ok_length h
  unfold decomposeCost at h
  rw [if_neg hne] at h
  obtain ⟨pre, rfl, hlen⟩ := decomposeCostLoop_suffix _ _ _ h
  simp only [List.length_reverse, List.length_range] at hlen
  constructor
  · simp [hlen]; omega
  · rw [List.getElem?_append_right (by omega), hlen, Nat.sub_self]
    rfl

theorem propagate_terminates_of {X Y : List (List DataNode)}
    {costChain : List (List (List ℚ))} {plan : TransportPlan} {xs ys fx fy : List DataNode}
    {cost : List (List ℚ)} (hX : ChainInvariant X) (hY : ChainInvariant Y)
    (hxs : X[plan.level]? = some xs) (hys : Y[plan.level]? = some ys)
    (hfx : X[plan.level + 1]? = some fx) (hfy : Y[plan.level + 1]? = some fy)
    (hcc : costChain[plan.level + 1]? = some cost) (hcost : MatrixFor fx fy cost)
    (hplan : ∀ t ∈ plan.transports, t.x ∈ xs ∧ t.y ∈ ys ∧ 0 ≤ t.amount)
    (hin : ∀ y ∈ ys, incoming plan.transports y.getIndex ≤ y.getMeasure)
    (fuel : Nat) (hfuel : fx.length + fy.length < fuel) :
    propagate fuel costChain X Y plan = .exception ∨
    ∃ newPlan, propagate fuel costChain X Y plan = .ok newPlan := by
  have hcoX := hX.steps _ xs fx hxs hfx
  have hcoY := hY.steps _ ys fy hys hfy
  have hidxY := hY.index fy (List.getElem?_mem hfy)
  have hts : ∀ t ∈ plan.transports, t.y ∈ ys ∧ 0 ≤ t.amount ∧ t.x.getChildren ≠ [] ∧
      (∀ c ∈ t.x.getChildren, c.getIndex < fx.length) ∧
      t.y.getChildren.length + t.x.getChildren.length < fuel := by
    intro t ht
    obtain ⟨htx, hty, hamt⟩ := hplan t ht
    refine ⟨hty, hamt, (hcoX.tree t.x htx).1, children_index_lt hX hxs hfx t.x htx, ?_⟩
    have h1 := length_le_flatMap DataNode.getChildren htx
    have h2 := length_le_flatMap DataNode.getChildren hty
    rw [hcoX.perm.length_eq] at h1
    rw [hcoY.perm.length_eq] at h2
    omega
  have hslack : ∀ y ∈ ys, incoming plan.transports y.getIndex
      ≤ sumAt (initialWork fx fy cost).tmpYMeasure (y.getChildren.map DataNode.getIndex) := by
    intro y hy
    rw [initialWork_slack hcoY hidxY fx cost y hy]
    exact hin y hy
  unfold propagate
  rw [Run.at_eq_ok.2 hfx, Run.ok_bind, Run.at_eq_ok.2 hfy, Run.ok_bind, Run.at_eq_ok.2 hcc,
    Run.ok_bind]
  rcases propagateLoop_terminates (sinkFacts_of_coarsens hcoY hidxY) fuel plan.transports
    (initialWork fx fy cost) (initialWork_inv hcost) hts hslack with h | ⟨w, h⟩
  · left
    rw [h]
    rfl
  · right
    rw [h, Run.ok_bind]
    exact ⟨_, rfl⟩

theorem example_setup :
    ∃ (Xc Yc : List (List DataNode)) (cc : List (List (List ℚ))) (rx ry : DataNode)
      (fx fy : List DataNode),
      DecompositionChain 4 4 exampleX 2 2 = .ok Xc ∧
      DecompositionChain 4 4 exampleY 2 2 = .ok Yc ∧
      decomposeCost exampleCost Xc Yc = .ok cc ∧
      Xc[0]? = some [rx] ∧ Yc[0]? = some [ry] ∧ Xc[1]? = some fx ∧ Yc[1]? = some fy ∧
      cc[1]? = some exampleCost ∧ fx.length = 4 ∧ fy.length = 4 ∧
      rx.getMeasure = 1 ∧ ry.getMeasure = 1 ∧
      TransportPlan.init Xc Yc = .ok ⟨0, [⟨rx, ry, 1⟩]⟩ := by
  have hrun := core_example_run 4 (by decide)
  unfold core at hrun
  obtain ⟨Xc, hXc, hrun⟩ := Run.bind_eq_ok.1 hrun
  obtain ⟨Yc, hYc, hrun⟩ := Run.bind_eq_ok.1 hrun
  obtain ⟨cc, hcc, hrun⟩ := Run.bind_eq_ok.1 hrun
  obtain ⟨p0, hp0, -⟩ := Run.bind_eq_ok.1 hrun
  have hgX : GridOK 2 exampleX := ⟨rfl, by decide⟩
  have hgY : GridOK 2 exampleY := ⟨rfl, by decide⟩
  obtain ⟨rx, hhX, hmX⟩ := (chain_measure_facts (by decide) hgX hXc).2.1
  obtain ⟨ry, hhY, hmY⟩ := (chain_measure_facts (by decide) hgY hYc).2.1
  have hmX1 : rx.getMeasure = 1 := by rw [hmX]; decide!
  have hmY1 : ry.getMeasure = 1 := by rw [hmY]; decide!
  obtain ⟨fx, hlastX, hlenX, -, -⟩ := leaf_layout_facts (by decide) hXc
  obtain ⟨fy, hlastY, hlenY, -, -⟩ := leaf_layout_facts (by decide) hYc
  obtain ⟨Xc2, hXc2, hshape⟩ := @DecompositionChain_returns 4 4 exampleX 2 2
    (by decide) (by decide) hgX (by decide) (by decide)
  rw [hXc] at hXc2
  injection hXc2 with hXc2
  subst hXc2
  have hdX : Xc.length = 2 := by
    have := congrArg List.length hshape
    simpa [specResolutions, specNextResolution] using this
  have hdY : Yc.length = 2 := by
    have h1 := congrArg List.length (DecompositionChain_same_shape (by decide) hXc hYc)
    simp only [List.length_map] at h1
    omega
  rw [List.getLast?_eq_getElem?, hdX] at hlastX
  rw [List.getLast?_eq_getElem?, hdY] at hlastY
  rw [List.head?_eq_getElem?] at hhX hhY
  obtain ⟨hcl, hclast⟩ := decomposeCost_last hcc
  rw [hdX] at hclast
  have hinit : TransportPlan.init Xc Yc = .ok ⟨0, [⟨rx, ry, 1⟩]⟩ := by
    unfold TransportPlan.init
    rw [Run.at_eq_ok.2 hhX, Run.at_eq_ok.2 hhY, ← hmX1]
    rfl
  exact ⟨Xc, Yc, cc, rx, ry, fx, fy, hXc, hYc, hcc, hhX, hhY, hlastX, hlastY, hclast,
    hlenX, hlenY, hmX1, hmY1, hinit⟩

/-- C20: for chains satisfying the chain invariant (tree invariant, children partition
the next level, nodes indexed by position), a plan at a level `l` that has a next level
in both chains, a cost matrix for level `l + 1` with one finite entry per pair of nodes,
non-negative amounts, and amounts entering each coarse sink node adding up to at most
its measure: `propagate` either returns a plan or throws, as soon as the bound on the
passes of `while (true)` per coarse edge exceeds the number of nodes of the two finer
levels; it neither runs on nor reaches undefined behaviour. -/
theorem propagate_terminates (X Y : List (List DataNode))
    (costChain : List (List (List ℚ))) (plan : TransportPlan) (xs ys fx fy : List DataNode)
    (cost : List (List ℚ)) (hX : ChainInvariant X) (hY : ChainInvariant Y)
    (hxs : X[plan.level]? = some xs) (hys : Y[plan.level]? = some ys)
    (hfx : X[plan.level + 1]? = some fx) (hfy : Y[plan.level + 1]? = some fy)
    (hcc : costChain[plan.level + 1]? = some cost) (hcost : MatrixFor fx fy cost)
    (hplan : ∀ t ∈ plan.transports, t.x ∈ xs ∧ t.y ∈ ys ∧ 0 ≤ t.amount)
    (hin : ∀ y ∈ ys, incoming plan.transports y.getIndex ≤ y.getMeasure) :
    ∀ fuel, fx.length + fy.length < fuel →
      propagate fuel costChain X Y plan = .exception ∨
      ∃ newPlan, propagate fuel costChain X Y plan = .ok newPlan :=
  fun fuel hfuel => propagate_terminates_of hX hY hxs hys hfx hfy hcc hcost hplan hin fuel hfuel

theorem propagate_terminates_witness :
    ∃ (Xc Yc : List (List DataNode)) (cc : List (List (List ℚ))) (plan : TransportPlan),
      DecompositionChain 4 4 exampleX 2 2 = .ok Xc ∧
      DecompositionChain 4 4 exampleY 2 2 = .ok Yc ∧
      decomposeCost exampleCost Xc Yc = .ok cc ∧
      TransportPlan.init Xc Yc = .ok plan ∧
      (propagate 9 cc Xc Yc plan = .exception ∨
        ∃ newPlan, propagate 9 cc Xc Yc plan = .ok newPlan) := by
  obtain ⟨Xc, Yc, cc, rx, ry, fx, fy, hXc, hYc, hcc, hx0, hy0, hx1, hy1, hc1, hlx, hly,
    hmx, hmy, hinit⟩ := example_setup
  refine ⟨Xc, Yc, cc, ⟨0, [⟨rx, ry, 1⟩]⟩, hXc, hYc, hcc, hinit, ?_⟩
  apply propagate_terminates Xc Yc cc ⟨0, [⟨rx, ry, 1⟩]⟩ [rx] [ry] fx fy exampleCost
    (DecompositionChain_invariant (by decide) hXc)
    (DecompositionChain_invariant (by decide) hYc) hx0 hy0 hx1 hy1 hc1
    ⟨by rw [hlx]; rfl, by rw [hly]; decide⟩
  · intro t ht
    simp only [List.mem_singleton] at ht
    subst ht
    exact ⟨List.mem_singleton_self _, List.mem_singleton_self _, by norm_num⟩
  · intro y hy
    simp only [List.mem_singleton] at hy
    subst hy
    rw [hmy]
    simp [incoming, flow]
  · rw [hlx, hly]
    decide

/-! ## Independence of coarse edges -/

theorem AgreeOn.refl (A B : List Nat) (w : Work) : AgreeOn A B w w :=
  ⟨fun _ _ => rfl, fun _ _ => rfl, fun _ _ _ _ => rfl, rfl⟩

theorem AgreeOn.symm {A B : List Nat} {w w2 : Work} (h : AgreeOn A B w w2) : AgreeOn A B w2 w :=
  ⟨fun i hi => (h.x i hi).symm, fun j hj => (h.y j hj).symm,
    fun i hi j hj => (h.cost i hi j hj).symm, h.shape.symm⟩

theorem AgreeOn.trans {A B : List Nat} {w w2 w3 : Work} (h : AgreeOn A B w w2)
    (h2 : AgreeOn A B w2 w3) : AgreeOn A B w w3 :=
  ⟨fun i hi => (h.x i hi).trans (h2.x i hi), fun j hj => (h.y j hj).trans (h2.y j hj),
    fun i hi j hj => (h.cost i hi j hj).trans (h2.cost i hi j hj), h.shape.trans h2.shape⟩

theorem Run.at_congr {α : Type} {v v2 : List α} {i : Nat} (h : v[i]? = v2[i]?) :
    Run.at v i = Run.at v2 i := by
  unfold Run.at
  rw [h]

theorem skipExhausted_congr {tmpX tmpX2 : List ℚ} :
    ∀ (it : List DataNode), (∀ x ∈ it, tmpX[x.getIndex]? = tmpX2[x.getIndex]?) →
      skipExhausted tmpX it = skipExhausted tmpX2 it
  | [], _ => by simp [skipExhausted]
  | x :: it, h => by
    rw [skipExhausted.eq_def, skipExhausted.eq_def tmpX2]
    simp only
    rw [Run.at_congr (h x (List.mem_cons_self _ _))]
    cases it with
    | nil => rfl
    | cons x2 it2 =>
      simp only
      rw [skipExhausted_congr (x2 :: it2) (fun y hy => h y (List.mem_cons_of_mem _ hy))]

theorem at_at_bind {β : Type} (tmpCost : List (List Cost)) (i j : Nat) (f : Cost → Run β) :
    ((Run.at tmpCost i).bind fun row => (Run.at row j).bind f)
      = match costEntry tmpCost i j with
        | some v => f v
        | none => .undefined := by
  unfold costEntry Run.at
  cases h : tmpCost[i]? with
  | none => rfl
  | some row =>
    simp only [Run.ok_bind, Option.some_bind]
    cases h2 : row[j]? with
    | none => rfl
    | some v => rfl

theorem searchLoop_congr {tmpCost tmpCost2 : List (List Cost)} {xIndex : Nat} :
    ∀ (ys : List DataNode) (minimum : Cost) (saved : DataNode),
      (∀ y ∈ ys, costEntry tmpCost xIndex y.getIndex = costEntry tmpCost2 xIndex y.getIndex) →
      searchLoop tmpCost xIndex ys minimum saved = searchLoop tmpCost2 xIndex ys minimum saved
  | [], _, _, _ => rfl
  | y :: ys, minimum, saved, h => by
    have hrest : ∀ y2 ∈ ys, costEntry tmpCost xIndex y2.getIndex
        = costEntry tmpCost2 xIndex y2.getIndex :=
      fun y2 hy2 => h y2 (List.mem_cons_of_mem _ hy2)
    rw [searchLoop, searchLoop, at_at_bind, at_at_bind, h y (List.mem_cons_self _ _)]
    cases costEntry tmpCost2 xIndex y.getIndex with
    | none => rfl
    | some v =>
      simp only
      rw [searchLoop_congr ys v y hrest, searchLoop_congr ys minimum saved hrest]

theorem search_congr {tmpCost tmpCost2 : List (List Cost)} {xIndex : Nat} {ys : List DataNode}
    (h : ∀ y ∈ ys, costEntry tmpCost xIndex y.getIndex = costEntry tmpCost2 xIndex y.getIndex) :
    search tmpCost xIndex ys = search tmpCost2 xIndex ys := by
  cases ys with
  | nil => rfl
  | cons y ys =>
    simp only [search]
    exact searchLoop_congr _ _ _ h

theorem setToInf_column_eq_ok {tmpCost tc : List (List Cost)} {j : Nat} :
    setToInf tmpCost false j = .ok tc ↔
      (∀ row ∈ tmpCost, j < row.length) ∧ tc = tmpCost.map fun row => row.set j none := by
  constructor
  · intro h
    unfold setToInf at h
    simp only [Bool.false_eq_true, if_false] at h
    have h2 := Run.forEach_eq_ok.1 h
    have hlt : ∀ row ∈ tmpCost, j < row.length := by
      intro row hr
      obtain ⟨p, hp⟩ := List.mem_iff_getElem?.1 hr
      obtain ⟨b, -, hb⟩ := forall₂_getElem? h2 p row hp
      by_contra hc
      rw [if_neg hc] at hb
      cases hb
    refine ⟨hlt, ?_⟩
    have h3 := setToInf_column hlt
    unfold setToInf at h3
    simp only [Bool.false_eq_true, if_false] at h3
    rw [h3] at h
    injection h with h
    exact h.symm
  · rintro ⟨hlt, rfl⟩
    exact setToInf_column hlt

theorem setToInf_row_eq_ok {tmpCost tc : List (List Cost)} {i : Nat} :
    setToInf tmpCost true i = .ok tc ↔
      ∃ row, tmpCost[i]? = some row ∧ tc = tmpCost.set i (row.map fun _ => none) := by
  constructor
  · intro h
    unfold setToInf at h
    rw [if_pos rfl] at h
    obtain ⟨row, hrow, h⟩ := Run.bind_eq_ok.1 h
    injection h with h
    exact ⟨row, Run.at_eq_ok.1 hrow, h.symm⟩
  · rintro ⟨row, hrow, rfl⟩
    exact setToInf_row hrow

theorem costEntry_column (tmpCost : List (List Cost)) (j0 i j : Nat) :
    costEntry (tmpCost.map fun row => row.set j0 none) i j
      = if j = j0 then (costEntry tmpCost i j).map (fun _ => none)
        else costEntry tmpCost i j := by
  unfold costEntry
  rw [List.getElem?_map]
  cases h : tmpCost[i]? with
  | none => simp
  | some row =>
    simp only [Option.map_some', Option.some_bind]
    by_cases hj : j = j0
    · subst hj
      rw [if_pos rfl]
      by_cases hlt : j < row.length
      · rw [List.getElem?_set_self hlt, List.getElem?_eq_getElem hlt]
        rfl
      · rw [List.getElem?_eq_none (by simpa using hlt),
          List.getElem?_eq_none (Nat.le_of_not_lt hlt)]
        rfl
    · rw [if_neg hj, List.getElem?_set_ne (fun e => hj e.symm)]

theorem costEntry_row {tmpCost : List (List Cost)} {i0 : Nat} {row0 : List Cost}
    (h0 : tmpCost[i0]? = some row0) (i j : Nat) :
    costEntry (tmpCost.set i0 (row0.map fun _ => none)) i j
      = if i = i0 then (costEntry tmpCost i j).map (fun _ => none)
        else costEntry tmpCost i j := by
  unfold costEntry
  by_cases hi : i = i0
  · subst hi
    have hlt : i < tmpCost.length := by
      by_contra hc
      rw [List.getElem?_eq_none (Nat.le_of_not_lt hc)] at h0
      cases h0
    rw [if_pos rfl, List.getElem?_set_self hlt, h0]
    simp only [Option.some_bind, List.getElem?_map]
  · rw [if_neg hi, List.getElem?_set_ne (fun e => hi e.symm)]

theorem shape_column (tmpCost : List (List Cost)) (j0 : Nat) :
    (tmpCost.map fun row => row.set j0 none).map List.length = tmpCost.map List.length := by
  rw [List.map_map]
  apply List.map_congr_left
  intro row _
  simp

theorem shape_row {tmpCost : List (List Cost)} {i0 : Nat} {row0 : List Cost}
    (h0 : tmpCost[i0]? = some row0) :
    (tmpCost.set i0 (row0.map fun _ => none)).map List.length = tmpCost.map List.length := by
  apply List.ext_getElem?
  intro n
  rw [List.getElem?_map, List.getElem?_map]
  by_cases hn : i0 = n
  · subst hn
    have hlt : i0 < tmpCost.length := by
      by_contra hc
      rw [List.getElem?_eq_none (Nat.le_of_not_lt hc)] at h0
      cases h0
    rw [List.getElem?_set_self hlt, h0]
    simp
  · rw [List.getElem?_set_ne hn]

theorem getElem?_set_of_eq {v v2 : List ℚ} {i k : Nat} (x : ℚ) (hk : v[k]? = v2[k]?)
    (hi : i < v.length) (hi2 : i < v2.length) : (v.set i x)[k]? = (v2.set i x)[k]? := by
  by_cases hik : i = k
  · subst hik
    rw [List.getElem?_set_self hi, List.getElem?_set_self hi2]
  · rw [List.getElem?_set_ne hik, List.getElem?_set_ne hik, hk]

theorem rows_lt_of_shape {tmpCost tmpCost2 : List (List Cost)} {j : Nat}
    (hs : tmpCost.map List.length = tmpCost2.map List.length)
    (h : ∀ row ∈ tmpCost, j < row.length) : ∀ row ∈ tmpCost2, j < row.length := by
  intro row hr
  have hm : row.length ∈ tmpCost2.map List.length := List.mem_map.2 ⟨row, hr, rfl⟩
  rw [← hs] at hm
  obtain ⟨row1, hr1, he⟩ := List.mem_map.1 hm
  rw [← he]
  exact h row1 hr1

theorem row_of_shape {tmpCost tmpCost2 : List (List Cost)} {i : Nat} {row : List Cost}
    (hs : tmpCost.map List.length = tmpCost2.map List.length) (h : tmpCost[i]? = some row) :
    ∃ row2, tmpCost2[i]? = some row2 := by
  have hlen : tmpCost.length = tmpCost2.length := by
    have := congrArg List.length hs
    simpa using this
  have hlt : i < tmpCost2.length := by
    rw [← hlen]
    by_contra hc
    rw [List.getElem?_eq_none (Nat.le_of_not_lt hc)] at h
    cases h
  exact ⟨_, List.getElem?_eq_getElem hlt⟩

theorem lt_of_getElem?_eq_some {α : Type} {v : List α} {i : Nat} {a : α}
    (h : v[i]? = some a) : i < v.length := by
  by_contra hc
  rw [List.getElem?_eq_none (Nat.le_of_not_lt hc)] at h
  cases h

theorem disaggregateStep_local {yChildren : List DataNode} {A B : List Nat} {w w2 : Work}
    (hA : ∀ x ∈ w.xIter, x.getIndex ∈ A) (hB : ∀ y ∈ yChildren, y.getIndex ∈ B)
    (hag : AgreeOn A B w w2) (hamt : w.tmpAmount = w2.tmpAmount) (hit : w.xIter = w2.xIter)
    {b : Bool} {w' : Work} (h : disaggregateStep yChildren w = .ok (b, w')) :
    ∃ w2', disaggregateStep yChildren w2 = .ok (b, w2') ∧ AgreeOn A B w' w2' ∧
      w'.tmpAmount = w2'.tmpAmount ∧ w'.xIter = w2'.xIter ∧
      (∀ x ∈ w'.xIter, x.getIndex ∈ A) ∧
      ∃ e, w'.transports = w.transports ++ [e] ∧ w2'.transports = w2.transports ++ [e] := by
  obtain ⟨xf, rest, best, xm, ym, hskip, hxm, hbest, hym, hcases⟩ := disaggregateStep_ok h
  obtain ⟨hsuf, -⟩ := skipExhausted_ok hskip
  have hxfA : xf.getIndex ∈ A := hA xf (hsuf.subset (List.mem_cons_self _ _))
  have hbB : best.getIndex ∈ B := hB best (search_mem hbest)
  have hiter : ∀ x ∈ xf :: rest, x.getIndex ∈ A := fun x hx => hA x (hsuf.subset hx)
  have hskip2 : skipExhausted w2.tmpXMeasure w2.xIter = .ok (xf :: rest) := by
    rw [← hit, ← skipExhausted_congr w.xIter (fun x hx => hag.x _ (hA x hx))]
    exact hskip
  have hxm2 : w2.tmpXMeasure[xf.getIndex]? = some xm := by
    rw [← hag.x _ hxfA]
    exact hxm
  have hbest2 : search w2.tmpCost xf.getIndex yChildren = .ok best := by
    rw [← search_congr (fun y hy => hag.cost _ hxfA _ (hB y hy))]
    exact hbest
  have hym2 : w2.tmpYMeasure[best.getIndex]? = some ym := by
    rw [← hag.y _ hbB]
    exact hym
  have hx1 := lt_of_getElem?_eq_some hxm
  have hx2 := lt_of_getElem?_eq_some hxm2
  have hy1 := lt_of_getElem?_eq_some hym
  have hy2 := lt_of_getElem?_eq_some hym2
  have hstart : disaggregateStep yChildren w2 =
      if w2.tmpAmount ≤ ym + EPS ∧ w2.tmpAmount ≤ xm + EPS then
        (Run.store w2.tmpXMeasure xf.getIndex (xm - w2.tmpAmount)).bind fun tx =>
        (Run.store w2.tmpYMeasure best.getIndex (ym - w2.tmpAmount)).bind fun ty =>
          .ok (true,
            { tmpXMeasure := tx
              tmpYMeasure := ty
              tmpCost := w2.tmpCost
              tmpAmount := w2.tmpAmount
              xIter := xf :: rest
              transports := w2.transports ++ [⟨xf, best, w2.tmpAmount⟩] })
      else if ym < xm then
        (Run.store w2.tmpXMeasure xf.getIndex (xm - ym)).bind fun tx =>
        (Run.store w2.tmpYMeasure best.getIndex 0).bind fun ty =>
        (setToInf w2.tmpCost false best.getIndex).bind fun tc =>
          .ok (false,
            { tmpXMeasure := tx
              tmpYMeasure := ty
              tmpCost := tc
              tmpAmount := w2.tmpAmount - ym
              xIter := xf :: rest
              transports := w2.transports ++ [⟨xf, best, ym⟩] })
      else
        (Run.store w2.tmpYMeasure best.getIndex (ym - xm)).bind fun ty =>
        (Run.store w2.tmpXMeasure xf.getIndex 0).bind fun tx =>
        (setToInf w2.tmpCost true xf.getIndex).bind fun tc =>
          .ok (false,
            { tmpXMeasure := tx
              tmpYMeasure := ty
              tmpCost := tc
              tmpAmount := w2.tmpAmount - xm
              xIter := xf :: rest
              transports := w2.transports ++ [⟨xf, best, xm⟩] }) := by
    unfold disaggregateStep
    rw [hskip2, Run.ok_bind]
    simp only
    rw [Run.at_eq_ok.2 hxm2, Run.ok_bind, hbest2, Run.ok_bind, Run.at_eq_ok.2 hym2,
      Run.ok_bind]
  rw [hstart, ← hamt]
  rcases hcases with ⟨hb, h1, h2, rfl⟩ | ⟨hb, hc, hlt, tc, htc, rfl⟩ | ⟨hb, hc, hlt, tc, htc, rfl⟩
  · subst hb
    rw [if_pos ⟨h1, h2⟩, Run.store_eq_ok.2 ⟨hx2, rfl⟩, Run.ok_bind,
      Run.store_eq_ok.2 ⟨hy2, rfl⟩, Run.ok_bind]
    refine ⟨_, rfl, ⟨?_, ?_, hag.cost, hag.shape⟩, rfl, rfl, hiter, _, rfl, rfl⟩
    · exact fun i hi => getElem?_set_of_eq _ (hag.x i hi) hx1 hx2
    · exact fun j hj => getElem?_set_of_eq _ (hag.y j hj) hy1 hy2
  · subst hb
    obtain ⟨hrows, rfl⟩ := setToInf_column_eq_ok.1 htc
    rw [if_neg hc, if_pos hlt, Run.store_eq_ok.2 ⟨hx2, rfl⟩, Run.ok_bind,
      Run.store_eq_ok.2 ⟨hy2, rfl⟩, Run.ok_bind,
      setToInf_column (rows_lt_of_shape hag.shape hrows), Run.ok_bind]
    refine ⟨_, rfl, ⟨?_, ?_, ?_, ?_⟩, rfl, rfl, hiter, _, rfl, rfl⟩
    · exact fun i hi => getElem?_set_of_eq _ (hag.x i hi) hx1 hx2
    · exact fun j hj => getElem?_set_of_eq _ (hag.y j hj) hy1 hy2
    · intro i hi j hj
      show costEntry (w.tmpCost.map fun row => row.set best.getIndex none) i j
        = costEntry (w2.tmpCost.map fun row => row.set best.getIndex none) i j
      rw [costEntry_column, costEntry_column, hag.cost i hi j hj]
    · show (w.tmpCost.map fun row => row.set best.getIndex none).map List.length
        = (w2.tmpCost.map fun row => row.set best.getIndex none).map List.length
      rw [shape_column, shape_column, hag.shape]
  · subst hb
    obtain ⟨row, hrow, rfl⟩ := setToInf_row_eq_ok.1 htc
    obtain ⟨row2, hrow2⟩ := row_of_shape hag.shape hrow
    rw [if_neg hc, if_neg hlt, Run.store_eq_ok.2 ⟨hy2, rfl⟩, Run.ok_bind,
      Run.store_eq_ok.2 ⟨hx2, rfl⟩, Run.ok_bind, setToInf_row hrow2, Run.ok_bind]
    refine ⟨_, rfl, ⟨?_, ?_, ?_, ?_⟩, rfl, rfl, hiter, _, rfl, rfl⟩
    · exact fun i hi => getElem?_set_of_eq _ (hag.x i hi) hx1 hx2
    · exact fun j hj => getElem?_set_of_eq _ (hag.y j hj) hy1 hy2
    · intro i hi j hj
      show costEntry (w.tmpCost.set xf.getIndex (row.map fun _ => none)) i j
        = costEntry (w2.tmpCost.set xf.getIndex (row2.map fun _ => none)) i j
      rw [costEntry_row hrow, costEntry_row hrow2, hag.cost i hi j hj]
    · show (w.tmpCost.set xf.getIndex (row.map fun _ => none)).map List.length
        = (w2.tmpCost.set xf.getIndex (row2.map fun _ => none)).map List.length
      rw [shape_row hrow, shape_row hrow2, hag.shape]

theorem disaggregateStep_frame {yChildren : List DataNode} {A B : List Nat} {w : Work}
    (hA : ∀ x ∈ w.xIter, x.getIndex ∉ A) (hB : ∀ y ∈ yChildren, y.getIndex ∉ B)
    {b : Bool} {w' : Work} (h : disaggregateStep yChildren w = .ok (b, w')) :
    AgreeOn A B w w' ∧ ∀ x ∈ w'.xIter, x.getIndex ∉ A := by
  obtain ⟨xf, rest, best, xm, ym, hskip, hxm, hbest, hym, hcases⟩ := disaggregateStep_ok h
  obtain ⟨hsuf, -⟩ := skipExhausted_ok hskip
  have hxfA : xf.getIndex ∉ A := hA xf (hsuf.subset (List.mem_cons_self _ _))
  have hbB : best.getIndex ∉ B := hB best (search_mem hbest)
  have hiter : ∀ x ∈ xf :: rest, x.getIndex ∉ A := fun x hx => hA x (hsuf.subset hx)
  have hxne : ∀ i ∈ A, xf.getIndex ≠ i := fun i hi e => hxfA (e ▸ hi)
  have hyne : ∀ j ∈ B, best.getIndex ≠ j := fun j hj e => hbB (e ▸ hj)
  rcases hcases with ⟨hb, h1, h2, rfl⟩ | ⟨hb, hc, hlt, tc, htc, rfl⟩ | ⟨hb, hc, hlt, tc, htc, rfl⟩
  · refine ⟨⟨?_, ?_, fun _ _ _ _ => rfl, rfl⟩, hiter⟩
    · exact fun i hi => (List.getElem?_set_ne (hxne i hi)).symm
    · exact fun j hj => (List.getElem?_set_ne (hyne j hj)).symm
  · obtain ⟨hrows, rfl⟩ := setToInf_column_eq_ok.1 htc
    refine ⟨⟨?_, ?_, ?_, ?_⟩, hiter⟩
    · exact fun i hi => (List.getElem?_set_ne (hxne i hi)).symm
    · exact fun j hj => (List.getElem?_set_ne (hyne j hj)).symm
    · intro i _ j hj
      show costEntry w.tmpCost i j
        = costEntry (w.tmpCost.map fun row => row.set best.getIndex none) i j
      rw [costEntry_column, if_neg (fun e => hyne j hj e.symm)]
    · exact (shape_column _ _).symm
  · obtain ⟨row, hrow, rfl⟩ := setToInf_row_eq_ok.1 htc
    refine ⟨⟨?_, ?_, ?_, ?_⟩, hiter⟩
    · exact fun i hi => (List.getElem?_set_ne (hxne i hi)).symm
    · exact fun j hj => (List.getElem?_set_ne (hyne j hj)).symm
    · intro i hi j _
      show costEntry w.tmpCost i j
        = costEntry (w.tmpCost.set xf.getIndex (row.map fun _ => none)) i j
      rw [costEntry_row hrow, if_neg (fun e => hxne i hi e.symm)]
    · exact (shape_row hrow).symm

theorem disaggregate_local {yChildren : List DataNode} {A B : List Nat}
    (hB : ∀ y ∈ yChildren, y.getIndex ∈ B) :
    ∀ (fuel : Nat) {w w2 w' : Work}, (∀ x ∈ w.xIter, x.getIndex ∈ A) → AgreeOn A B w w2 →
      w.tmpAmount = w2.tmpAmount → w.xIter = w2.xIter →
      disaggregate yChildren fuel w = .ok w' →
      ∃ w2', disaggregate yChildren fuel w2 = .ok w2' ∧ AgreeOn A B w' w2' ∧
        ∃ es, w'.transports = w.transports ++ es ∧ w2'.transports = w2.transports ++ es
  | 0, _, _, _, _, _, _, _, h => by simp [disaggregate] at h
  | fuel + 1, w, w2, w', hA, hag, hamt, hit, h => by
    rw [disaggregate] at h
    obtain ⟨⟨b, w1⟩, hstep, h⟩ := Run.bind_eq_ok.1 h
    obtain ⟨w21, hstep2, hag1, hamt1, hit1, hA1, e, he, he2⟩ :=
      disaggregateStep_local hA hB hag hamt hit hstep
    rw [disaggregate, hstep2, Run.ok_bind]
    cases b with
    | true =>
      simp only [if_true] at h ⊢
      injection h with h
      subst h
      exact ⟨w21, rfl, hag1, [e], he, he2⟩
    | false =>
      simp only [Bool.false_eq_true, if_false] at h ⊢
      obtain ⟨w2', hrun, hag2, es, hes, hes2⟩ :=
        disaggregate_local hB fuel hA1 hag1 hamt1 hit1 h
      refine ⟨w2', hrun, hag2, e :: es, ?_, ?_⟩
      · rw [hes, he, List.append_assoc, List.singleton_append]
      · rw [hes2, he2, List.append_assoc, List.singleton_append]

theorem disaggregate_frame {yChildren : List DataNode} {A B : List Nat}
    (hB : ∀ y ∈ yChildren, y.getIndex ∉ B) :
    ∀ (fuel : Nat) {w w' : Work}, (∀ x ∈ w.xIter, x.getIndex ∉ A) →
      disaggregate yChildren fuel w = .ok w' → AgreeOn A B w w'
  | 0, _, _, _, h => by simp [disaggregate] at h
  | fuel + 1, w, w', hA, h => by
    rw [disaggregate] at h
    obtain ⟨⟨b, w1⟩, hstep, h⟩ := Run.bind_eq_ok.1 h
    obtain ⟨hag, hA1⟩ := disaggregateStep_frame hA hB hstep
    cases b with
    | true =>
      simp only [if_true] at h
      injection h with h
      subst h
      exact hag
    | false =>
      simp only [Bool.false_eq_true, if_false] at h
      exact hag.trans (disaggregate_frame hB fuel hA1 h)

theorem edgeGroup_of_ok {fuel : Nat} {w : Work} {t : Transport} {g : List Transport}
    (h : edgeRun fuel w t = .ok g) : edgeGroup fuel w t = g := by
  unfold edgeGroup
  rw [h]

theorem propagateLoop_independent {nx ny : Nat} {xs ys : List DataNode}
    (hsx : SinkFacts nx xs) (hsy : SinkFacts ny ys) (fuel : Nat) (w0 : Work) :
    ∀ (ts : List Transport) (w : Work), (∀ t ∈ ts, t.x ∈ xs ∧ t.y ∈ ys) →
      ts.Pairwise Apart →
      (∀ t ∈ ts, AgreeOn (t.x.getChildren.map DataNode.getIndex)
        (t.y.getChildren.map DataNode.getIndex) w0 w) →
      (∀ w', propagateLoop fuel ts w = .ok w' →
        (∀ t ∈ ts, ∃ g, edgeRun fuel w0 t = .ok g) ∧
        w'.transports = w.transports ++ ts.flatMap (edgeGroup fuel w0)) ∧
      ((∀ t ∈ ts, ∃ g, edgeRun fuel w0 t = .ok g) → ∃ w', propagateLoop fuel ts w = .ok w')
  | [], w, _, _, _ => by
    refine ⟨?_, fun _ => ⟨w, rfl⟩⟩
    · intro w' h
      simp only [propagateLoop] at h
      injection h with h
      subst h
      exact ⟨fun t ht => (by cases ht), by simp⟩
  | t :: ts, w, hmem, hpair, hag => by
    rw [List.pairwise_cons] at hpair
    have hmem2 : ∀ t2 ∈ ts, t2.x ∈ xs ∧ t2.y ∈ ys :=
      fun t2 h2 => hmem t2 (List.mem_cons_of_mem _ h2)
    obtain ⟨htx, hty⟩ := hmem t (List.mem_cons_self _ _)
    have hagt := hag t (List.mem_cons_self _ _)
    have hA : ∀ x ∈ t.x.getChildren, x.getIndex ∈ t.x.getChildren.map DataNode.getIndex :=
      fun x hx => List.mem_map.2 ⟨x, hx, rfl⟩
    have hB : ∀ y ∈ t.y.getChildren, y.getIndex ∈ t.y.getChildren.map DataNode.getIndex :=
      fun y hy => List.mem_map.2 ⟨y, hy, rfl⟩
    have hag0 : AgreeOn (t.x.getChildren.map DataNode.getIndex)
        (t.y.getChildren.map DataNode.getIndex)
        { w0 with tmpAmount := t.amount, xIter := t.x.getChildren, transports := [] }
        { w with tmpAmount := t.amount, xIter := t.x.getChildren } :=
      ⟨hagt.x, hagt.y, hagt.cost, hagt.shape⟩
    -- what the edge `t` leaves untouched covers the regions of the edges to come
    have hrest : ∀ w1, disaggregate t.y.getChildren fuel
        { w with tmpAmount := t.amount, xIter := t.x.getChildren } = .ok w1 →
        ∀ t2 ∈ ts, AgreeOn (t2.x.getChildren.map DataNode.getIndex)
          (t2.y.getChildren.map DataNode.getIndex) w0 w1 := by
      intro w1 h1 t2 h2
      obtain ⟨hx2, hy2⟩ := hmem2 t2 h2
      obtain ⟨hax, hay⟩ := hpair.1 t2 h2
      have hfr := disaggregate_frame (A := t2.x.getChildren.map DataNode.getIndex)
        (B := t2.y.getChildren.map DataNode.getIndex)
        (fun y hy hm => by
          obtain ⟨c, hc, hci⟩ := List.mem_map.1 hm
          exact hsy.disjoint t.y hty t2.y hy2 hay y hy c hc hci.symm)
        fuel
        (fun x hx hm => by
          obtain ⟨c, hc, hci⟩ := List.mem_map.1 hm
          exact hsx.disjoint t.x htx t2.x hx2 hax x hx c hc hci.symm) h1
      have hag2 := hag t2 (List.mem_cons_of_mem _ h2)
      have hag3 : AgreeOn (t2.x.getChildren.map DataNode.getIndex)
          (t2.y.getChildren.map DataNode.getIndex) w0
          { w with tmpAmount := t.amount, xIter := t.x.getChildren } :=
        ⟨hag2.x, hag2.y, hag2.cost, hag2.shape⟩
      exact hag3.trans hfr
    constructor
    · intro w' h
      rw [propagateLoop] at h
      obtain ⟨w1, h1, h⟩ := Run.bind_eq_ok.1 h
      obtain ⟨w01, h01, -, es, hes, hes0⟩ :=
        disaggregate_local hB fuel hA hag0.symm rfl rfl h1
      have hrun : edgeRun fuel w0 t = .ok es := by
        unfold edgeRun
        rw [h01, Run.ok_bind, hes0]
        rfl
      obtain ⟨hall, htr⟩ := (propagateLoop_independent hsx hsy fuel w0 ts w1 hmem2 hpair.2
        (hrest w1 h1)).1 w' h
      constructor
      · intro t2 h2
        rcases List.mem_cons.1 h2 with e | e
        · subst e
          exact ⟨es, hrun⟩
        · exact hall t2 e
      · rw [htr, hes, List.flatMap_cons, edgeGroup_of_ok hrun, List.append_assoc]
    · intro hall
      obtain ⟨g, hg⟩ := hall t (List.mem_cons_self _ _)
      unfold edgeRun at hg
      obtain ⟨w01, h01, -⟩ := Run.bind_eq_ok.1 hg
      obtain ⟨w1, h1, -, -⟩ := disaggregate_local hB fuel hA hag0 rfl rfl h01
      obtain ⟨w', hw'⟩ := (propagateLoop_independent hsx hsy fuel w0 ts w1 hmem2 hpair.2
        (hrest w1 h1)).2 (fun t2 h2 => hall t2 (List.mem_cons_of_mem _ h2))
      exact ⟨w', by rw [propagateLoop, h1, Run.ok_bind, hw']⟩

theorem apart_symm {a b : Transport} (h : Apart a b) : Apart b a := ⟨h.1.symm, h.2.symm⟩

theorem propagate_order_independent {X Y : List (List DataNode)}
    {costChain : List (List (List ℚ))} {plan plan' : TransportPlan} {xs ys : List DataNode}
    (hX : ChainInvariant X) (hY : ChainInvariant Y)
    (hxs : X[plan.level]? = some xs) (hys : Y[plan.level]? = some ys)
    (hmem : ∀ t ∈ plan.transports, t.x ∈ xs ∧ t.y ∈ ys)
    (hapart : plan.transports.Pairwise Apart)
    (hlevel : plan'.level = plan.level) (hperm : plan'.transports.Perm plan.transports)
    {fuel : Nat} {newPlan : TransportPlan}
    (h : propagate fuel costChain X Y plan = .ok newPlan) :
    ∃ newPlan' fx fy cost, propagate fuel costChain X Y plan' = .ok newPlan' ∧
      X[plan.level + 1]? = some fx ∧ Y[plan.level + 1]? = some fy ∧
      costChain[plan.level + 1]? = some cost ∧
      newPlan.transports
        = plan.transports.flatMap (edgeGroup fuel (initialWork fx fy cost)) ∧
      newPlan'.transports
        = plan'.transports.flatMap (edgeGroup fuel (initialWork fx fy cost)) := by
  obtain ⟨fx, fy, hfx, hfy⟩ := propagate_levels h
  unfold propagate at h
  rw [hfx, Run.ok_bind, hfy, Run.ok_bind] at h
  obtain ⟨cost, hcost, h⟩ := Run.bind_eq_ok.1 h
  obtain ⟨wf, hloop, h⟩ := Run.bind_eq_ok.1 h
  injection h with h
  subst h
  have hfx2 := Run.at_eq_ok.1 hfx
  have hfy2 := Run.at_eq_ok.1 hfy
  have hsx := sinkFacts_of_coarsens (hX.steps _ xs fx hxs hfx2)
    (hX.index fx (List.getElem?_mem hfx2))
  have hsy := sinkFacts_of_coarsens (hY.steps _ ys fy hys hfy2)
    (hY.index fy (List.getElem?_mem hfy2))
  have hind := propagateLoop_independent hsx hsy fuel (initialWork fx fy cost)
    plan.transports (initialWork fx fy cost) hmem hapart (fun _ _ => AgreeOn.refl _ _ _)
  obtain ⟨hall, htr⟩ := hind.1 wf hloop
  have hmem2 : ∀ t ∈ plan'.transports, t.x ∈ xs ∧ t.y ∈ ys :=
    fun t ht => hmem t (hperm.subset ht)
  have hapart2 : plan'.transports.Pairwise Apart :=
    (hperm.pairwise_iff (fun hab => apart_symm hab)).2 hapart
  have hind2 := propagateLoop_independent hsx hsy fuel (initialWork fx fy cost)
    plan'.transports (initialWork fx fy cost) hmem2 hapart2 (fun _ _ => AgreeOn.refl _ _ _)
  obtain ⟨wf2, hloop2⟩ := hind2.2 (fun t ht => hall t (hperm.subset ht))
  obtain ⟨-, htr2⟩ := hind2.1 wf2 hloop2
  refine ⟨⟨plan.level + 1, wf2.transports⟩, fx, fy, cost, ?_, hfx2, hfy2,
    Run.at_eq_ok.1 hcost, ?_, ?_⟩
  · unfold propagate
    rw [hlevel, hfx, Run.ok_bind, hfy, Run.ok_bind, hcost, Run.ok_bind, hloop2, Run.ok_bind]
  · rw [htr]
    rfl
  · rw [htr2]
    rfl

/-- C17 (as amended): for chains satisfying the chain invariant and a plan whose coarse
edges have pairwise different sources and pairwise different sinks, the children of the
sources of two edges have no index in common, nor have the children of their sinks; and
whenever `propagate` returns on the plan, it returns on every reordering of its edges,
each coarse edge yields in both runs the fine edges it yields when it is dispensed alone
from the initial working copies, and so the two new plans hold the same multiset of
fine edges. -/
theorem edge_order_independence (X Y : List (List DataNode))
    (costChain : List (List (List ℚ))) (plan plan' : TransportPlan) (xs ys : List DataNode)
    (hX : ChainInvariant X) (hY : ChainInvariant Y)
    (hxs : X[plan.level]? = some xs) (hys : Y[plan.level]? = some ys)
    (hmem : ∀ t ∈ plan.transports, t.x ∈ xs ∧ t.y ∈ ys)
    (hapart : plan.transports.Pairwise Apart)
    (hlevel : plan'.level = plan.level) (hperm : plan'.transports.Perm plan.transports)
    (fuel : Nat) (newPlan : TransportPlan)
    (h : propagate fuel costChain X Y plan = .ok newPlan) :
    (∀ a ∈ plan.transports, ∀ b ∈ plan.transports, Apart a b →
      (∀ c ∈ a.x.getChildren, ∀ d ∈ b.x.getChildren, c.getIndex ≠ d.getIndex) ∧
      (∀ c ∈ a.y.getChildren, ∀ d ∈ b.y.getChildren, c.getIndex ≠ d.getIndex)) ∧
    ∃ newPlan' fx fy cost, propagate fuel costChain X Y plan' = .ok newPlan' ∧
      X[plan.level + 1]? = some fx ∧ Y[plan.level + 1]? = some fy ∧
      costChain[plan.level + 1]? = some cost ∧
      newPlan.transports
        = plan.transports.flatMap (edgeGroup fuel (initialWork fx fy cost)) ∧
      newPlan'.transports
        = plan'.transports.flatMap (edgeGroup fuel (initialWork fx fy cost)) ∧
      newPlan'.transports.Perm newPlan.transports := by
  obtain ⟨newPlan', fx, fy, cost, hrun, hfx, hfy, hcost, h1, h2⟩ :=
    propagate_order_independent hX hY hxs hys hmem hapart hlevel hperm h
  have hsx := sinkFacts_of_coarsens (hX.steps _ xs fx hxs hfx)
    (hX.index fx (List.getElem?_mem hfx))
  have hsy := sinkFacts_of_coarsens (hY.steps _ ys fy hys hfy)
    (hY.index fy (List.getElem?_mem hfy))
  refine ⟨?_, newPlan', fx, fy, cost, hrun, hfx, hfy, hcost, h1, h2, ?_⟩
  · intro a ha b hb hab
    exact ⟨hsx.disjoint a.x (hmem a ha).1 b.x (hmem b hb).1 hab.1,
      hsy.disjoint a.y (hmem a ha).2 b.y (hmem b hb).2 hab.2⟩
  · rw [h1, h2]
    exact hperm.flatMap_right _

theorem edge_order_independence_witness :
    ∃ (Xc Yc : List (List DataNode)) (cc : List (List (List ℚ))) (ts : List Transport)
      (newPlan newPlan' : TransportPlan),
      DecompositionChain 8 16 apartX 4 2 = .ok Xc ∧
      DecompositionChain 8 16 orderY 4 2 = .ok Yc ∧
      interactOf ts = [(0, 0, 1), (1, 3, 1)] ∧
      propagate 8 cc Xc Yc ⟨1, ts⟩ = .ok newPlan ∧
      propagate 8 cc Xc Yc ⟨1, ts.reverse⟩ = .ok newPlan' ∧
      newPlan'.transports.Perm newPlan.transports := by
  have hrun : orderRun 8 apartX orderY [(0, 0, 1), (1, 3, 1)]
      = .ok [(0, 0, 1), (2, 10, 0), (2, 11, 0), (2, 14, 1)] := by decide!
  unfold orderRun at hrun
  obtain ⟨Xc, hXc, hrun⟩ := Run.bind_eq_ok.1 hrun
  obtain ⟨Yc, hYc, hrun⟩ := Run.bind_eq_ok.1 hrun
  obtain ⟨leavesX, -, hrun⟩ := Run.bind_eq_ok.1 hrun
  obtain ⟨cc, -, hrun⟩ := Run.bind_eq_ok.1 hrun
  obtain ⟨xs, hxs, hrun⟩ := Run.bind_eq_ok.1 hrun
  obtain ⟨ys, hys, hrun⟩ := Run.bind_eq_ok.1 hrun
  obtain ⟨ts, hts, hrun⟩ := Run.bind_eq_ok.1 hrun
  obtain ⟨np, hnp, -⟩ := Run.bind_eq_ok.1 hrun
  have hiX := DecompositionChain_invariant (by decide) hXc
  have hiY := DecompositionChain_invariant (by decide) hYc
  simp only [planOf, Run.forEach] at hts
  obtain ⟨t1, ht1, hts⟩ := Run.bind_eq_ok.1 hts
  obtain ⟨r1, hr1, hts⟩ := Run.bind_eq_ok.1 hts
  obtain ⟨t2, ht2, hr1⟩ := Run.bind_eq_ok.1 hr1
  obtain ⟨x0, hx0, ht1⟩ := Run.bind_eq_ok.1 ht1
  obtain ⟨y0, hy0, ht1⟩ := Run.bind_eq_ok.1 ht1
  obtain ⟨x1, hx1, ht2⟩ := Run.bind_eq_ok.1 ht2
  obtain ⟨y3, hy3, ht2⟩ := Run.bind_eq_ok.1 ht2
  simp only [Run.ok_bind] at hr1
  injection ht1 with ht1
  injection ht2 with ht2
  injection hr1 with hr1
  injection hts with hts
  subst ht1 ht2 hr1 hts
  have hidx := hiX.index xs (Run.at_mem hxs)
  have hidy := hiY.index ys (Run.at_mem hys)
  have e0 := index_of_getElem? hidx (Run.at_eq_ok.1 hx0)
  have e1 := index_of_getElem? hidx (Run.at_eq_ok.1 hx1)
  have f0 := index_of_getElem? hidy (Run.at_eq_ok.1 hy0)
  have f3 := index_of_getElem? hidy (Run.at_eq_ok.1 hy3)
  obtain ⟨-, np2, -, -, -, hrun2, -, -, -, -, -, hperm⟩ :=
    edge_order_independence Xc Yc cc ⟨1, [⟨x0, y0, 1⟩, ⟨x1, y3, 1⟩]⟩
      ⟨1, [⟨x0, y0, 1⟩, ⟨x1, y3, 1⟩].reverse⟩ xs ys hiX hiY (Run.at_eq_ok.1 hxs)
      (Run.at_eq_ok.1 hys)
      (by
        intro t ht
        simp only [List.mem_cons, List.mem_singleton, List.not_mem_nil, or_false] at ht
        rcases ht with rfl | rfl
        · exact ⟨Run.at_mem hx0, Run.at_mem hy0⟩
        · exact ⟨Run.at_mem hx1, Run.at_mem hy3⟩)
      (by
        refine List.pairwise_cons.2 ⟨?_, List.pairwise_singleton _ _⟩
        intro b hb
        simp only [List.mem_singleton] at hb
        subst hb
        exact ⟨by show x0.getIndex ≠ x1.getIndex; rw [e0, e1]; decide,
          by show y0.getIndex ≠ y3.getIndex; rw [f0, f3]; decide⟩)
      rfl (List.reverse_perm _) 8 np hnp
  refine ⟨Xc, Yc, cc, _, np, np2, hXc, hYc, ?_, hnp, hrun2, hperm⟩
  simp only [interactOf, List.map_cons, List.map_nil, e0, e1, f0, f3]

/-- C17, counterexample: on the 4×4 grids `orderX` and `orderY`, the level-1 plan with
the two coarse edges `(0,0,1)` and `(0,3,1)`, which share their source, propagates to
the fine edges `(0,0,1), (4,10,0), (4,14,1)`, and with the same two edges in the other
order to `(0,10,0), (0,11,0), (0,14,1), (4,4,0), (4,0,1)`: the fine source node `0` is
used by whichever coarse edge comes first, and the two results are not the same
multiset. -/
theorem edge_order_dependence :
    orderRun 8 orderX orderY [(0, 0, 1), (0, 3, 1)]
      = .ok [(0, 0, 1), (4, 10, 0), (4, 14, 1)] ∧
    orderRun 8 orderX orderY [(0, 3, 1), (0, 0, 1)]
      = .ok [(0, 10, 0), (0, 11, 0), (0, 14, 1), (4, 4, 0), (4, 0, 1)] ∧
    ¬ List.Perm [((0 : Nat), (0 : Nat), (1 : ℚ)), (4, 10, 0), (4, 14, 1)]
      [(0, 10, 0), (0, 11, 0), (0, 14, 1), (4, 4, 0), (4, 0, 1)] := by
  refine ⟨by decide!, by decide!, ?_⟩
  intro h
  have := h.length_eq
  simp at this

/-! ## A loop that never ends -/

theorem set_eq_self {α : Type} {v : List α} {i : Nat} {a : α} (h : v[i]? = some a) :
    v.set i a = v := by
  apply List.ext_getElem?
  intro n
  by_cases hn : i = n
  · subst hn
    rw [List.getElem?_set_self (lt_of_getElem?_eq_some h), h]
  · rw [List.getElem?_set_ne hn]

theorem set_getD_self {v : List ℚ} {i : Nat} (h : i < v.length) : v.set i (v.getD i 0) = v := by
  apply set_eq_self
  rw [List.getD_eq_getElem?_getD, List.getElem?_eq_getElem h]
  rfl

theorem map_set_of_columnInf {tmpCost : List (List Cost)} {j : Nat}
    (h : columnInf tmpCost j = true) : (tmpCost.map fun row => row.set j none) = tmpCost := by
  rw [columnInf_iff] at h
  conv_rhs => rw [← List.map_id tmpCost]
  apply List.map_congr_left
  intro row hr
  exact set_eq_self (h row hr)

theorem searchLoop_all_inf {tmpCost : List (List Cost)} {xIndex : Nat} {row : List Cost}
    (hrow : tmpCost[xIndex]? = some row) :
    ∀ (ys : List DataNode) (saved : DataNode), (∀ y ∈ ys, row[y.getIndex]? = some none) →
      searchLoop tmpCost xIndex ys none saved = .ok saved
  | [], _, _ => rfl
  | y :: ys, saved, h => by
    rw [searchLoop, Run.at_eq_ok.2 hrow, Run.ok_bind,
      Run.at_eq_ok.2 (h y (List.mem_cons_self _ _)), Run.ok_bind]
    have hlt : Cost.lt none none = false := rfl
    rw [hlt]
    simp only [Bool.false_eq_true, if_false]
    exact searchLoop_all_inf hrow ys saved (fun y2 h2 => h y2 (List.mem_cons_of_mem _ h2))

theorem disaggregateStep_stuck {yChildren : List DataNode} {w : Work}
    (h : Stuck yChildren w) :
    ∃ xf rest y0 ys, w.xIter = xf :: rest ∧ yChildren = y0 :: ys ∧
      disaggregateStep yChildren w
        = .ok (false, { w with transports := w.transports ++ [⟨xf, y0, 0⟩] }) := by
  obtain ⟨xf, rest, hit, hxX, hxC, hge⟩ := h.iter
  obtain ⟨tx, ty, tc, amt, it, tr⟩ := w
  simp only at hit hxX hxC hge
  subst hit
  cases hy : yChildren with
  | nil => exact absurd hy h.sinks
  | cons y0 ys =>
    refine ⟨xf, rest, y0, ys, rfl, rfl, ?_⟩
    have hmarked := h.marked
    rw [hy] at hmarked
    simp only at hmarked
    obtain ⟨hyY, hy0, hcol⟩ := hmarked y0 (List.mem_cons_self _ _)
    have hrow : tc[xf.getIndex]? = some (tc.get ⟨xf.getIndex, hxC⟩) := by
      simp [List.getElem?_eq_getElem hxC]
    generalize tc.get ⟨xf.getIndex, hxC⟩ = row at hrow
    have hEPS := EPS_pos
    have hskip : skipExhausted tx (xf :: rest) = .ok (xf :: rest) := by
      rw [skipExhausted.eq_def]
      simp only
      rw [at_getD hxX, Run.ok_bind, if_neg (not_lt.2 hge)]
    have hsearch : search tc xf.getIndex (y0 :: ys) = .ok y0 := by
      simp only [search]
      apply searchLoop_all_inf hrow
      intro y hym
      exact columnInf_iff.1 (hmarked y hym).2.2 row (List.getElem?_mem hrow)
    have hbcol : ∀ r ∈ tc, y0.getIndex < r.length :=
      fun r hr => lt_of_getElem?_eq_some (columnInf_iff.1 hcol r hr)
    have hfinal : ¬ (amt ≤ ty.getD y0.getIndex 0 + EPS ∧ amt ≤ tx.getD xf.getIndex 0 + EPS) := by
      have := h.amount
      simp only at this
      rw [hy0]
      intro hc
      linarith [hc.1]
    have hlt : ty.getD y0.getIndex 0 < tx.getD xf.getIndex 0 := by
      rw [hy0]
      linarith
    unfold disaggregateStep
    simp only
    rw [hskip, Run.ok_bind]
    simp only
    rw [at_getD hxX, Run.ok_bind, hsearch, Run.ok_bind, at_getD hyY, Run.ok_bind,
      if_neg hfinal, if_pos hlt, Run.store_eq_ok.2 ⟨hxX, rfl⟩, Run.ok_bind,
      Run.store_eq_ok.2 ⟨hyY, rfl⟩, Run.ok_bind, setToInf_column hbcol, Run.ok_bind,
      map_set_of_columnInf hcol, hy0, sub_zero, sub_zero, set_getD_self hxX]
    have hty : ty.set y0.getIndex 0 = ty := by
      have := set_getD_self hyY
      rw [hy0] at this
      exact this
    rw [hty]

theorem disaggregate_stuck {yChildren : List DataNode} :
    ∀ (fuel : Nat) (w : Work), Stuck yChildren w → disaggregate yChildren fuel w = .timeout
  | 0, _, _ => rfl
  | fuel + 1, w, h => by
    obtain ⟨xf, rest, y0, ys, -, -, hstep⟩ := disaggregateStep_stuck h
    rw [disaggregate, hstep, Run.ok_bind]
    simp only [Bool.false_eq_true, if_false]
    exact disaggregate_stuck fuel _ ⟨h.iter, h.sinks, h.marked, h.amount⟩

theorem disaggregate_passes_timeout {yChildren : List DataNode} {w w' : Work}
    (hp : Passes yChildren w w') (h : ∀ fuel, disaggregate yChildren fuel w' = .timeout) :
    ∀ fuel, disaggregate yChildren fuel w = .timeout := by
  induction hp with
  | refl w => exact h
  | step hstep _ ih =>
    intro fuel
    cases fuel with
    | zero => rfl
    | succ n =>
      rw [disaggregate, hstep, Run.ok_bind]
      simp only [Bool.false_eq_true, if_false]
      exact ih h n

theorem excessRun_eq :
    excessRun = .ok ([(0, 0, 2)], [false, false, false, false],
      ⟨[1, 0, 0, 0], [0, 0, 0, 0], List.replicate 4 (List.replicate 4 none), 1, [0, 1, 2, 3],
        [(0, 0, 1), (0, 1, 0), (0, 2, 0), (0, 3, 0)]⟩, [0, 1, 2, 3]) := by
  decide!

theorem stuck_numbers :
    ∀ j ∈ [0, 1, 2, 3], j < 4 ∧ ([0, 0, 0, 0] : List ℚ).getD j 0 = 0 ∧
      columnInf (List.replicate 4 (List.replicate 4 none)) j = true := by
  decide!

/-- C21: on the 2×2 grids `excessX = [[2,0],[0,0]]` (total mass `2`) and
`excessY = [[1,0],[0,0]]` (total mass `1`) with the squared distance between leaf
centers as cost, both chains, the cost hierarchy and the level-0 plan (one root-to-root
edge of amount `2`) are built, and `propagate` on that plan ends for no bound on the
passes of `while (true)`: it neither returns nor throws.  Four passes lead, without
`break`, from the initial working copies to a state with source residuals `[1,0,0,0]`,
sink residuals `[0,0,0,0]`, every cost `+∞` and the amount `1 > EPS` still to dispense,
having emitted `(0,0,1), (0,1,0), (0,2,0), (0,3,0)`; from there on every pass selects the
first sink child, emits an edge of amount `0` from the first source child to it, does
not `break` and changes nothing else. -/
theorem propagate_never_ends :
    gridTotal excessX = 2 ∧ gridTotal excessY = 1 ∧
    ∃ (Xc Yc : List (List DataNode)) (cc : List (List (List ℚ))) (plan : TransportPlan)
      (t : Transport) (fx fy : List DataNode) (cost : List (List ℚ)) (w4 : Work)
      (xf y0 : DataNode),
      DecompositionChain 2 4 excessX 2 2 = .ok Xc ∧
      DecompositionChain 2 4 excessY 2 2 = .ok Yc ∧
      decomposeCost exampleCost Xc Yc = .ok cc ∧
      TransportPlan.init Xc Yc = .ok plan ∧
      plan.level = 0 ∧ plan.transports = [t] ∧ interactOf plan.transports = [(0, 0, 2)] ∧
      (∀ fuel, propagate fuel cc Xc Yc plan = .timeout) ∧
      Xc[1]? = some fx ∧ Yc[1]? = some fy ∧ cc[1]? = some cost ∧
      Passes t.y.getChildren
        { initialWork fx fy cost with tmpAmount := t.amount, xIter := t.x.getChildren } w4 ∧
      w4.view = ⟨[1, 0, 0, 0], [0, 0, 0, 0], List.replicate 4 (List.replicate 4 none), 1,
        [0, 1, 2, 3], [(0, 0, 1), (0, 1, 0), (0, 2, 0), (0, 3, 0)]⟩ ∧
      EPS < w4.tmpAmount ∧
      w4.xIter.head? = some xf ∧ t.y.getChildren.head? = some y0 ∧
      xf.getIndex = 0 ∧ y0.getIndex = 0 ∧
      ∀ extra, disaggregateStep t.y.getChildren
          { w4 with transports := w4.transports ++ extra }
        = .ok (false, { w4 with transports := w4.transports ++ extra ++ [⟨xf, y0, 0⟩] }) := by
  refine ⟨by decide!, by decide!, ?_⟩
  have hrun := excessRun_eq
  unfold excessRun at hrun
  obtain ⟨Xc, hXc, hrun⟩ := Run.bind_eq_ok.1 hrun
  obtain ⟨Yc, hYc, hrun⟩ := Run.bind_eq_ok.1 hrun
  obtain ⟨cc, hcc, hrun⟩ := Run.bind_eq_ok.1 hrun
  obtain ⟨plan, hplan, hrun⟩ := Run.bind_eq_ok.1 hrun
  obtain ⟨fx, hfx, hrun⟩ := Run.bind_eq_ok.1 hrun
  obtain ⟨fy, hfy, hrun⟩ := Run.bind_eq_ok.1 hrun
  obtain ⟨cost, hcost, hrun⟩ := Run.bind_eq_ok.1 hrun
  obtain ⟨t, ht, hrun⟩ := Run.bind_eq_ok.1 hrun
  obtain ⟨⟨b1, w1⟩, h1, hrun⟩ := Run.bind_eq_ok.1 hrun
  obtain ⟨⟨b2, w2⟩, h2, hrun⟩ := Run.bind_eq_ok.1 hrun
  obtain ⟨⟨b3, w3⟩, h3, hrun⟩ := Run.bind_eq_ok.1 hrun
  obtain ⟨⟨b4, w4⟩, h4, hrun⟩ := Run.bind_eq_ok.1 hrun
  simp only at h2 h3 h4 hrun
  injection hrun with hrun
  simp only [Prod.mk.injEq, List.cons.injEq, and_true] at hrun
  obtain ⟨hp0, ⟨hb1, hb2, hb3, hb4⟩, hview, hS⟩ := hrun
  subst hb1 hb2 hb3 hb4
  obtain ⟨rx, ry, xs, ys, -, -, hpl⟩ := init_ok hplan
  have hts : plan.transports = [t] := by
    rw [hpl] at ht ⊢
    simp only [Run.at, List.getElem?_cons_zero] at ht
    injection ht with ht
    rw [ht]
  have hlevel : plan.level = 0 := by rw [hpl]
  have hpasses : Passes t.y.getChildren
      { initialWork fx fy cost with tmpAmount := t.amount, xIter := t.x.getChildren } w4 :=
    Passes.step h1 (Passes.step h2 (Passes.step h3 (Passes.step h4 (Passes.refl _))))
  have hvX : w4.tmpXMeasure = [1, 0, 0, 0] := congrArg WorkView.tmpXMeasure hview
  have hvY : w4.tmpYMeasure = [0, 0, 0, 0] := congrArg WorkView.tmpYMeasure hview
  have hvC : w4.tmpCost = List.replicate 4 (List.replicate 4 none) :=
    congrArg WorkView.tmpCost hview
  have hvA : w4.tmpAmount = 1 := congrArg WorkView.tmpAmount hview
  have hvI : w4.xIter.map DataNode.getIndex = [0, 1, 2, 3] := congrArg WorkView.xIter hview
  have hEPS : EPS < 1 := by decide!
  have hamt : EPS < w4.tmpAmount := by rw [hvA]; exact hEPS
  obtain ⟨xf, rest, hit, hxf0⟩ : ∃ xf rest, w4.xIter = xf :: rest ∧ xf.getIndex = 0 := by
    cases hx : w4.xIter with
    | nil => rw [hx] at hvI; cases hvI
    | cons xf rest =>
      rw [hx] at hvI
      simp only [List.map_cons, List.cons.injEq] at hvI
      exact ⟨xf, rest, rfl, hvI.1⟩
  obtain ⟨y0, ys0, hSy, hy00⟩ : ∃ y0 ys0, t.y.getChildren = y0 :: ys0 ∧ y0.getIndex = 0 := by
    cases hy : t.y.getChildren with
    | nil => rw [hy] at hS; cases hS
    | cons y0 ys0 =>
      rw [hy] at hS
      simp only [List.map_cons, List.cons.injEq] at hS
      exact ⟨y0, ys0, rfl, hS.1⟩
  have hstuck : ∀ extra, Stuck t.y.getChildren
      { w4 with transports := w4.transports ++ extra } := by
    intro extra
    refine ⟨⟨xf, rest, hit, ?_, ?_, ?_⟩, ?_, ?_, hamt⟩
    · show xf.getIndex < w4.tmpXMeasure.length
      rw [hvX, hxf0]
      decide
    · show xf.getIndex < w4.tmpCost.length
      rw [hvC, hxf0]
      decide
    · show EPS ≤ w4.tmpXMeasure.getD xf.getIndex 0
      rw [hvX, hxf0]
      exact le_of_lt hEPS
    · rw [hSy]
      exact List.cons_ne_nil _ _
    · intro y hy
      show y.getIndex < w4.tmpYMeasure.length ∧ w4.tmpYMeasure.getD y.getIndex 0 = 0 ∧
        columnInf w4.tmpCost y.getIndex = true
      rw [hvY, hvC]
      have hmem : y.getIndex ∈ [0, 1, 2, 3] := by
        rw [← hS]
        exact List.mem_map.2 ⟨y, hy, rfl⟩
      exact stuck_numbers _ hmem
  have hnever : ∀ fuel, propagate fuel cc Xc Yc plan = .timeout := by
    intro fuel
    unfold propagate
    rw [hlevel, hfx, Run.ok_bind, hfy, Run.ok_bind, hcost, Run.ok_bind, hts, propagateLoop,
      disaggregate_passes_timeout hpasses
        (fun f => by
          have := disaggregate_stuck f _ (hstuck [])
          rw [List.append_nil] at this
          exact this) fuel]
    rfl
  refine ⟨Xc, Yc, cc, plan, t, fx, fy, cost, w4, xf, y0, hXc, hYc, hcc, hplan, hlevel, hts,
    hp0, hnever, Run.at_eq_ok.1 hfx, Run.at_eq_ok.1 hfy, Run.at_eq_ok.1 hcost, hpasses,
    hview, hamt, by rw [hit]; rfl, by rw [hSy]; rfl, hxf0, hy00, ?_⟩
  intro extra
  obtain ⟨xf2, rest2, y2, ys2, hit2, hS2, hstep⟩ := disaggregateStep_stuck (hstuck extra)
  have hit3 : xf :: rest = xf2 :: rest2 := hit.symm.trans hit2
  have hS3 : y0 :: ys0 = y2 :: ys2 := hSy.symm.trans hS2
  injection hit3 with e1 _
  injection hS3 with e2 _
  subst e1 e2
  exact hstep

end Multiscale
